import Mathlib

/-!
Shallow embedding of the `rtree` radix tree (src/radix-tree.go) and proofs
about its specification.  Bytes are modelled as `Nat` (only equality and `<`
on bytes matter to the algorithms), byte strings as `List Nat`, and the
dynamically typed `interface{}` values as `Option (List Nat)` (`none` is Go's
`nil`).  Fallible or panicking code paths return `Option`/`Except`.
-/

namespace RTree

/-- Strict byte-lexicographic order on byte strings (the order in which the
Go code keeps children sorted and `Walk` emits keys). -/
def lexLt : List Nat → List Nat → Bool
  | [], [] => false
  | [], _ :: _ => true
  | _ :: _, [] => false
  | a :: as, b :: bs => a < b || (a = b && lexLt as bs)

@[simp] theorem lexLt_nil_nil : lexLt [] [] = false := rfl
@[simp] theorem lexLt_nil_cons (b : Nat) (bs : List Nat) :
    lexLt [] (b :: bs) = true := rfl
@[simp] theorem lexLt_cons_nil (a : Nat) (as : List Nat) :
    lexLt (a :: as) [] = false := rfl
theorem lexLt_cons_cons (a b : Nat) (as bs : List Nat) :
    lexLt (a :: as) (b :: bs) = (decide (a < b) || (decide (a = b) && lexLt as bs)) := rfl

theorem lexLt_irrefl (l : List Nat) : lexLt l l = false := by
  induction l with
  | nil => rfl
  | cons a as ih => simp [lexLt_cons_cons, ih]

theorem lexLt_trans {a b c : List Nat} (h1 : lexLt a b = true) (h2 : lexLt b c = true) :
    lexLt a c = true := by
  induction a generalizing b c with
  | nil =>
    cases c with
    | nil =>
      cases b with
      | nil => simp at h1
      | cons y ys => simp at h2
    | cons z zs => simp
  | cons x xs ih =>
    cases b with
    | nil => simp at h1
    | cons y ys =>
      cases c with
      | nil => simp at h2
      | cons z zs =>
        simp only [lexLt_cons_cons, Bool.or_eq_true, Bool.and_eq_true,
          decide_eq_true_eq] at h1 h2 ⊢
        rcases h1 with h1 | ⟨rfl, h1⟩
        · rcases h2 with h2 | ⟨rfl, h2⟩
          · exact Or.inl (Nat.lt_trans h1 h2)
          · exact Or.inl h1
        · rcases h2 with h2 | ⟨rfl, h2⟩
          · exact Or.inl h2
          · exact Or.inr ⟨rfl, ih h1 h2⟩

theorem lexLt_total {a b : List Nat} (hne : a ≠ b) :
    lexLt a b = true ∨ lexLt b a = true := by
  induction a generalizing b with
  | nil =>
    cases b with
    | nil => exact absurd rfl hne
    | cons y ys => exact Or.inl (by simp)
  | cons x xs ih =>
    cases b with
    | nil => exact Or.inr (by simp)
    | cons y ys =>
      by_cases hx : x = y
      · subst hx
        have hys : xs ≠ ys := fun h => hne (by rw [h])
        rcases ih hys with h | h
        · exact Or.inl (by simp [lexLt_cons_cons, h])
        · exact Or.inr (by simp [lexLt_cons_cons, h])
      · rcases Nat.lt_or_ge x y with h | h
        · exact Or.inl (by simp [lexLt_cons_cons, h])
        · have : y < x := lt_of_le_of_ne h (fun hyx => hx hyx.symm)
          exact Or.inr (by simp [lexLt_cons_cons, this])

theorem lexLt_asymm {a b : List Nat} (h : lexLt a b = true) : lexLt b a = false := by
  by_contra hb
  have hb' : lexLt b a = true := by
    cases hba : lexLt b a with
    | false => exact absurd hba hb
    | true => rfl
  have := lexLt_trans h hb'
  rw [lexLt_irrefl] at this
  exact Bool.noConfusion this

theorem lexLt_ne {a b : List Nat} (h : lexLt a b = true) : a ≠ b := by
  intro heq; subst heq; rw [lexLt_irrefl] at h; exact Bool.noConfusion h

/-- Prepending a common prefix preserves the lexicographic comparison. -/
theorem lexLt_append_same (p a b : List Nat) :
    lexLt (p ++ a) (p ++ b) = lexLt a b := by
  induction p with
  | nil => simp
  | cons x xs ih => simp [lexLt_cons_cons, ih]

/-- A string is lexicographically below any of its proper extensions. -/
theorem lexLt_self_append {a : List Nat} (p : List Nat) (ha : a ≠ []) :
    lexLt p (p ++ a) = true := by
  have : lexLt ([] : List Nat) a = true := by
    cases a with
    | nil => exact absurd rfl ha
    | cons x xs => simp
  calc lexLt p (p ++ a) = lexLt (p ++ []) (p ++ a) := by rw [List.append_nil]
    _ = lexLt [] a := lexLt_append_same p [] a
    _ = true := this

/-- Diverging first bytes decide the lexicographic comparison. -/
theorem lexLt_of_head_lt {x y : Nat} (h : x < y) (xs ys : List Nat) :
    lexLt (x :: xs) (y :: ys) = true := by
  simp [lexLt_cons_cons, h]

/-- `node` from src/radix-tree.go: a value (`interface{}`, `none` = Go `nil`),
a prefix segment, and the ordered child list.  The copy-on-write tag `cow`
only governs in-place-versus-copy mutation in Go and does not influence any
computed value; it is modelled separately in the heap model further below. -/
inductive RNode : Type where
  | mk (value : Option (List Nat)) (pfx : List Nat) (children : List RNode) : RNode

def RNode.value : RNode → Option (List Nat)
  | .mk v _ _ => v

def RNode.pfx : RNode → List Nat
  | .mk _ p _ => p

def RNode.children : RNode → List RNode
  | .mk _ _ cs => cs

@[simp] theorem RNode.value_mk (v p cs) : (RNode.mk v p cs).value = v := rfl
@[simp] theorem RNode.pfx_mk (v p cs) : (RNode.mk v p cs).pfx = p := rfl
@[simp] theorem RNode.children_mk (v p cs) : (RNode.mk v p cs).children = cs := rfl

theorem RNode.eta (n : RNode) : RNode.mk n.value n.pfx n.children = n := by
  cases n; rfl

/-- The first byte of a node's prefix, `node.prefix[0]` in Go.  Reachable
nodes always carry a non-empty prefix (invariant proved below), so the
default value for an empty prefix is never observed there. -/
def RNode.headByte (n : RNode) : Nat := n.pfx.headD 0

theorem sizeOf_lt_of_mem_children {c : RNode} {n : RNode}
    (h : c ∈ n.children) : sizeOf c < sizeOf n := by
  cases n with
  | mk v p cs =>
    have h1 : sizeOf c < sizeOf cs := List.sizeOf_lt_of_mem h
    simp only [RNode.mk.sizeOf_spec]
    omega

theorem sizeOf_children_lt (n : RNode) : sizeOf n.children < sizeOf n := by
  cases n with
  | mk v p cs =>
    simp only [RNode.mk.sizeOf_spec, RNode.children]
    omega

/-- Simultaneous induction over a node and a child list, packaging the
nested recursor of `RNode`. -/
theorem rnodeMutualInd {P : RNode → Prop} {Q : List RNode → Prop}
    (hmk : ∀ v p cs, Q cs → P (RNode.mk v p cs))
    (hnil : Q []) (hcons : ∀ c cs, P c → Q cs → Q (c :: cs)) :
    (∀ n, P n) ∧ (∀ cs, Q cs) := by
  have hn : ∀ n, P n := fun n => @RNode.rec P Q hmk hnil hcons n
  refine ⟨hn, ?_⟩
  intro cs
  induction cs with
  | nil => exact hnil
  | cons c rest ih => exact hcons c rest (hn c) ih

mutual
/-- The (key, value) pair that `Walk` hands to its visitor at one node plus
the pairs of the node's subtree, for the node reached along accumulated path
prefix `pfx`: the key is the concatenation of the prefix segments on the
path (which is how the Go tests and the spec read the `prefixes` argument of
the visitor), the value is the non-nil `value`. -/
def entriesN (pfx : List Nat) : RNode → List (List Nat × List Nat)
  | .mk v p cs =>
    (match v with
     | some val => [(pfx ++ p, val)]
     | none => []) ++ entriesF (pfx ++ p) cs

/-- `children.walk` iterates the slice front to back. -/
def entriesF (pfx : List Nat) : List RNode → List (List Nat × List Nat)
  | [] => []
  | c :: rest => entriesN pfx c ++ entriesF pfx rest
end

theorem entriesN_def (pfx : List Nat) (n : RNode) :
    entriesN pfx n =
      (match n.value with
       | some val => [(pfx ++ n.pfx, val)]
       | none => []) ++ entriesF (pfx ++ n.pfx) n.children := by
  cases n; rfl

@[simp] theorem entriesF_nil (pfx : List Nat) : entriesF pfx [] = [] := rfl
@[simp] theorem entriesF_cons (pfx : List Nat) (c : RNode) (rest : List RNode) :
    entriesF pfx (c :: rest) = entriesN pfx c ++ entriesF pfx rest := rfl

theorem entriesF_append (pfx : List Nat) (cs1 cs2 : List RNode) :
    entriesF pfx (cs1 ++ cs2) = entriesF pfx cs1 ++ entriesF pfx cs2 := by
  induction cs1 with
  | nil => simp
  | cons c rest ih => simp [ih]

/-- Walk keys only (the concatenated `prefixes` argument of the visitor). -/
def walkKeysF (cs : List RNode) : List (List Nat) :=
  (entriesF [] cs).map Prod.fst

mutual
/-- Well-formedness invariant of reachable trees (spec §3):  every node has
a non-empty prefix; a node with no value has at least two children (this
subsumes canonical form and rules out valueless leaves); children are
strictly sorted by pairwise-distinct first bytes. -/
def wfN : RNode → Bool
  | .mk v p cs => (!p.isEmpty) && (v.isSome || decide (2 ≤ cs.length)) && wfF cs

/-- Sorted-children half of the invariant. -/
def wfF : List RNode → Bool
  | [] => true
  | [c] => wfN c
  | c1 :: c2 :: rest =>
      wfN c1 && decide (c1.headByte < c2.headByte) && wfF (c2 :: rest)
end

mutual
/-- Canonical compressed form exactly as claim C3 states it: no reachable
node has exactly one child and no value. -/
def canonN : RNode → Bool
  | .mk v _ cs => !(decide (cs.length = 1) && v.isNone) && canonF cs

/-- Canonical form for a whole child list. -/
def canonF : List RNode → Bool
  | [] => true
  | c :: rest => canonN c && canonF rest
end

theorem wfN_def (n : RNode) :
    wfN n = ((!n.pfx.isEmpty) && (n.value.isSome || decide (2 ≤ n.children.length))
      && wfF n.children) := by
  cases n; rfl

theorem wfF_cons_cons (c1 c2 : RNode) (rest : List RNode) :
    wfF (c1 :: c2 :: rest)
      = (wfN c1 && decide (c1.headByte < c2.headByte) && wfF (c2 :: rest)) := rfl

@[simp] theorem wfF_nil : wfF [] = true := rfl
@[simp] theorem wfF_singleton (c : RNode) : wfF [c] = wfN c := rfl

theorem wfF_cons {c : RNode} {rest : List RNode} (h : wfF (c :: rest) = true) :
    wfN c = true ∧ wfF rest = true := by
  cases rest with
  | nil => exact ⟨h, rfl⟩
  | cons c2 rest2 =>
    rw [wfF_cons_cons] at h
    simp only [Bool.and_eq_true] at h
    exact ⟨h.1.1, h.2⟩

theorem wfN_pfx_ne {n : RNode} (h : wfN n = true) : n.pfx ≠ [] := by
  rw [wfN_def] at h
  simp only [Bool.and_eq_true] at h
  intro hemp
  have := h.1.1
  rw [hemp] at this
  simp at this

theorem wfN_value_children {n : RNode} (h : wfN n = true) :
    n.value.isSome = true ∨ 2 ≤ n.children.length := by
  rw [wfN_def] at h
  simp only [Bool.and_eq_true, Bool.or_eq_true, decide_eq_true_eq] at h
  exact h.1.2

theorem wfN_children_wf {n : RNode} (h : wfN n = true) : wfF n.children = true := by
  rw [wfN_def] at h
  simp only [Bool.and_eq_true] at h
  exact h.2

theorem wfN_of_parts {n : RNode} (h1 : n.pfx ≠ [])
    (h2 : n.value.isSome = true ∨ 2 ≤ n.children.length)
    (h3 : wfF n.children = true) : wfN n = true := by
  rw [wfN_def]
  simp only [Bool.and_eq_true, Bool.or_eq_true, decide_eq_true_eq]
  exact ⟨⟨by simp [h1], h2⟩, h3⟩

theorem wfN_canonN : ∀ n, wfN n = true → canonN n = true := by
  have := rnodeMutualInd (P := fun n => wfN n = true → canonN n = true)
    (Q := fun cs => wfF cs = true → canonF cs = true) ?hmk ?hnil ?hcons
  · exact this.1
  case hmk =>
    intro v p cs ihcs h
    rw [wfN_def] at h
    simp only [Bool.and_eq_true, Bool.or_eq_true, RNode.value_mk,
      RNode.children_mk, RNode.pfx_mk] at h
    have hcs := ihcs h.2
    show (!(decide (cs.length = 1) && v.isNone) && canonF cs) = true
    simp only [Bool.and_eq_true, Bool.not_eq_true']
    refine ⟨?_, hcs⟩
    rcases h.1.2 with hv | hlen
    · simp only [Bool.and_eq_false_iff]
      right
      rcases Option.isSome_iff_exists.mp hv with ⟨x, rfl⟩
      simp
    · simp only [decide_eq_true_eq] at hlen
      simp only [Bool.and_eq_false_iff]
      left
      simp only [decide_eq_false_iff_not]
      omega
  case hnil => exact fun _ => rfl
  case hcons =>
    intro c rest ihc ihrest h
    have ⟨h1, h2⟩ := wfF_cons h
    show (canonN c && canonF rest) = true
    simp [ihc h1, ihrest h2]

/-- `children.findNode` from the source: `sort.Search` finds the least index
`i` with `first < children[i].prefix[0]` (on children sorted by first byte —
the invariant maintained everywhere `findNode` is called — binary search
computes exactly the first index satisfying the monotone predicate, which is
what `List.findIdx` computes); a match is `children[i-1]` when it exists and
its first byte equals `first`. -/
def findNode (first : Nat) (cs : List RNode) : Nat × Option RNode :=
  if 0 < cs.findIdx (fun c => first < c.headByte) then
    match cs[cs.findIdx (fun c => first < c.headByte) - 1]? with
    | some c =>
      if c.headByte = first then
        (cs.findIdx (fun c => first < c.headByte) - 1, some c)
      else (cs.findIdx (fun c => first < c.headByte), none)
    | none => (cs.findIdx (fun c => first < c.headByte), none)
  else (cs.findIdx (fun c => first < c.headByte), none)

theorem findNode_mem {first : Nat} {cs : List RNode} {c : RNode}
    (h : (findNode first cs).2 = some c) : c ∈ cs := by
  unfold findNode at h
  split at h
  · split at h
    next c2 hget =>
      split at h
      · simp only [Option.some.injEq] at h
        rw [← h]
        exact List.getElem?_mem hget
      · simp at h
    next => simp at h
  · simp at h

/-- `children.insetAt`: shift the tail up and place the node at `index`
(the call sites always pass `index ≤ len`). -/
def insAt (n : RNode) (i : Nat) (cs : List RNode) : List RNode :=
  cs.take i ++ n :: cs.drop i

/-- `children.deleteAt`: shift the tail down over `index` and shrink. -/
def delAt (i : Nat) (cs : List RNode) : List RNode :=
  cs.take i ++ cs.drop (i + 1)

/-- `prefixLen` from the source: length of the longest common prefix. -/
def prefixLen : List Nat → List Nat → Nat
  | a :: as, b :: bs => if a = b then prefixLen as bs + 1 else 0
  | _, _ => 0

/-- `node.find`: the Go code checks value and exact prefix equality, then
unconditionally slices `key = key[len(n.prefix):]` and reads `key[0]` — both
of which panic (`none` here) when the key is too short: it never compares
the non-initial bytes of `n.prefix` against the key before slicing. -/
def nodeFind (n : RNode) (key : List Nat) : Option Bool :=
  if n.value.isSome ∧ n.pfx = key then some true
  else if key.length < n.pfx.length then none
  else
    match key.drop n.pfx.length with
    | [] => none
    | b :: bs =>
      let co := (findNode b n.children).2
      if hc : co.isSome then nodeFind (co.get hc) (b :: bs) else some false
termination_by sizeOf n
decreasing_by exact sizeOf_lt_of_mem_children (findNode_mem (Option.some_get hc).symm)

/-- `Tree.Find`: empty key or nil children answer `false` up front. -/
def treeFind (cs : List RNode) (key : List Nat) : Option Bool :=
  match key with
  | [] => some false
  | b :: bs =>
    let co := (findNode b cs).2
    if hc : co.isSome then nodeFind (co.get hc) (b :: bs) else some false

/-- `node.replaceOrInsert`: returns the previous value (Go `nil` = `none`)
and the updated node.  `bytesCopy` and the slice bookkeeping of the source
are value-level no-ops. -/
def nodeROI (n : RNode) (key : List Nat) (val : List Nat) :
    Option (List Nat) × RNode :=
  if n.pfx = key then
    match n.value with
    | none => (none, .mk (some val) n.pfx n.children)
    | some old => (some old, .mk (some val) n.pfx n.children)
  else
    let i := prefixLen n.pfx key
    if i = n.pfx.length then
      -- the whole stored prefix matches: descend into the children with the
      -- remaining suffix (non-empty, since key ≠ prefix)
      let key2 := key.drop i
      let fr := findNode (key2.headD 0) n.children
      if hc : fr.2.isSome then
        let res := nodeROI (fr.2.get hc) key2 val
        (res.1, .mk n.value n.pfx (n.children.set fr.1 res.2))
      else
        (none, .mk n.value n.pfx (insAt (.mk (some val) key2 []) fr.1 n.children))
    else
      -- split: demote the node's old identity into a single child holding
      -- the prefix suffix, then add the key remainder as a sibling (or take
      -- the value on the truncated node when the remainder is empty)
      let child : RNode := .mk n.value (n.pfx.drop i) n.children
      let key2 := key.drop i
      if key2.length > 0 then
        let fr := findNode (key2.headD 0) [child]
        (none, .mk none (n.pfx.take i) (insAt (.mk (some val) key2 []) fr.1 [child]))
      else
        (none, .mk (some val) (n.pfx.take i) [child])
termination_by sizeOf n
decreasing_by exact sizeOf_lt_of_mem_children (findNode_mem (Option.some_get hc).symm)

/-- `Tree.ReplaceOrInsert`: `val` is Go's `interface{}` argument, `none`
standing for `nil`. Returns the Go return value and the updated root
children. -/
def treeROI (key : List Nat) (val : Option (List Nat)) (cs : List RNode) :
    Option (List Nat) × List RNode :=
  match val with
  | none => (none, cs)
  | some v =>
    match key with
    | [] => (none, cs)
    | b :: _ =>
      let fr := findNode b cs
      if hc : fr.2.isSome then
        let res := nodeROI (fr.2.get hc) key v
        (res.1, cs.set fr.1 res.2)
      else
        (none, insAt (.mk (some v) key []) fr.1 cs)

/-- The package-level sentinel `Empty = []byte("empty")`. -/
def goEmpty : List Nat := [101, 109, 112, 116, 121]

/-- `Tree.Insert`: insert with the sentinel value, dropping the previous
value that `replaceOrInsert` reports. -/
def treeInsert (key : List Nat) (cs : List RNode) : List RNode :=
  match key with
  | [] => cs
  | b :: _ =>
    let fr := findNode b cs
    if hc : fr.2.isSome then
      (cs.set fr.1 (nodeROI (fr.2.get hc) key goEmpty).2)
    else
      insAt (.mk (some goEmpty) key []) fr.1 cs

/-- `node.merge`: absorb the single child.  The source reads
`n.children[0]`; all call sites guard `len(n.children) == 1`, so the `[]`
branch below is unreachable there (Go would panic on it). -/
def merge (n : RNode) : RNode :=
  match n.children with
  | c0 :: _ => .mk c0.value (n.pfx ++ c0.pfx) c0.children
  | [] => n

/-- `children.delete`.  Result `none` models a Go runtime panic: the very
first step evaluates `key[0]`, which is out of range for an empty key
(`Tree.Delete` passes the key through unchecked).  `mutableChild` only
affects sharing, not values. -/
def childrenDelete (key : List Nat) (cs : List RNode) : Option (List RNode) :=
  match key with
  | [] => none
  | b :: _ =>
    let fr := findNode b cs
    if hc : fr.2.isSome then
      let child := fr.2.get hc
      if key.length < child.pfx.length ∨ key.take child.pfx.length ≠ child.pfx then
        some cs
      else if child.pfx.length = key.length then
        if child.children.length = 0 then
          some (delAt fr.1 cs)
        else if child.children.length = 1 then
          some (cs.set fr.1 (merge child))
        else
          some (cs.set fr.1 (.mk none child.pfx child.children))
      else if child.children.length = 0 then
        some cs
      else
        match childrenDelete (key.drop child.pfx.length) child.children with
        | none => none
        | some cs2 =>
          let child2 : RNode := .mk child.value child.pfx cs2
          if cs2.length = 1 ∧ child.value = none then
            some (cs.set fr.1 (merge child2))
          else
            some (cs.set fr.1 child2)
    else some cs
termination_by sizeOf cs
decreasing_by
  have h2 : sizeOf ((findNode b cs).2.get hc) < sizeOf cs :=
    List.sizeOf_lt_of_mem (findNode_mem (Option.some_get hc).symm)
  have h3 : sizeOf ((findNode b cs).2.get hc).children
      < sizeOf ((findNode b cs).2.get hc) :=
    sizeOf_children_lt _
  omega

/-- `Tree.Delete` forwards to `children.delete` with no guards at all. -/
def treeDelete (key : List Nat) (cs : List RNode) : Option (List RNode) :=
  childrenDelete key cs

/-- Tree operations for "any sequence of Insert/Delete" claims. -/
inductive TOp : Type where
  | ins (key : List Nat)
  | del (key : List Nat)

/-- One public mutation; `none` models a Go panic. -/
def applyOp (cs : List RNode) : TOp → Option (List RNode)
  | .ins k => some (treeInsert k cs)
  | .del k => treeDelete k cs

/-- A whole operation sequence applied to a forest. -/
def applyOps (ops : List TOp) (cs : List RNode) : Option (List RNode) :=
  ops.foldlM applyOp cs

/-! ### Abstract sorted association list of (key, value) entries -/

/-- Ordered insert-or-replace into a lexicographically sorted entry list:
the abstract meaning of `ReplaceOrInsert`. -/
def entryIns (k v : List Nat) : List (List Nat × List Nat) → List (List Nat × List Nat)
  | [] => [(k, v)]
  | e :: rest =>
    if e.1 = k then (k, v) :: rest
    else if lexLt k e.1 then (k, v) :: e :: rest
    else e :: entryIns k v rest

/-- Remove the entry with the given key: the abstract meaning of `Delete`. -/
def entryErase (k : List Nat) : List (List Nat × List Nat) → List (List Nat × List Nat)
  | [] => []
  | e :: rest => if e.1 = k then rest else e :: entryErase k rest

/-- Look up the value stored at a key. -/
def entryLookup (k : List Nat) : List (List Nat × List Nat) → Option (List Nat)
  | [] => none
  | e :: rest => if e.1 = k then some e.2 else entryLookup k rest

/-! ### The free list (`FreeList`, `freeNode`) -/

/-- A `sync.Mutex` as its abstract state: whether it is held.  Acquiring a
held mutex blocks forever, which `mutexLock` models as `none`. -/
structure GoMutex : Type where
  locked : Bool

def mutexLock (mu : GoMutex) : Option GoMutex :=
  if mu.locked then none else some ⟨true⟩

/-- The node pool: the mutex, the stored node shells, and the capacity
bound `size`. -/
structure FreeList : Type where
  mu : GoMutex
  nodes : List RNode
  size : Nat

/-- `NewFreeList(size)`. -/
def newFreeList (size : Nat) : FreeList := ⟨⟨false⟩, [], size⟩

/-- `FreeList.freeNode`, line for line: `Lock`; append the node if below
capacity; then the source's second `freelist.mutex.Lock()` — not an
`Unlock` — which blocks on the mutex just taken (`none` = the call never
returns). -/
def freeNode (fl : FreeList) (n : RNode) : Option FreeList :=
  match mutexLock fl.mu with
  | none => none
  | some mu1 =>
    let fl1 : FreeList := ⟨mu1, fl.nodes, fl.size⟩
    let fl2 : FreeList :=
      if fl1.nodes.length < fl1.size then ⟨fl1.mu, fl1.nodes ++ [n], fl1.size⟩ else fl1
    match mutexLock fl2.mu with
    | none => none
    | some mu2 => some ⟨mu2, fl2.nodes, fl2.size⟩

/-! ### Encoder (`Tree.WriteTo`) -/

/-- `binary.PutUvarint`: little-endian base-128 with continuation bits. -/
def putUvarint (n : Nat) : List Nat :=
  if h : n < 128 then [n]
  else (n % 128 + 128) :: putUvarint (n / 128)
termination_by n
decreasing_by exact Nat.div_lt_self (by omega) (by omega)

/-- `binary.PutVarint(lenBuf[:], n)` with `WriteTo`'s four-byte `lenBuf`:
the zigzag of a non-negative length doubles it, and the base-128 bytes are
written into the array — a fifth byte is an index-out-of-range panic
(`none`). -/
def putVarint (n : Nat) : Option (List Nat) :=
  if (putUvarint (2 * n)).length ≤ 4 then some (putUvarint (2 * n)) else none

/-- One node record as `WriteTo` buffers it: opcode `'='` (0x3D) when the
node carries a value, else `'+'` (0x2B); varint-length-prefixed prefix
bytes; for a keyed record also the varint-length-prefixed marshaled value.
A varint overflowing `lenBuf` is a panic, a marshaler error aborts the
whole write (both `none`); the prefix varint is written before the value
is marshaled. -/
def record (m : List Nat → Option (List Nat)) (n : RNode) : Option (List Nat) :=
  match n.value with
  | none =>
    match putVarint n.pfx.length with
    | none => none
    | some pb => some (43 :: (pb ++ n.pfx))
  | some v =>
    match putVarint n.pfx.length with
    | none => none
    | some pb =>
      match m v with
      | none => none
      | some data =>
        match putVarint data.length with
        | none => none
        | some db => some (61 :: (pb ++ n.pfx ++ db ++ data))

mutual
/-- Termination weight of one `WriteTo` work-list entry processed from the
unvisited state. -/
def weightN : RNode → Nat
  | .mk _ _ cs => 2 + weightF cs

/-- Total weight of a child list. -/
def weightF : List RNode → Nat
  | [] => 0
  | c :: rest => weightN c + weightF rest
end

/-- Weight of the whole work list: a visited entry only has its closing
marker left. -/
def weightStack : List (RNode × Bool) → Nat
  | [] => 0
  | (n, false) :: rest => weightN n + weightStack rest
  | (_, true) :: rest => 1 + weightStack rest

theorem weightStack_append (a b : List (RNode × Bool)) :
    weightStack (a ++ b) = weightStack a + weightStack b := by
  induction a with
  | nil => simp [weightStack]
  | cons hd tl ih =>
    rcases hd with ⟨n, b0⟩
    cases b0 <;> simp [weightStack, ih] <;> omega

theorem weightStack_unvisited (cs : List RNode) :
    weightStack (cs.map (fun c => (c, false))) = weightF cs := by
  induction cs with
  | nil => rfl
  | cons c rest ih => simp [weightStack, weightF, ih]

theorem weightN_pos (n : RNode) : 2 ≤ weightN n := by
  cases n; simp [weightN]

/-- `Tree.WriteTo`'s explicit work-list loop.  A stack entry is a node with
its `visit` flag; `stack.push` iterates the slice backwards, so the first
child ends on top — here, at the head.  An unvisited node is emitted, then
its children are pushed (keeping the node, now visited, beneath them); a
node whose child slice is empty falls through to pop-and-emit-`'-'` at
once, which writes the same bytes as being revisited. -/
def writeToLoop (m : List Nat → Option (List Nat)) :
    List (RNode × Bool) → Option (List Nat)
  | [] => some []
  | (_, true) :: rest =>
    match writeToLoop m rest with
    | none => none
    | some out => some (45 :: out)
  | (n, false) :: rest =>
    match record m n with
    | none => none
    | some rb =>
      match h : n.children with
      | [] =>
        match writeToLoop m rest with
        | none => none
        | some out => some (rb ++ 45 :: out)
      | c :: cs2 =>
        match writeToLoop m ((c :: cs2).map (fun x => (x, false)) ++ (n, true) :: rest) with
        | none => none
        | some out => some (rb ++ out)
termination_by stack => weightStack stack
decreasing_by
  · simp [weightStack]
    try omega
  · have := weightN_pos n
    simp [weightStack]
    try omega
  · rw [weightStack_append, weightStack_unvisited]
    have hn : weightN n = 2 + weightF n.children := by
      cases n; simp [weightN, RNode.children]
    rw [h] at hn
    simp [weightStack, hn]
    try omega

/-- `Tree.WriteTo`: seed the work list with the root children (first child
on top) and run the loop. -/
def treeWriteTo (m : List Nat → Option (List Nat)) (cs : List RNode) :
    Option (List Nat) :=
  writeToLoop m (cs.map (fun c => (c, false)))

mutual
/-- Recursion-shaped restatement of the encoder (record, body, close),
proved equal to `treeWriteTo` below. -/
def encodeN (m : List Nat → Option (List Nat)) : RNode → Option (List Nat)
  | .mk v p cs =>
    match record m (.mk v p cs), encodeF m cs with
    | some rb, some body => some (rb ++ body ++ [45])
    | _, _ => none

/-- Encode a child list in order. -/
def encodeF (m : List Nat → Option (List Nat)) : List RNode → Option (List Nat)
  | [] => some []
  | c :: rest =>
    match encodeN m c, encodeF m rest with
    | some e1, some e2 => some (e1 ++ e2)
    | _, _ => none
end

/-! ### Decoder (`ReBuildTree`) -/

/-- `binary.ReadUvarint`: up to `MaxVarintLen64 = 10` bytes, accumulating
7-bit groups little-endian into a `uint64` (wraparound modelled by
`% 2 ^ 64`); a continuation run past 10 bytes or an oversized final byte is
the overflow error; running out of bytes is a read error. -/
def readUvarintAux (i x s : Nat) (input : List Nat) : Option (Nat × List Nat) :=
  match input with
  | [] => none
  | b :: rest =>
    if b < 128 then
      if i = 9 ∧ 1 < b then none
      else some (x ||| ((b <<< s) % 2 ^ 64), rest)
    else
      if i < 9 then readUvarintAux (i + 1) (x ||| (((b % 128) <<< s) % 2 ^ 64)) (s + 7) rest
      else none

def readUvarint (input : List Nat) : Option (Nat × List Nat) :=
  readUvarintAux 0 0 0 input

/-- `binary.ReadVarint`: zigzag-decode the unsigned value (`^x` in Go is
`-x - 1`). -/
def readVarint (input : List Nat) : Option (Int × List Nat) :=
  match readUvarint input with
  | none => none
  | some (ux, rest) =>
    let x : Int := (ux >>> 1 : Nat)
    some (if ux % 2 = 1 then -x - 1 else x, rest)

/-- `readBytes` inside `ReBuildTree`: a varint length then that many
payload bytes; a short payload is `io.ReadFull`'s unexpected-EOF error.
(On a negative decoded length Go would panic in `make`; streams written by
`WriteTo` only carry non-negative lengths, and no claim reaches this case —
it is folded into the error result here.) -/
def readBytes (input : List Nat) : Option (List Nat × List Nat) :=
  match readVarint input with
  | none => none
  | some (size, rest) =>
    if size < 0 then none
    else if rest.length < size.toNat then none
    else some (rest.take size.toNat, rest.drop size.toNat)

/-- A parsed opcode record as the producer goroutine pushes it: `PushKey`
records are normalized to `op: Push` with the unmarshaled value attached,
`Pop` closes a node. -/
inductive DOp : Type where
  | push (pfx : List Nat) (value : Option (List Nat))
  | pop

theorem readUvarintAux_length {i x s : Nat} {input rest : List Nat} {ux : Nat}
    (h : readUvarintAux i x s input = some (ux, rest)) :
    rest.length < input.length := by
  induction input generalizing i x s with
  | nil => simp [readUvarintAux] at h
  | cons b tl ih =>
    rw [readUvarintAux] at h
    split at h
    · split at h
      · simp at h
      · simp only [Option.some.injEq, Prod.mk.injEq] at h
        rw [← h.2]
        simp
    · split at h
      · have := ih h
        simp only [List.length_cons]
        omega
      · simp at h

theorem readVarint_length {input rest : List Nat} {v : Int}
    (h : readVarint input = some (v, rest)) : rest.length < input.length := by
  unfold readVarint at h
  split at h
  · simp at h
  next ux rest2 heq =>
    simp only [Option.some.injEq, Prod.mk.injEq] at h
    rw [← h.2]
    exact readUvarintAux_length heq

theorem readBytes_length {input rest : List Nat} {p : List Nat}
    (h : readBytes input = some (p, rest)) : rest.length < input.length := by
  unfold readBytes at h
  split at h
  · simp at h
  next sz rest2 heq =>
    have h2 := readVarint_length heq
    split at h
    · simp at h
    split at h
    · simp at h
    simp only [Option.some.injEq, Prod.mk.injEq] at h
    rw [← h.2]
    simp only [List.length_drop]
    omega

/-- The producer goroutine's opcode batching: one batch is flushed to the
channel whenever it reaches `bufferSize` records. -/
def goBufferSize : Nat := 1024

/-- The producer goroutine of `ReBuildTree`, sequentialized: `sent` are the
batches already on the channel (the channel delivers them to the consumer
in order, so only their concatenation matters), `cur` the batch being
filled.  The result is the full record list the consumer will drain plus
the final state of the shared `err` variable (`true` = non-nil).  A `Pop`
byte appends a pop record; `Push`/`PushKey` read their payloads (`PushKey`
also unmarshals, and a failure of either read or unmarshal returns without
flushing `cur`); any other opcode byte matches no `switch` case and is
silently skipped.  At EOF the partial batch is sent. -/
def produce (um : List Nat → Option (List Nat)) :
    List Nat → List DOp → List DOp → (List DOp × Bool)
  | [], sent, cur => (sent ++ cur, false)
  | b :: rest, sent, cur =>
    if b = 45 then
      let cur2 := cur ++ [DOp.pop]
      if cur2.length < goBufferSize then produce um rest sent cur2
      else produce um rest (sent ++ cur2) []
    else if b = 43 ∨ b = 61 then
      match hr : readBytes rest with
      | none => (sent, true)
      | some (pfx, rest2) =>
        if b = 43 then
          let cur2 := cur ++ [DOp.push pfx none]
          if cur2.length < goBufferSize then produce um rest2 sent cur2
          else produce um rest2 (sent ++ cur2) []
        else
          match hr2 : readBytes rest2 with
          | none => (sent, true)
          | some (data, rest3) =>
            match um data with
            | none => (sent, true)
            | some v =>
              let cur2 := cur ++ [DOp.push pfx (some v)]
              if cur2.length < goBufferSize then produce um rest3 sent cur2
              else produce um rest3 (sent ++ cur2) []
    else produce um rest sent cur
termination_by input => input.length
decreasing_by
  · simp
  · simp
  · have := readBytes_length hr
    simp only [List.length_cons]
    omega
  · have := readBytes_length hr
    simp only [List.length_cons]
    omega
  · have h1 := readBytes_length hr
    have h2 := readBytes_length hr2
    simp only [List.length_cons]
    omega
  · have h1 := readBytes_length hr
    have h2 := readBytes_length hr2
    simp only [List.length_cons]
    omega
  · simp

/-- The consumer's state: completed root-level nodes (`tree.children`) and
the stack of still-open nodes, innermost first, each carrying the children
accumulated for it so far, its prefix and its value. -/
structure CState : Type where
  top : List RNode
  opens : List (List RNode × List Nat × Option (List Nat))

/-- The consumer loop of `ReBuildTree`: a push record opens a new node at
the current insertion point; a pop record with an empty stack is the
`"stack error"`; otherwise a pop completes the innermost open node and
attaches it to its parent (or to the root children when it was a root). -/
def consume : List DOp → CState → Except String CState
  | [], st => .ok st
  | .push p v :: rest, st => consume rest ⟨st.top, ([], p, v) :: st.opens⟩
  | .pop :: rest, st =>
    match st.opens with
    | [] => .error "stack error"
    | (acc, p, v) :: opens2 =>
      let n : RNode := .mk v p acc
      match opens2 with
      | [] => consume rest ⟨st.top ++ [n], []⟩
      | (acc2, p2, v2) :: deeper => consume rest ⟨st.top, (acc2 ++ [n], p2, v2) :: deeper⟩

/-- `ReBuildTree`: run the producer over the whole stream, drain the
records in order, then check the shared `err` variable and stack balance —
in that order, as the source does. -/
def reBuild (um : List Nat → Option (List Nat)) (input : List Nat) :
    Except String (List RNode) :=
  let pr := produce um input [] []
  match consume pr.1 ⟨[], []⟩ with
  | .error e => .error e
  | .ok st =>
    if pr.2 then .error "read error"
    else if st.opens.length ≠ 0 then .error "broken stack"
    else .ok st.top

/-! ## Sorted-children reasoning and `findNode` characterization -/

/-- The sibling order: ascending first bytes. -/
def hbLt (c1 c2 : RNode) : Prop := c1.headByte < c2.headByte

instance : IsTrans RNode hbLt := ⟨fun _ _ _ => Nat.lt_trans⟩

theorem wfF_iff (cs : List RNode) :
    wfF cs = true ↔ (∀ c ∈ cs, wfN c = true) ∧ List.Chain' hbLt cs := by
  induction cs with
  | nil => simp
  | cons c rest ih =>
    cases rest with
    | nil => simp [hbLt]
    | cons c2 rest2 =>
      rw [wfF_cons_cons]
      simp only [Bool.and_eq_true, decide_eq_true_eq, ih, List.chain'_cons,
        List.mem_cons, forall_eq_or_imp]
      constructor
      · rintro ⟨⟨h1, h2⟩, ⟨h3, h4⟩⟩
        exact ⟨⟨h1, h3⟩, h2, h4⟩
      · rintro ⟨⟨h1, h3⟩, h2, h4⟩
        exact ⟨⟨h1, h2⟩, h3, h4⟩

theorem wfF_pairwise {cs : List RNode} (h : wfF cs = true) : cs.Pairwise hbLt :=
  List.chain'_iff_pairwise.mp ((wfF_iff cs).mp h).2

theorem wfF_mem_wfN {cs : List RNode} {c : RNode} (h : wfF cs = true) (hc : c ∈ cs) :
    wfN c = true := ((wfF_iff cs).mp h).1 c hc

theorem wfF_of_parts {cs : List RNode}
    (h1 : ∀ c ∈ cs, wfN c = true) (h2 : List.Chain' hbLt cs) : wfF cs = true :=
  (wfF_iff cs).mpr ⟨h1, h2⟩

theorem wfF_of_pairwise {cs : List RNode}
    (h1 : ∀ c ∈ cs, wfN c = true) (h2 : cs.Pairwise hbLt) : wfF cs = true :=
  wfF_of_parts h1 h2.chain'

theorem mem_take_idx {α : Type} {l : List α} {i : Nat} {a : α} (h : a ∈ l.take i) :
    ∃ k, ∃ hk : k < l.length, k < i ∧ l[k] = a := by
  obtain ⟨k, hk, hg⟩ := List.mem_iff_getElem.mp h
  simp only [List.length_take] at hk
  have hk2 : k < l.length := by omega
  refine ⟨k, hk2, by omega, ?_⟩
  rw [← hg]
  exact (List.getElem_take l).symm

theorem mem_drop_idx {α : Type} {l : List α} {i : Nat} {a : α} (h : a ∈ l.drop i) :
    ∃ k, ∃ hk : k < l.length, i ≤ k ∧ l[k] = a := by
  obtain ⟨k, hk, hg⟩ := List.mem_iff_getElem.mp h
  simp only [List.length_drop] at hk
  have hk2 : i + k < l.length := by omega
  refine ⟨i + k, hk2, by omega, ?_⟩
  rw [← hg]
  exact (List.getElem_drop l).symm

/-- First bytes before and after the index `sort.Search` lands on, on
sorted children: everything strictly before is `≤ b`, everything from the
found index on is `> b`. -/
theorem findIdx_bounds {b : Nat} {cs : List RNode} (hs : cs.Pairwise hbLt) :
    (∀ k (hk : k < cs.length), k < cs.findIdx (fun c => b < c.headByte) →
        cs[k].headByte ≤ b) ∧
      (∀ k (hk : k < cs.length), cs.findIdx (fun c => b < c.headByte) ≤ k →
        b < cs[k].headByte) := by
  have hget := List.pairwise_iff_getElem.mp hs
  constructor
  · intro k hk hkj
    have := List.not_of_lt_findIdx hkj
    simp only [decide_eq_false_iff_not, Nat.not_lt] at this
    exact this
  · intro k hk hjk
    rcases Nat.eq_or_lt_of_le hjk with heq | hlt
    · subst heq
      have := @List.findIdx_getElem _ (fun c => decide (b < c.headByte)) cs hk
      simpa using this
    · have hjlt : cs.findIdx (fun c => b < c.headByte) < cs.length :=
        Nat.lt_trans hlt hk
      have h1 : b < cs[cs.findIdx fun c => b < c.headByte].headByte := by
        have := @List.findIdx_getElem _ (fun c => decide (b < c.headByte)) cs hjlt
        simpa using this
      exact Nat.lt_trans h1 (hget _ k hjlt hk hlt)

/-- On sorted children, `findNode` answering "no match" splits the list at
the insertion index: everything before has a smaller first byte, everything
from the index on a larger one (in particular, no sibling starts with
`b`). -/
theorem findNode_none_split {b : Nat} {cs : List RNode} {i : Nat}
    (hs : cs.Pairwise hbLt) (h : findNode b cs = (i, none)) :
    i ≤ cs.length ∧ (∀ c ∈ cs.take i, c.headByte < b)
      ∧ (∀ c ∈ cs.drop i, b < c.headByte) := by
  obtain ⟨hbefore, hafter⟩ := findIdx_bounds (b := b) hs
  have hget := List.pairwise_iff_getElem.mp hs
  unfold findNode at h
  set j := cs.findIdx (fun c => b < c.headByte) with hj
  have hjle : j ≤ cs.length := List.findIdx_le_length _
  have hmain : i = j ∧ (0 < j → ∀ hj1 : j - 1 < cs.length, cs[j-1].headByte ≠ b) := by
    split at h
    next hj0 =>
      have hj1 : j - 1 < cs.length := by omega
      rw [List.getElem?_eq_getElem hj1] at h
      split at h
      next c2 hc2 =>
        injection hc2 with hc2e
        split at h
        · simp at h
        next hne =>
          injection h with h1 h2
          subst hc2e
          exact ⟨h1.symm, fun _ _ => hne⟩
      next c2 => simp at c2
    next hj0 =>
      injection h with h1 h2
      exact ⟨h1.symm, fun h0 => absurd h0 hj0⟩
  obtain ⟨rfl, hne⟩ := hmain
  refine ⟨hjle, ?_, ?_⟩
  · intro c hc
    obtain ⟨k, hk, hki, rfl⟩ := mem_take_idx hc
    have hle := hbefore k hk hki
    -- strictness: the element at j - 1 was checked not to equal b, and all
    -- earlier elements are strictly below it
    have hj0 : 0 < j := by omega
    have hj1 : j - 1 < cs.length := by omega
    have hne2 := hne hj0 hj1
    rcases Nat.eq_or_lt_of_le (by omega : k ≤ j - 1) with rfl | hklt
    · exact lt_of_le_of_ne hle hne2
    · have := hget k (j-1) hk hj1 hklt
      have hle2 := hbefore (j-1) hj1 (by omega)
      have hne3 : cs[j-1].headByte < b := lt_of_le_of_ne hle2 hne2
      exact Nat.lt_trans this hne3
  · intro c hc
    obtain ⟨k, hk, hki, rfl⟩ := mem_drop_idx hc
    exact hafter k hk hki

/-- On sorted children, a `findNode` match is the unique sibling starting
with `b`, located at the returned index; everything before it is smaller,
everything after larger. -/
theorem findNode_some_split {b : Nat} {cs : List RNode} {i : Nat} {c : RNode}
    (hs : cs.Pairwise hbLt) (h : findNode b cs = (i, some c)) :
    ∃ hi : i < cs.length, cs[i] = c ∧ c.headByte = b
      ∧ (∀ x ∈ cs.take i, x.headByte < b)
      ∧ (∀ x ∈ cs.drop (i + 1), b < x.headByte) := by
  obtain ⟨hbefore, hafter⟩ := findIdx_bounds (b := b) hs
  have hget := List.pairwise_iff_getElem.mp hs
  unfold findNode at h
  set j := cs.findIdx (fun c => b < c.headByte) with hj
  have hjle : j ≤ cs.length := List.findIdx_le_length _
  have hmain : 0 < j ∧ i = j - 1 ∧ ∃ hj1 : j - 1 < cs.length,
      cs[j-1] = c ∧ cs[j-1].headByte = b := by
    split at h
    next hj0 =>
      have hj1 : j - 1 < cs.length := by omega
      rw [List.getElem?_eq_getElem hj1] at h
      split at h
      next c2 hc2 =>
        injection hc2 with hc2e
        split at h
        next hbeq =>
          injection h with h1 h2
          injection h2 with h2e
          subst hc2e
          exact ⟨hj0, h1.symm, hj1, h2e, hbeq⟩
        · simp at h
      next c2 => simp at c2
    next => simp at h
  obtain ⟨hj0, rfl, hj1, hceq, hcb⟩ := hmain
  refine ⟨hj1, hceq, hceq ▸ hcb, ?_, ?_⟩
  · intro x hx
    obtain ⟨k, hk, hki, rfl⟩ := mem_take_idx hx
    have h2 : cs[k].headByte < cs[j-1].headByte := hget k (j-1) hk hj1 hki
    rw [hcb] at h2
    exact h2
  · intro x hx
    obtain ⟨k, hk, hki, rfl⟩ := mem_drop_idx hx
    have hjk : j ≤ k := by omega
    exact hafter k hk hjk

/-! ## Entry-list algebra -/

/-- The order on entries: strictly ascending keys. -/
def entLt (e1 e2 : (List Nat × List Nat)) : Prop := lexLt e1.1 e2.1 = true

instance : IsTrans (List Nat × List Nat) entLt := ⟨fun _ _ _ => lexLt_trans⟩

@[simp] theorem entryIns_nil (k v : List Nat) : entryIns k v [] = [(k, v)] := rfl

theorem entryIns_cons (k v : List Nat) (e : List Nat × List Nat) (l : List (List Nat × List Nat)) :
    entryIns k v (e :: l) =
      if e.1 = k then (k, v) :: l
      else if lexLt k e.1 then (k, v) :: e :: l
      else e :: entryIns k v l := rfl

theorem entryIns_all_gt {k v : List Nat} {l : List (List Nat × List Nat)}
    (h : ∀ e ∈ l, lexLt k e.1 = true) : entryIns k v l = (k, v) :: l := by
  cases l with
  | nil => rfl
  | cons e rest =>
    have h1 := h e (by simp)
    rw [entryIns_cons, if_neg (fun he => by simp [he, lexLt_irrefl] at h1), if_pos h1]

theorem entryIns_all_lt {k v : List Nat} {l : List (List Nat × List Nat)}
    (h : ∀ e ∈ l, lexLt e.1 k = true) : entryIns k v l = l ++ [(k, v)] := by
  induction l with
  | nil => rfl
  | cons e rest ih =>
    have h1 := h e (by simp)
    rw [entryIns_cons, if_neg (fun he => by simp [he, lexLt_irrefl] at h1),
      if_neg (fun hlt => by simp [lexLt_asymm h1] at hlt), ih (fun e he => h e (by simp [he]))]
    rfl

theorem entryIns_append_left {k v : List Nat} {l1 l2 : List (List Nat × List Nat)}
    (h : ∀ e ∈ l1, lexLt e.1 k = true) :
    entryIns k v (l1 ++ l2) = l1 ++ entryIns k v l2 := by
  induction l1 with
  | nil => rfl
  | cons e rest ih =>
    have h1 := h e (by simp)
    rw [List.cons_append, entryIns_cons,
      if_neg (fun he => by simp [he, lexLt_irrefl] at h1),
      if_neg (fun hlt => by simp [lexLt_asymm h1] at hlt),
      ih (fun e he => h e (by simp [he])), List.cons_append]

theorem entryIns_append_right {k v : List Nat} {l1 l2 : List (List Nat × List Nat)}
    (h : ∀ e ∈ l2, lexLt k e.1 = true) :
    entryIns k v (l1 ++ l2) = entryIns k v l1 ++ l2 := by
  induction l1 with
  | nil => simpa using entryIns_all_gt h
  | cons e rest ih =>
    rw [List.cons_append, entryIns_cons, entryIns_cons]
    split
    · rfl
    split
    · rfl
    · rw [ih, List.cons_append]

theorem entryIns_idem (k v1 v2 : List Nat) (l : List (List Nat × List Nat)) :
    entryIns k v2 (entryIns k v1 l) = entryIns k v2 l := by
  induction l with
  | nil => simp [entryIns]
  | cons e rest ih =>
    rw [entryIns_cons]
    split
    next he =>
      rw [entryIns_cons, entryIns_cons]
      simp [he]
    split
    next he hlt =>
      rw [entryIns_cons, entryIns_cons]
      simp [he, hlt]
    next he hlt =>
      rw [entryIns_cons, if_neg he, if_neg hlt, entryIns_cons, if_neg he, if_neg hlt, ih]

theorem entryIns_fst_indep (k v1 v2 : List Nat) (l : List (List Nat × List Nat)) :
    (entryIns k v1 l).map Prod.fst = (entryIns k v2 l).map Prod.fst := by
  induction l with
  | nil => simp [entryIns]
  | cons e rest ih =>
    rw [entryIns_cons, entryIns_cons]
    split
    · simp
    split
    · simp
    · simp only [List.map_cons]
      rw [ih]

theorem entryIns_perm {k v : List Nat} {l : List (List Nat × List Nat)}
    (h : ∀ e ∈ l, e.1 ≠ k) : (entryIns k v l).Perm ((k, v) :: l) := by
  induction l with
  | nil => simp [entryIns]
  | cons e rest ih =>
    rw [entryIns_cons]
    split
    next he => exact absurd he (h e (by simp))
    split
    · exact List.Perm.refl _
    · exact (List.Perm.cons e (ih (fun x hx => h x (by simp [hx])))).trans
        (List.Perm.swap _ _ _)

theorem entryLookup_append (k : List Nat) (l1 l2 : List (List Nat × List Nat)) :
    entryLookup k (l1 ++ l2) = (entryLookup k l1).orElse (fun _ => entryLookup k l2) := by
  induction l1 with
  | nil => simp [entryLookup]
  | cons e rest ih =>
    rw [List.cons_append, entryLookup, entryLookup]
    split
    · simp
    · simpa using ih

theorem entryLookup_not_mem {k : List Nat} {l : List (List Nat × List Nat)}
    (h : ∀ e ∈ l, e.1 ≠ k) : entryLookup k l = none := by
  induction l with
  | nil => rfl
  | cons e rest ih =>
    rw [entryLookup, if_neg (h e (by simp))]
    exact ih (fun e he => h e (by simp [he]))

@[simp] theorem entryErase_nil (k : List Nat) : entryErase k [] = [] := rfl

theorem entryErase_cons (k : List Nat) (e : List Nat × List Nat)
    (l : List (List Nat × List Nat)) :
    entryErase k (e :: l) = if e.1 = k then l else e :: entryErase k l := rfl

theorem entryErase_not_mem {k : List Nat} {l : List (List Nat × List Nat)}
    (h : ∀ e ∈ l, e.1 ≠ k) : entryErase k l = l := by
  induction l with
  | nil => rfl
  | cons e rest ih =>
    rw [entryErase_cons, if_neg (h e (by simp))]
    rw [ih (fun e he => h e (by simp [he]))]

theorem entryErase_append_left {k : List Nat} {l1 l2 : List (List Nat × List Nat)}
    (h : ∀ e ∈ l1, e.1 ≠ k) :
    entryErase k (l1 ++ l2) = l1 ++ entryErase k l2 := by
  induction l1 with
  | nil => rfl
  | cons e rest ih =>
    rw [List.cons_append, entryErase_cons, if_neg (h e (by simp)),
      ih (fun e he => h e (by simp [he])), List.cons_append]

theorem entryErase_append_right {k : List Nat} {l1 l2 : List (List Nat × List Nat)}
    (h : ∀ e ∈ l2, e.1 ≠ k) :
    entryErase k (l1 ++ l2) = entryErase k l1 ++ l2 := by
  induction l1 with
  | nil => simpa using entryErase_not_mem h
  | cons e rest ih =>
    rw [List.cons_append, entryErase_cons, entryErase_cons]
    split
    · rfl
    · rw [ih, List.cons_append]

/-! ## Shape and sortedness of walk entries -/

/-- Every key a subtree contributes extends the accumulated prefix plus the
node's own prefix. -/
theorem entriesN_key_shape : ∀ n : RNode, ∀ pfx e, e ∈ entriesN pfx n →
    ∃ r, e.1 = pfx ++ n.pfx ++ r := by
  have := rnodeMutualInd
    (P := fun n => ∀ pfx e, e ∈ entriesN pfx n → ∃ r, e.1 = pfx ++ n.pfx ++ r)
    (Q := fun cs => ∀ pfx e, e ∈ entriesF pfx cs →
      ∃ c ∈ cs, ∃ r, e.1 = pfx ++ c.pfx ++ r) ?hmk ?hnil ?hcons
  · exact this.1
  case hmk =>
    intro v p cs ihcs pfx e he
    simp only [entriesN] at he
    rcases List.mem_append.mp he with h1 | h2
    · refine ⟨[], ?_⟩
      rcases v with - | val
      · simp at h1
      · simp only [List.mem_singleton] at h1
        simp [h1, RNode.pfx_mk]
    · obtain ⟨c, hc, r, hr⟩ := ihcs (pfx ++ p) e h2
      exact ⟨c.pfx ++ r, by simp [hr, RNode.pfx_mk]⟩
  case hnil => intro pfx e he; simp at he
  case hcons =>
    intro c cs ihc ihcs pfx e he
    rcases List.mem_append.mp (by simpa using he) with h1 | h2
    · obtain ⟨r, hr⟩ := ihc pfx e h1
      exact ⟨c, by simp, r, hr⟩
    · obtain ⟨c2, hc2, r, hr⟩ := ihcs pfx e h2
      exact ⟨c2, by simp [hc2], r, hr⟩

/-- Forest version of `entriesN_key_shape`. -/
theorem entriesF_key_shape : ∀ cs : List RNode, ∀ pfx e, e ∈ entriesF pfx cs →
    ∃ c ∈ cs, ∃ r, e.1 = pfx ++ c.pfx ++ r := by
  intro cs
  induction cs with
  | nil => intro pfx e he; simp at he
  | cons c rest ih =>
    intro pfx e he
    rcases List.mem_append.mp (by simpa using he) with h1 | h2
    · obtain ⟨r, hr⟩ := entriesN_key_shape c pfx e h1
      exact ⟨c, by simp, r, hr⟩
    · obtain ⟨c2, hc2, r, hr⟩ := ih pfx e h2
      exact ⟨c2, by simp [hc2], r, hr⟩

/-- A subtree under a non-empty node prefix only contributes keys whose
byte right after `pfx` is the node's first byte — so keys from siblings
with different first bytes compare by those bytes. -/
theorem entriesN_key_head {n : RNode} {pfx : List Nat} {e : List Nat × List Nat}
    (hp : n.pfx ≠ []) (he : e ∈ entriesN pfx n) :
    ∃ r2, e.1 = pfx ++ n.headByte :: r2 := by
  obtain ⟨r, hr⟩ := entriesN_key_shape n pfx e he
  rcases hpx : n.pfx with - | ⟨b, t⟩
  · exact absurd hpx hp
  · refine ⟨t ++ r, ?_⟩
    rw [hr, hpx]
    simp [RNode.headByte, hpx]

/-- Entries of two siblings with ordered distinct first bytes are fully
ordered. -/
theorem entries_cross_lt {c1 c2 : RNode} {pfx : List Nat}
    (h1 : c1.pfx ≠ []) (h2 : c2.pfx ≠ []) (hlt : c1.headByte < c2.headByte)
    {e1 e2 : List Nat × List Nat}
    (he1 : e1 ∈ entriesN pfx c1) (he2 : e2 ∈ entriesN pfx c2) : entLt e1 e2 := by
  obtain ⟨r1, hr1⟩ := entriesN_key_head h1 he1
  obtain ⟨r2, hr2⟩ := entriesN_key_head h2 he2
  show lexLt e1.1 e2.1 = true
  rw [hr1, hr2, lexLt_append_same]
  exact lexLt_of_head_lt hlt r1 r2

/-- Well-formed subtrees contribute at least one entry (every valueless
node has at least two children, so some descendant carries a value). -/
theorem entriesN_ne_nil : ∀ n : RNode, wfN n = true → ∀ pfx, entriesN pfx n ≠ [] := by
  have := rnodeMutualInd
    (P := fun n => wfN n = true → ∀ pfx, entriesN pfx n ≠ [])
    (Q := fun cs => wfF cs = true → cs ≠ [] → ∀ pfx, entriesF pfx cs ≠ []) ?hmk ?hnil ?hcons
  · exact this.1
  case hmk =>
    intro v p cs ihcs hwf pfx
    rw [wfN_def] at hwf
    simp only [Bool.and_eq_true, Bool.or_eq_true, RNode.value_mk,
      RNode.children_mk, RNode.pfx_mk, decide_eq_true_eq] at hwf
    simp only [entriesN]
    rcases v with - | val
    · have hne : cs ≠ [] := by
        rcases hwf.1.2 with h | h
        · simp at h
        · intro hcs; rw [hcs] at h; simp at h
      simpa using ihcs hwf.2 hne (pfx ++ p)
    · simp
  case hnil => intro _ h; exact absurd rfl h
  case hcons =>
    intro c cs ihc ihcs hwf _ pfx
    have ⟨hc, hcs⟩ := wfF_cons hwf
    have := ihc hc pfx
    simp only [entriesF_cons]
    intro hemp
    exact this (List.append_eq_nil.mp hemp).1

/-- The entries of a well-formed subtree are strictly sorted, and the
entries of a well-formed forest are strictly sorted. -/
theorem entries_sorted :
    (∀ n, wfN n = true → ∀ pfx, (entriesN pfx n).Pairwise entLt) ∧
      (∀ cs, wfF cs = true → ∀ pfx, (entriesF pfx cs).Pairwise entLt) := by
  refine rnodeMutualInd ?hmk ?hnil ?hcons
  case hmk =>
    intro v p cs ihcs hwf pfx
    rw [wfN_def] at hwf
    simp only [Bool.and_eq_true, RNode.value_mk, RNode.children_mk,
      RNode.pfx_mk] at hwf
    have hcs := ihcs hwf.2 (pfx ++ p)
    simp only [entriesN]
    rcases v with - | val
    · simpa using hcs
    · simp only [List.singleton_append, List.pairwise_cons]
      refine ⟨?_, hcs⟩
      intro e he
      obtain ⟨c, hc, r, hr⟩ := entriesF_key_shape cs (pfx ++ p) e he
      have hcip : c.pfx ≠ [] := wfN_pfx_ne (wfF_mem_wfN hwf.2 hc)
      show lexLt (pfx ++ p) e.1 = true
      rw [hr, List.append_assoc]
      exact lexLt_self_append _ (by simp [hcip])
  case hnil => intro _ pfx; simp
  case hcons =>
    intro c cs ihc ihcs hwf pfx
    have ⟨hc, hcs⟩ := wfF_cons hwf
    have hpw := wfF_pairwise hwf
    simp only [entriesF_cons]
    rw [List.pairwise_append]
    refine ⟨ihc hc pfx, ihcs hcs pfx, ?_⟩
    intro e1 he1 e2 he2
    obtain ⟨c2, hc2, r2, hr2⟩ := entriesF_key_shape cs pfx e2 he2
    -- e2 comes from some later sibling c2; cross-compare via first bytes
    have hlt : c.headByte < c2.headByte := by
      have := List.pairwise_cons.mp hpw
      exact this.1 c2 hc2
    have hcp : c.pfx ≠ [] := wfN_pfx_ne hc
    have hc2p : c2.pfx ≠ [] := wfN_pfx_ne (wfF_mem_wfN hcs hc2)
    -- compare key shapes via the diverging first bytes
    obtain ⟨s1, hs1⟩ := entriesN_key_head hcp he1
    obtain ⟨s2, hs2⟩ : ∃ s2, e2.1 = pfx ++ c2.headByte :: s2 := by
      rcases hpx : c2.pfx with - | ⟨b, t⟩
      · exact absurd hpx hc2p
      · refine ⟨t ++ r2, ?_⟩
        rw [hr2, hpx]
        simp [RNode.headByte, hpx]
    show lexLt e1.1 e2.1 = true
    rw [hs1, hs2, lexLt_append_same]
    exact lexLt_of_head_lt hlt s1 s2

/-! ## prefixLen and list-surgery support -/

@[simp] theorem prefixLen_cons_cons (x y : Nat) (xs ys : List Nat) :
    prefixLen (x :: xs) (y :: ys) = if x = y then prefixLen xs ys + 1 else 0 := rfl

theorem prefixLen_le_left (a b : List Nat) : prefixLen a b ≤ a.length := by
  induction a generalizing b with
  | nil => simp [prefixLen]
  | cons x xs ih =>
    cases b with
    | nil => simp [prefixLen]
    | cons y ys =>
      rw [prefixLen]
      split
      · simpa using ih ys
      · simp

theorem prefixLen_le_right (a b : List Nat) : prefixLen a b ≤ b.length := by
  induction a generalizing b with
  | nil => simp [prefixLen]
  | cons x xs ih =>
    cases b with
    | nil => simp [prefixLen]
    | cons y ys =>
      rw [prefixLen]
      split
      · simpa using ih ys
      · simp

theorem take_prefixLen_eq (a b : List Nat) :
    a.take (prefixLen a b) = b.take (prefixLen a b) := by
  induction a generalizing b with
  | nil => simp [prefixLen]
  | cons x xs ih =>
    cases b with
    | nil => simp [prefixLen]
    | cons y ys =>
      rw [prefixLen]
      split
      next heq => simp [heq, ih ys]
      · simp

theorem prefixLen_getElem_ne {a b : List Nat}
    (h1 : prefixLen a b < a.length) (h2 : prefixLen a b < b.length) :
    a[prefixLen a b] ≠ b[prefixLen a b] := by
  induction a generalizing b with
  | nil => simp at h1
  | cons x xs ih =>
    cases b with
    | nil => simp at h2
    | cons y ys =>
      by_cases heq : x = y
      · have hpl : prefixLen (x :: xs) (y :: ys) = prefixLen xs ys + 1 := by
          rw [prefixLen_cons_cons, if_pos heq]
        rw [hpl] at h1 h2
        simp only [hpl, List.getElem_cons_succ]
        exact ih (by simpa using h1) (by simpa using h2)
      · have hpl : prefixLen (x :: xs) (y :: ys) = 0 := by
          rw [prefixLen_cons_cons, if_neg heq]
        simp only [hpl, List.getElem_cons_zero]
        exact heq

theorem prefixLen_pos_of_head_eq {a b : List Nat}
    (ha : a ≠ []) (hb : b ≠ []) (h : a.headD 0 = b.headD 0) : 0 < prefixLen a b := by
  cases a with
  | nil => exact absurd rfl ha
  | cons x xs =>
    cases b with
    | nil => exact absurd rfl hb
    | cons y ys =>
      simp only [List.headD_cons] at h
      rw [prefixLen, if_pos h]
      omega

/-- If the whole left string is a common prefix, the right string starts
with it. -/
theorem prefixLen_full_left {a b : List Nat} (h : prefixLen a b = a.length) :
    b.take a.length = a := by
  have := take_prefixLen_eq a b
  rw [h] at this
  rw [← this, List.take_length]

theorem list_eq_take_getElem_drop {α : Type} {l : List α} {i : Nat} (h : i < l.length) :
    l = l.take i ++ l[i] :: l.drop (i+1) := by
  conv_lhs => rw [← List.take_append_drop i l]
  congr 1
  exact List.drop_eq_getElem_cons h

theorem mem_insAt {n x : RNode} {i : Nat} {cs : List RNode} (h : x ∈ insAt n i cs) :
    x = n ∨ x ∈ cs := by
  unfold insAt at h
  rcases List.mem_append.mp h with h1 | h2
  · exact Or.inr (List.mem_of_mem_take h1)
  · rcases List.mem_cons.mp h2 with h3 | h4
    · exact Or.inl h3
    · exact Or.inr (List.mem_of_mem_drop h4)

theorem delAt_sublist (i : Nat) (cs : List RNode) : (delAt i cs).Sublist cs := by
  unfold delAt
  conv_rhs => rw [← List.take_append_drop i cs]
  refine List.Sublist.append_left ?_ _
  have h1 : cs.drop (i + 1) = (cs.drop i).drop 1 := by
    rw [List.drop_drop]
  rw [h1]
  exact List.drop_sublist _ _

theorem mem_delAt {x : RNode} {i : Nat} {cs : List RNode} (h : x ∈ delAt i cs) :
    x ∈ cs := (delAt_sublist i cs).mem h

theorem pairwise_insAt {cs : List RNode} {i : Nat} {n : RNode}
    (hp : cs.Pairwise hbLt)
    (hbefore : ∀ c ∈ cs.take i, c.headByte < n.headByte)
    (hafter : ∀ c ∈ cs.drop i, n.headByte < c.headByte) :
    (insAt n i cs).Pairwise hbLt := by
  unfold insAt
  rw [List.pairwise_append]
  have hpp : (cs.take i ++ cs.drop i).Pairwise hbLt := by
    rw [List.take_append_drop]
    exact hp
  have hsplit := List.pairwise_append.mp hpp
  refine ⟨hsplit.1, ?_, ?_⟩
  · rw [List.pairwise_cons]
    exact ⟨fun c hc => hafter c hc, hsplit.2.1⟩
  · intro c1 h1 c2 h2
    rcases List.mem_cons.mp h2 with rfl | h3
    · exact hbefore c1 h1
    · exact hsplit.2.2 c1 h1 c2 h3

theorem pairwise_set_same_head {cs : List RNode} {i : Nat} {c' : RNode}
    (hi : i < cs.length) (hp : cs.Pairwise hbLt)
    (hh : c'.headByte = cs[i].headByte) : (cs.set i c').Pairwise hbLt := by
  rw [List.pairwise_iff_getElem] at hp ⊢
  intro a b ha hb hab
  simp only [List.length_set] at ha hb
  rw [List.getElem_set, List.getElem_set]
  have hval := hp a b ha hb hab
  split
  next hia =>
    split
    next hib => omega
    next hib =>
      show c'.headByte < cs[b].headByte
      rw [hh]
      exact hp i b (by omega) hb (by omega)
  next hia =>
    split
    next hib =>
      show cs[a].headByte < c'.headByte
      rw [hh]
      exact hp a i ha (by omega) (by omega)
    next hib => exact hval

theorem entriesF_set {cs : List RNode} {i : Nat} (hi : i < cs.length)
    (c' : RNode) (pfx : List Nat) :
    entriesF pfx (cs.set i c')
      = entriesF pfx (cs.take i) ++ entriesN pfx c'
        ++ entriesF pfx (cs.drop (i+1)) := by
  rw [List.set_eq_take_cons_drop c' hi, entriesF_append]
  simp [entriesF_append]

theorem entriesF_split {cs : List RNode} {i : Nat} (hi : i < cs.length) (pfx : List Nat) :
    entriesF pfx cs
      = entriesF pfx (cs.take i) ++ entriesN pfx cs[i]
        ++ entriesF pfx (cs.drop (i+1)) := by
  conv_lhs => rw [list_eq_take_getElem_drop hi]
  rw [entriesF_append, entriesF_cons, List.append_assoc]

theorem entriesF_insAt (cs : List RNode) (i : Nat) (n : RNode) (pfx : List Nat) :
    entriesF pfx (insAt n i cs)
      = entriesF pfx (cs.take i) ++ entriesN pfx n ++ entriesF pfx (cs.drop i) := by
  unfold insAt
  rw [entriesF_append]
  simp [entriesF_append]

theorem entriesF_delAt {cs : List RNode} {i : Nat} (hi : i < cs.length) (pfx : List Nat) :
    entriesF pfx (delAt i cs)
      = entriesF pfx (cs.take i) ++ entriesF pfx (cs.drop (i+1)) := by
  unfold delAt
  rw [entriesF_append]

/-! ## Further support for the insert/delete specifications -/

/-- Every entry of a well-formed forest strictly extends the accumulated
prefix it is walked under. -/
theorem entriesF_keys_gt_base {cs : List RNode} (hwf : wfF cs = true) (base : List Nat) :
    ∀ e ∈ entriesF base cs, lexLt base e.1 = true := by
  intro e he
  obtain ⟨c, hc, r, hr⟩ := entriesF_key_shape cs base e he
  have hcp : c.pfx ≠ [] := wfN_pfx_ne (wfF_mem_wfN hwf hc)
  rw [hr, List.append_assoc]
  exact lexLt_self_append _ (by simp [hcp])

theorem entryLookup_keys_gt {k : List Nat} {l : List (List Nat × List Nat)}
    (h : ∀ e ∈ l, lexLt k e.1 = true) : entryLookup k l = none :=
  entryLookup_not_mem (fun e he => (lexLt_ne (h e he)).symm)

theorem entryLookup_keys_lt {k : List Nat} {l : List (List Nat × List Nat)}
    (h : ∀ e ∈ l, lexLt e.1 k = true) : entryLookup k l = none :=
  entryLookup_not_mem (fun e he => lexLt_ne (h e he))

/-- Splitting a node's prefix and re-rooting produces the same entries:
the walk concatenates the segments back together. -/
theorem entriesN_re_root (v : Option (List Nat)) (p : List Nat) (cs : List RNode)
    (i : Nat) (pfx : List Nat) :
    entriesN (pfx ++ p.take i) (.mk v (p.drop i) cs) = entriesN pfx (.mk v p cs) := by
  simp only [entriesN, List.append_assoc, List.take_append_drop]

/-- An entry key of a subtree, cut at byte `i` of the node's prefix. -/
theorem entriesN_key_at {n : RNode} {pfx : List Nat} {e : List Nat × List Nat} {i : Nat}
    (hi : i < n.pfx.length) (he : e ∈ entriesN pfx n) :
    ∃ s, e.1 = (pfx ++ n.pfx.take i) ++ n.pfx[i] :: s := by
  obtain ⟨r, hr⟩ := entriesN_key_shape n pfx e he
  refine ⟨n.pfx.drop (i+1) ++ r, ?_⟩
  rw [hr]
  simp only [List.append_assoc]
  congr 1
  have h1 := congrArg (fun l => l ++ r) (list_eq_take_getElem_drop hi)
  simp only at h1
  rw [h1, List.append_assoc]
  rfl

theorem append_cons_ne {q : List Nat} {a b : Nat} {s t : List Nat} (h : a ≠ b) :
    q ++ a :: s ≠ q ++ b :: t := by
  intro heq
  have := List.append_cancel_left heq
  simp only [List.cons.injEq] at this
  exact h this.1

theorem lexLt_append_cons {q : List Nat} {a b : Nat} (h : a < b) (s t : List Nat) :
    lexLt (q ++ a :: s) (q ++ b :: t) = true := by
  rw [lexLt_append_same]
  exact lexLt_of_head_lt h s t

theorem insAt_length {n : RNode} {i : Nat} {cs : List RNode} (hi : i ≤ cs.length) :
    (insAt n i cs).length = cs.length + 1 := by
  unfold insAt
  simp
  omega

theorem headD_take {l : List Nat} {i : Nat} (hi : 0 < i) (d : Nat) :
    (l.take i).headD d = l.headD d := by
  cases l with
  | nil => simp
  | cons x xs =>
    cases i with
    | zero => omega
    | succ j => simp

theorem headD_drop {l : List Nat} {i : Nat} (hi : i < l.length) (d : Nat) :
    (l.drop i).headD d = l[i] := by
  rw [List.headD_eq_head?_getD, List.head?_drop, List.getElem?_eq_getElem hi]
  rfl

/-- `findNode` over a single child whose first byte differs from the probe:
no match, insertion before or after by byte order. -/
theorem findNode_singleton_ne {b : Nat} {c : RNode} (hne : c.headByte ≠ b) :
    findNode b [c] = (if b < c.headByte then 0 else 1, none) := by
  unfold findNode
  by_cases hlt : b < c.headByte
  · simp [List.findIdx_cons, hlt]
  · simp [List.findIdx_cons, hlt, List.findIdx_nil, hne]

theorem exists_cons_of_ne_nil {l : List Nat} (h : l ≠ []) :
    ∃ t, l = l.headD 0 :: t := by
  cases l with
  | nil => exact absurd rfl h
  | cons x t => exact ⟨t, rfl⟩

/-- A key contributed under `base` by a well-formed forest starts with the
first byte of the contributing child. -/
theorem entriesF_keys_head {sub : List RNode} {base : List Nat}
    (hwfsub : ∀ c ∈ sub, wfN c = true) :
    ∀ e ∈ entriesF base sub, ∃ c ∈ sub, ∃ s, e.1 = base ++ c.headByte :: s := by
  intro e he
  obtain ⟨c, hc, r, hr⟩ := entriesF_key_shape sub base e he
  have hcp := wfN_pfx_ne (hwfsub c hc)
  obtain ⟨t, hct⟩ := exists_cons_of_ne_nil hcp
  refine ⟨c, hc, t ++ r, ?_⟩
  rw [hr, hct]
  simp [RNode.headByte]

/-! ### Forest-level localization of insert and lookup

The same search/insert pattern appears verbatim at the tree root
(`Tree.ReplaceOrInsert`, `Tree.Insert`) and inside
`node.replaceOrInsert`'s descend branch; these lemmas capture it once. -/

/-- Replacing the child `findNode` matched by a subtree whose entries are
the ordered insert localizes to an ordered insert on the whole forest's
entries. -/
theorem forest_ins_found {cs : List RNode} {idx : Nat} {child child' : RNode}
    {b : Nat} {key2 val : List Nat} (hk2 : key2.headD 0 = b) (hk2ne : key2 ≠ [])
    (hwfc : wfF cs = true) (hfr : findNode b cs = (idx, some child))
    (hent : ∀ base, entriesN base child' = entryIns (base ++ key2) val (entriesN base child)) :
    ∀ base, entriesF base (cs.set idx child')
      = entryIns (base ++ key2) val (entriesF base cs) := by
  obtain ⟨hidx, hget, hcb, hbef, haft⟩ := findNode_some_split (wfF_pairwise hwfc) hfr
  intro base
  obtain ⟨kt, hktv⟩ := exists_cons_of_ne_nil hk2ne
  rw [hk2] at hktv
  have hT : ∀ e ∈ entriesF base (cs.take idx), lexLt e.1 (base ++ key2) = true := by
    intro e he
    obtain ⟨c, hc, s, hs⟩ := entriesF_keys_head
      (fun c hc => wfF_mem_wfN hwfc (List.mem_of_mem_take hc)) e he
    rw [hs, hktv]
    exact lexLt_append_cons (hbef c hc) s kt
  have hD : ∀ e ∈ entriesF base (cs.drop (idx+1)), lexLt (base ++ key2) e.1 = true := by
    intro e he
    obtain ⟨c, hc, s, hs⟩ := entriesF_keys_head
      (fun c hc => wfF_mem_wfN hwfc (List.mem_of_mem_drop hc)) e he
    rw [hs, hktv]
    exact lexLt_append_cons (haft c hc) kt s
  rw [entriesF_set hidx child' base]
  conv_rhs => rw [entriesF_split hidx base]
  rw [hget]
  simp only [List.append_assoc]
  rw [entryIns_append_left hT, entryIns_append_right hD, hent base]

/-- Lookup through the forest reduces to lookup in the matched child. -/
theorem forest_lookup_found {cs : List RNode} {idx : Nat} {child : RNode}
    {b : Nat} {key2 : List Nat} (hk2 : key2.headD 0 = b) (hk2ne : key2 ≠ [])
    (hwfc : wfF cs = true) (hfr : findNode b cs = (idx, some child)) :
    ∀ base, entryLookup (base ++ key2) (entriesF base cs)
      = entryLookup (base ++ key2) (entriesN base child) := by
  obtain ⟨hidx, hget, hcb, hbef, haft⟩ := findNode_some_split (wfF_pairwise hwfc) hfr
  intro base
  obtain ⟨kt, hktv⟩ := exists_cons_of_ne_nil hk2ne
  rw [hk2] at hktv
  have hT : ∀ e ∈ entriesF base (cs.take idx), lexLt e.1 (base ++ key2) = true := by
    intro e he
    obtain ⟨c, hc, s, hs⟩ := entriesF_keys_head
      (fun c hc => wfF_mem_wfN hwfc (List.mem_of_mem_take hc)) e he
    rw [hs, hktv]
    exact lexLt_append_cons (hbef c hc) s kt
  have hD : ∀ e ∈ entriesF base (cs.drop (idx+1)), lexLt (base ++ key2) e.1 = true := by
    intro e he
    obtain ⟨c, hc, s, hs⟩ := entriesF_keys_head
      (fun c hc => wfF_mem_wfN hwfc (List.mem_of_mem_drop hc)) e he
    rw [hs, hktv]
    exact lexLt_append_cons (haft c hc) kt s
  conv_lhs => rw [entriesF_split hidx base]
  rw [hget]
  simp only [List.append_assoc]
  rw [entryLookup_append, entryLookup_append,
    entryLookup_keys_lt hT, entryLookup_keys_gt hD]
  cases hce : entryLookup (base ++ key2) (entriesN base child) <;> simp [Option.orElse]

/-- Replacing the matched child by a well-formed node with the same first
byte keeps the forest well-formed. -/
theorem forest_wf_found {cs : List RNode} {idx : Nat} {child child' : RNode}
    {b : Nat} (hwfc : wfF cs = true) (hfr : findNode b cs = (idx, some child))
    (hwf' : wfN child' = true) (hh : child'.headByte = child.headByte) :
    wfF (cs.set idx child') = true := by
  obtain ⟨hidx, hget, hcb, hbef, haft⟩ := findNode_some_split (wfF_pairwise hwfc) hfr
  refine wfF_of_pairwise ?_ ?_
  · intro c hc
    rcases List.mem_or_eq_of_mem_set hc with hmem | rfl
    · exact wfF_mem_wfN hwfc hmem
    · exact hwf'
  · exact pairwise_set_same_head hidx (wfF_pairwise hwfc) (by rw [hh, hget])

/-- Inserting a fresh leaf at the index `findNode` reported for a missing
first byte is an ordered insert on the forest's entries. -/
theorem forest_ins_none {cs : List RNode} {idx : Nat}
    {b : Nat} {key2 val : List Nat} (hk2 : key2.headD 0 = b) (hk2ne : key2 ≠ [])
    (hwfc : wfF cs = true) (hfr : findNode b cs = (idx, none)) :
    ∀ base, entriesF base (insAt (.mk (some val) key2 []) idx cs)
      = entryIns (base ++ key2) val (entriesF base cs) := by
  obtain ⟨hle, hbef, haft⟩ := findNode_none_split (wfF_pairwise hwfc) hfr
  intro base
  obtain ⟨kt, hktv⟩ := exists_cons_of_ne_nil hk2ne
  rw [hk2] at hktv
  have hT : ∀ e ∈ entriesF base (cs.take idx), lexLt e.1 (base ++ key2) = true := by
    intro e he
    obtain ⟨c, hc, s, hs⟩ := entriesF_keys_head
      (fun c hc => wfF_mem_wfN hwfc (List.mem_of_mem_take hc)) e he
    rw [hs, hktv]
    exact lexLt_append_cons (hbef c hc) s kt
  have hD : ∀ e ∈ entriesF base (cs.drop idx), lexLt (base ++ key2) e.1 = true := by
    intro e he
    obtain ⟨c, hc, s, hs⟩ := entriesF_keys_head
      (fun c hc => wfF_mem_wfN hwfc (List.mem_of_mem_drop hc)) e he
    rw [hs, hktv]
    exact lexLt_append_cons (haft c hc) kt s
  rw [entriesF_insAt]
  conv_rhs => rw [← List.take_append_drop idx cs]
  rw [entriesF_append, entryIns_append_left hT, entryIns_all_gt hD]
  have hleaf : entriesN base (.mk (some val) key2 []) = [(base ++ key2, val)] := by
    simp [entriesN]
  rw [hleaf]
  simp

/-- No matched child: the key is absent from the whole forest. -/
theorem forest_lookup_none {cs : List RNode} {idx : Nat}
    {b : Nat} {key2 : List Nat} (hk2 : key2.headD 0 = b) (hk2ne : key2 ≠ [])
    (hwfc : wfF cs = true) (hfr : findNode b cs = (idx, none)) :
    ∀ base, entryLookup (base ++ key2) (entriesF base cs) = none := by
  obtain ⟨hle, hbef, haft⟩ := findNode_none_split (wfF_pairwise hwfc) hfr
  intro base
  obtain ⟨kt, hktv⟩ := exists_cons_of_ne_nil hk2ne
  rw [hk2] at hktv
  have hT : ∀ e ∈ entriesF base (cs.take idx), lexLt e.1 (base ++ key2) = true := by
    intro e he
    obtain ⟨c, hc, s, hs⟩ := entriesF_keys_head
      (fun c hc => wfF_mem_wfN hwfc (List.mem_of_mem_take hc)) e he
    rw [hs, hktv]
    exact lexLt_append_cons (hbef c hc) s kt
  have hD : ∀ e ∈ entriesF base (cs.drop idx), lexLt (base ++ key2) e.1 = true := by
    intro e he
    obtain ⟨c, hc, s, hs⟩ := entriesF_keys_head
      (fun c hc => wfF_mem_wfN hwfc (List.mem_of_mem_drop hc)) e he
    rw [hs, hktv]
    exact lexLt_append_cons (haft c hc) kt s
  conv_lhs => rw [← List.take_append_drop idx cs]
  rw [entriesF_append, entryLookup_append,
    entryLookup_keys_lt hT, entryLookup_keys_gt hD]
  rfl

/-- Inserting a fresh leaf keeps the forest well-formed. -/
theorem forest_wf_none {cs : List RNode} {idx : Nat}
    {b : Nat} {key2 val : List Nat} (hk2 : key2.headD 0 = b) (hk2ne : key2 ≠ [])
    (hwfc : wfF cs = true) (hfr : findNode b cs = (idx, none)) :
    wfF (insAt (.mk (some val) key2 []) idx cs) = true := by
  obtain ⟨hle, hbef, haft⟩ := findNode_none_split (wfF_pairwise hwfc) hfr
  refine wfF_of_pairwise ?_ ?_
  · intro c hc
    rcases mem_insAt hc with rfl | hmem
    · exact wfN_of_parts (by simpa using hk2ne) (by simp) (by simp)
    · exact wfF_mem_wfN hwfc hmem
  · refine pairwise_insAt (wfF_pairwise hwfc) ?_ ?_
    · intro c hc
      have := hbef c hc
      simp only [RNode.headByte, RNode.pfx_mk]
      rw [hk2]
      exact this
    · intro c hc
      have := haft c hc
      simp only [RNode.headByte, RNode.pfx_mk]
      rw [hk2]
      exact this

/-! ## The insert specification -/

/-- `node.replaceOrInsert` against the sorted-association-list abstraction:
on a well-formed node reached with a non-empty key sharing its first byte
(which is how all call sites reach it), it preserves well-formedness and
the first byte, rewrites the subtree's walk entries to an ordered
insert-or-replace at the full key, and returns exactly the value previously
stored at that key. -/
theorem nodeROI_spec (n : RNode) (key val : List Nat) :
    wfN n = true → key ≠ [] → key.headD 0 = n.headByte →
    wfN (nodeROI n key val).2 = true
    ∧ (nodeROI n key val).2.headByte = n.headByte
    ∧ (∀ pfx, entriesN pfx (nodeROI n key val).2
        = entryIns (pfx ++ key) val (entriesN pfx n))
    ∧ (∀ pfx, (nodeROI n key val).1 = entryLookup (pfx ++ key) (entriesN pfx n)) := by
  induction n, key, val using nodeROI.induct with
  | case1 n val hv =>
    intro hwf hk hh
    have heval : nodeROI n n.pfx val = (none, .mk (some val) n.pfx n.children) := by
      rw [nodeROI]
      simp [hv]
    rw [heval]
    have hwfc := wfN_children_wf hwf
    refine ⟨?_, ?_, ?_, ?_⟩
    · exact wfN_of_parts (by simpa using wfN_pfx_ne hwf) (by simp) (by simpa using hwfc)
    · simp [RNode.headByte]
    · intro pfx
      rw [entriesN_def, entriesN_def]
      simp only [RNode.value_mk, RNode.pfx_mk, RNode.children_mk, hv,
        List.nil_append, List.singleton_append]
      rw [entryIns_all_gt (entriesF_keys_gt_base hwfc (pfx ++ n.pfx))]
    · intro pfx
      rw [entriesN_def]
      simp only [hv, List.nil_append]
      exact (entryLookup_keys_gt (entriesF_keys_gt_base hwfc (pfx ++ n.pfx))).symm
  | case2 n val old hv =>
    intro hwf hk hh
    have heval : nodeROI n n.pfx val = (some old, .mk (some val) n.pfx n.children) := by
      rw [nodeROI]
      simp [hv]
    rw [heval]
    have hwfc := wfN_children_wf hwf
    refine ⟨?_, ?_, ?_, ?_⟩
    · exact wfN_of_parts (by simpa using wfN_pfx_ne hwf) (by simp) (by simpa using hwfc)
    · simp [RNode.headByte]
    · intro pfx
      rw [entriesN_def, entriesN_def]
      simp only [RNode.value_mk, RNode.pfx_mk, RNode.children_mk, hv,
        List.singleton_append]
      rw [entryIns_cons]
      simp
    · intro pfx
      rw [entriesN_def]
      simp only [hv, List.singleton_append]
      rw [entryLookup]
      simp
  | case3 n key val hne i hieq key2 fr hsome ih =>
    intro hwf hk hh
    -- the stored prefix fully matches: descend into the found child
    have hival : i = prefixLen n.pfx key := rfl
    have hile : i ≤ key.length := prefixLen_le_right _ _
    have hilt : i < key.length := by
      rcases Nat.eq_or_lt_of_le hile with heq | hlt
      · exfalso
        apply hne
        have h2 := prefixLen_full_left hieq
        rw [hieq] at heq
        rw [← h2, heq, List.take_length]
      · exact hlt
    have hk2val : key2 = key.drop i := rfl
    have hk2ne : key2 ≠ [] := by
      rw [hk2val]
      intro hemp
      have := congrArg List.length hemp
      simp only [List.length_drop, List.length_nil] at this
      omega
    have hkeysplit : key = n.pfx ++ key2 := by
      rw [hk2val]
      conv_lhs => rw [← List.take_append_drop i key]
      congr 1
      rw [hieq]
      exact prefixLen_full_left hieq
    have hwfc := wfN_children_wf hwf
    have hfrval : fr = findNode (key2.headD 0) n.children := rfl
    set child := fr.2.get hsome with hchild
    have hfreq : findNode (key2.headD 0) n.children = (fr.1, some child) := by
      rw [← hfrval, hchild]
      exact ((Prod.mk.eta).symm).trans (by rw [Option.some_get])
    obtain ⟨hidx, hgeteq, hcb, hbefore, hafter⟩ :=
      findNode_some_split (wfF_pairwise hwfc) hfreq
    have hcwf : wfN child = true := wfF_mem_wfN hwfc (findNode_mem (by rw [hfreq]))
    obtain ⟨ihwf, ihhead, ihent, ihlook⟩ := ih hcwf hk2ne hcb.symm
    -- evaluate the branch
    have heval : nodeROI n key val
        = ((nodeROI child key2 val).1,
           .mk n.value n.pfx (n.children.set fr.1 (nodeROI child key2 val).2)) := by
      rw [nodeROI, if_neg hne]
      rw [← hival, if_pos hieq, ← hk2val]
      dsimp only
      rw [← hfrval, dif_pos hsome]
    rw [heval]
    refine ⟨?_, ?_, ?_, ?_⟩
    · -- well-formedness
      refine wfN_of_parts (by simpa using wfN_pfx_ne hwf) ?_ ?_
      · simp only [RNode.value_mk, RNode.children_mk, List.length_set]
        exact wfN_value_children hwf
      · simp only [RNode.children_mk]
        exact forest_wf_found hwfc hfreq ihwf ihhead
    · simp [RNode.headByte]
    · intro pfx
      have hks : pfx ++ key = (pfx ++ n.pfx) ++ key2 := by
        rw [hkeysplit, List.append_assoc]
      rw [entriesN_def]
      simp only [RNode.value_mk, RNode.pfx_mk, RNode.children_mk]
      rw [forest_ins_found rfl hk2ne hwfc hfreq ihent (pfx ++ n.pfx)]
      conv_rhs => rw [entriesN_def]
      rw [hks]
      rcases hv : n.value with - | v0
      · simp only [hv, List.nil_append]
      · simp only [hv, List.singleton_append]
        have hfront : ∀ e ∈ [((pfx ++ n.pfx, v0) : List Nat × List Nat)],
            lexLt e.1 ((pfx ++ n.pfx) ++ key2) = true := by
          intro e he
          simp only [List.mem_singleton] at he
          rw [he]
          exact lexLt_self_append _ hk2ne
        rw [show ((pfx ++ n.pfx, v0) : List Nat × List Nat)
              :: entriesF (pfx ++ n.pfx) n.children
            = [((pfx ++ n.pfx, v0) : List Nat × List Nat)]
              ++ entriesF (pfx ++ n.pfx) n.children from rfl,
          entryIns_append_left hfront]
        rfl
    · intro pfx
      have hks : pfx ++ key = (pfx ++ n.pfx) ++ key2 := by
        rw [hkeysplit, List.append_assoc]
      simp only
      rw [ihlook (pfx ++ n.pfx),
        ← forest_lookup_found rfl hk2ne hwfc hfreq (pfx ++ n.pfx)]
      conv_rhs => rw [entriesN_def]
      rw [hks]
      rcases hv : n.value with - | v0
      · simp only [hv, List.nil_append]
      · simp only [hv, List.singleton_append]
        rw [entryLookup, if_neg]
        intro heq
        simp only at heq
        have hlen := congrArg List.length heq
        simp only [List.length_append] at hlen
        have h0 : key2.length = 0 := by omega
        exact hk2ne (List.eq_nil_of_length_eq_zero h0)
  | case4 n key val hne i hieq key2 fr hnone =>
    intro hwf hk hh
    have hival : i = prefixLen n.pfx key := rfl
    have hile : i ≤ key.length := prefixLen_le_right _ _
    have hilt : i < key.length := by
      rcases Nat.eq_or_lt_of_le hile with heq | hlt
      · exfalso
        apply hne
        have h2 := prefixLen_full_left hieq
        rw [hieq] at heq
        rw [← h2, heq, List.take_length]
      · exact hlt
    have hk2val : key2 = key.drop i := rfl
    have hk2ne : key2 ≠ [] := by
      rw [hk2val]
      intro hemp
      have := congrArg List.length hemp
      simp only [List.length_drop, List.length_nil] at this
      omega
    have hkeysplit : key = n.pfx ++ key2 := by
      rw [hk2val]
      conv_lhs => rw [← List.take_append_drop i key]
      congr 1
      rw [hieq]
      exact prefixLen_full_left hieq
    have hwfc := wfN_children_wf hwf
    have hfrval : fr = findNode (key2.headD 0) n.children := rfl
    have hfreq : findNode (key2.headD 0) n.children = (fr.1, none) := by
      rw [← hfrval]
      have h2 : fr.2 = none := Option.not_isSome_iff_eq_none.mp hnone
      exact ((Prod.mk.eta).symm).trans (by rw [h2])
    have heval : nodeROI n key val
        = (none, .mk n.value n.pfx
            (insAt (.mk (some val) key2 []) fr.1 n.children)) := by
      rw [nodeROI, if_neg hne]
      rw [← hival, if_pos hieq, ← hk2val]
      dsimp only
      rw [← hfrval, dif_neg hnone]
    rw [heval]
    refine ⟨?_, ?_, ?_, ?_⟩
    · refine wfN_of_parts (by simpa using wfN_pfx_ne hwf) ?_ ?_
      · simp only [RNode.value_mk, RNode.children_mk]
        obtain ⟨hle, -, -⟩ := findNode_none_split (wfF_pairwise hwfc) hfreq
        rw [insAt_length hle]
        rcases wfN_value_children hwf with h1 | h1
        · exact Or.inl h1
        · exact Or.inr (by omega)
      · simp only [RNode.children_mk]
        exact forest_wf_none rfl hk2ne hwfc hfreq
    · simp [RNode.headByte]
    · intro pfx
      have hks : pfx ++ key = (pfx ++ n.pfx) ++ key2 := by
        rw [hkeysplit, List.append_assoc]
      rw [entriesN_def]
      simp only [RNode.value_mk, RNode.pfx_mk, RNode.children_mk]
      rw [forest_ins_none rfl hk2ne hwfc hfreq (pfx ++ n.pfx)]
      conv_rhs => rw [entriesN_def]
      rw [hks]
      rcases hv : n.value with - | v0
      · simp only [hv, List.nil_append]
      · simp only [hv, List.singleton_append]
        have hfront : ∀ e ∈ [((pfx ++ n.pfx, v0) : List Nat × List Nat)],
            lexLt e.1 ((pfx ++ n.pfx) ++ key2) = true := by
          intro e he
          simp only [List.mem_singleton] at he
          rw [he]
          exact lexLt_self_append _ hk2ne
        rw [show ((pfx ++ n.pfx, v0) : List Nat × List Nat)
              :: entriesF (pfx ++ n.pfx) n.children
            = [((pfx ++ n.pfx, v0) : List Nat × List Nat)]
              ++ entriesF (pfx ++ n.pfx) n.children from rfl,
          entryIns_append_left hfront]
        rfl
    · intro pfx
      have hks : pfx ++ key = (pfx ++ n.pfx) ++ key2 := by
        rw [hkeysplit, List.append_assoc]
      simp only
      conv_rhs => rw [entriesN_def]
      rw [hks]
      rcases hv : n.value with - | v0
      · simp only [hv, List.nil_append]
        exact (forest_lookup_none rfl hk2ne hwfc hfreq (pfx ++ n.pfx)).symm
      · simp only [hv, List.singleton_append]
        rw [entryLookup, if_neg, forest_lookup_none rfl hk2ne hwfc hfreq (pfx ++ n.pfx)]
        intro heq
        simp only at heq
        have hlen := congrArg List.length heq
        simp only [List.length_append] at hlen
        have h0 : key2.length = 0 := by omega
        exact hk2ne (List.eq_nil_of_length_eq_zero h0)
  | case5 n key val hne i hine key2 hk2pos =>
    intro hwf hk hh
    have hival : i = prefixLen n.pfx key := rfl
    have hile : i ≤ n.pfx.length := prefixLen_le_left _ _
    have hilt : i < n.pfx.length := lt_of_le_of_ne hile hine
    have hnp : n.pfx ≠ [] := wfN_pfx_ne hwf
    have hipos : 0 < i := prefixLen_pos_of_head_eq hnp hk (by rw [hh]; rfl)
    have hk2val : key2 = key.drop i := rfl
    have hkilt : i < key.length := by
      have := hk2pos
      rw [hk2val] at this
      simp only [List.length_drop] at this
      omega
    have hk2ne : key2 ≠ [] := by
      intro hemp
      rw [hemp] at hk2pos
      simp at hk2pos
    have htake : key.take i = n.pfx.take i := by
      rw [hival]
      exact (take_prefixLen_eq n.pfx key).symm
    have hkeysplit : key = n.pfx.take i ++ key2 := by
      rw [hk2val, ← htake]
      exact (List.take_append_drop i key).symm
    set child : RNode := .mk n.value (n.pfx.drop i) n.children with hchild
    have hchildh : child.headByte = n.pfx[i] := by
      rw [hchild]
      simp only [RNode.headByte, RNode.pfx_mk]
      exact headD_drop hilt 0
    have hk2h : key2.headD 0 = key[i] := by
      rw [hk2val]
      exact headD_drop hkilt 0
    have hbne : child.headByte ≠ key2.headD 0 := by
      rw [hchildh, hk2h]
      have h2 : n.pfx[prefixLen n.pfx key] ≠ key[prefixLen n.pfx key] :=
        prefixLen_getElem_ne hilt hkilt
      exact h2
    have hfr := findNode_singleton_ne hbne
    have hwfc := wfN_children_wf hwf
    have hchildwf : wfN child = true := by
      refine wfN_of_parts ?_ ?_ ?_
      · rw [hchild]
        simp only [RNode.pfx_mk]
        intro hemp
        have := congrArg List.length hemp
        simp only [List.length_drop, List.length_nil] at this
        omega
      · rw [hchild]
        simpa using wfN_value_children hwf
      · rw [hchild]
        simpa using hwfc
    have htakene : n.pfx.take i ≠ [] := by
      intro hemp
      have := congrArg List.length hemp
      simp only [List.length_take, List.length_nil] at this
      omega
    have heval : nodeROI n key val
        = (none, .mk none (n.pfx.take i)
            (insAt (.mk (some val) key2 [])
              (if key2.headD 0 < child.headByte then 0 else 1) [child])) := by
      rw [nodeROI, if_neg hne]
      rw [← hival, if_neg hine, ← hk2val]
      dsimp only
      rw [if_pos hk2pos, ← hchild, hfr]
    rw [heval]
    have hkey_at : ∀ pfx, ∀ e ∈ entriesN pfx n,
        ∃ s, e.1 = (pfx ++ n.pfx.take i) ++ n.pfx[i] :: s := by
      intro pfx e he
      exact entriesN_key_at hilt he
    obtain ⟨kt, hktv⟩ := exists_cons_of_ne_nil hk2ne
    have hkform : ∀ pfx : List Nat,
        pfx ++ key = (pfx ++ n.pfx.take i) ++ key2.headD 0 :: kt := by
      intro pfx
      rw [hkeysplit, ← hktv]
      simp [List.append_assoc]
    have hchildent : ∀ pfx : List Nat,
        entriesN (pfx ++ n.pfx.take i) child = entriesN pfx n := by
      intro pfx
      rw [hchild]
      rw [entriesN_re_root n.value n.pfx n.children i pfx, RNode.eta]
    refine ⟨?_, ?_, ?_, ?_⟩
    · refine wfN_of_parts (by simpa using htakene) ?_ ?_
      · refine Or.inr ?_
        simp only [RNode.children_mk]
        split <;> simp [insAt]
      · simp only [RNode.children_mk]
        have hleafwf : wfN (.mk (some val) key2 []) = true :=
          wfN_of_parts (by simpa using hk2ne) (by simp) (by simp)
        have hleafh : (RNode.mk (some val) key2 []).headByte = key2.headD 0 := by
          simp [RNode.headByte]
        refine wfF_of_pairwise ?_ ?_
        · intro c hc
          split at hc
          all_goals rcases mem_insAt hc with rfl | hmem
          · exact hleafwf
          · rw [List.mem_singleton.mp hmem]
            exact hchildwf
          · exact hleafwf
          · rw [List.mem_singleton.mp hmem]
            exact hchildwf
        · split
          next hcmp =>
            rw [show insAt (RNode.mk (some val) key2 []) 0 [child]
                = [RNode.mk (some val) key2 [], child] from rfl]
            refine List.pairwise_cons.mpr ⟨?_, by simp⟩
            intro c hc
            rw [List.mem_singleton.mp hc]
            show (RNode.mk (some val) key2 []).headByte < child.headByte
            rw [hleafh]
            exact hcmp
          next hcmp =>
            rw [show insAt (RNode.mk (some val) key2 []) 1 [child]
                = [child, RNode.mk (some val) key2 []] from rfl]
            refine List.pairwise_cons.mpr ⟨?_, by simp⟩
            intro c hc
            rw [List.mem_singleton.mp hc]
            show child.headByte < (RNode.mk (some val) key2 []).headByte
            rw [hleafh]
            omega
    · simp only [RNode.headByte, RNode.pfx_mk]
      exact headD_take hipos 0
    · intro pfx
      rw [entriesN_def]
      simp only [RNode.value_mk, RNode.pfx_mk, RNode.children_mk, List.nil_append]
      split
      next hcmp =>
        rw [show insAt (RNode.mk (some val) key2 []) 0 [child]
            = [RNode.mk (some val) key2 [], child] from rfl]
        rw [entriesF_cons, entriesF_cons, entriesF_nil, List.append_nil]
        have hleaf : entriesN (pfx ++ n.pfx.take i) (.mk (some val) key2 [])
            = [(pfx ++ n.pfx.take i ++ key2, val)] := by
          simp [entriesN]
        rw [hleaf, hchildent pfx]
        rw [entryIns_all_gt]
        · rw [hkform pfx, ← hktv]
          try simp [List.append_assoc]
        · intro e he
          obtain ⟨s, hs⟩ := hkey_at pfx e he
          rw [hs, hkform pfx]
          refine lexLt_append_cons ?_ kt s
          rw [← hchildh]
          exact hcmp
      next hcmp =>
        rw [show insAt (RNode.mk (some val) key2 []) 1 [child]
            = [child, RNode.mk (some val) key2 []] from rfl]
        rw [entriesF_cons, entriesF_cons, entriesF_nil, List.append_nil]
        have hleaf : entriesN (pfx ++ n.pfx.take i) (.mk (some val) key2 [])
            = [(pfx ++ n.pfx.take i ++ key2, val)] := by
          simp [entriesN]
        rw [hleaf, hchildent pfx]
        rw [entryIns_all_lt]
        · rw [hkform pfx, ← hktv]
          try simp [List.append_assoc]
        · intro e he
          obtain ⟨s, hs⟩ := hkey_at pfx e he
          rw [hs, hkform pfx]
          refine lexLt_append_cons ?_ s kt
          rw [← hchildh]
          omega
    · intro pfx
      simp only
      symm
      refine entryLookup_not_mem ?_
      intro e he
      obtain ⟨s, hs⟩ := hkey_at pfx e he
      rw [hs, hkform pfx]
      refine append_cons_ne ?_
      rw [← hchildh]
      exact fun heq => hbne heq
  | case6 n key val hne i hine key2 hk2zero =>
    intro hwf hk hh
    have hival : i = prefixLen n.pfx key := rfl
    have hile : i ≤ n.pfx.length := prefixLen_le_left _ _
    have hilt : i < n.pfx.length := lt_of_le_of_ne hile hine
    have hnp : n.pfx ≠ [] := wfN_pfx_ne hwf
    have hipos : 0 < i := prefixLen_pos_of_head_eq hnp hk (by rw [hh]; rfl)
    have hk2val : key2 = key.drop i := rfl
    have hkeq : key = n.pfx.take i := by
      have hlen : key.length ≤ i := by
        have h0 : key2.length = 0 := by omega
        rw [hk2val] at h0
        simp only [List.length_drop] at h0
        have hle2 : i ≤ key.length := prefixLen_le_right _ _
        omega
      have htk : key.take i = key := List.take_of_length_le hlen
      have hteq := take_prefixLen_eq n.pfx key
      rw [← hival] at hteq
      rw [hteq]
      exact htk.symm
    set child : RNode := .mk n.value (n.pfx.drop i) n.children with hchild
    have hwfc := wfN_children_wf hwf
    have hchildwf : wfN child = true := by
      refine wfN_of_parts ?_ ?_ ?_
      · rw [hchild]
        simp only [RNode.pfx_mk]
        intro hemp
        have := congrArg List.length hemp
        simp only [List.length_drop, List.length_nil] at this
        omega
      · rw [hchild]
        simpa using wfN_value_children hwf
      · rw [hchild]
        simpa using hwfc
    have htakene : n.pfx.take i ≠ [] := by
      intro hemp
      have := congrArg List.length hemp
      simp only [List.length_take, List.length_nil] at this
      omega
    have heval : nodeROI n key val
        = (none, .mk (some val) (n.pfx.take i) [child]) := by
      rw [nodeROI, if_neg hne]
      rw [← hival, if_neg hine, ← hk2val]
      dsimp only
      rw [if_neg hk2zero, ← hchild]
    rw [heval]
    have hchildent : ∀ pfx : List Nat,
        entriesN (pfx ++ n.pfx.take i) child = entriesN pfx n := by
      intro pfx
      rw [hchild]
      rw [entriesN_re_root n.value n.pfx n.children i pfx, RNode.eta]
    have hgt : ∀ pfx : List Nat, ∀ e ∈ entriesN pfx n,
        lexLt (pfx ++ key) e.1 = true := by
      intro pfx e he
      obtain ⟨s, hs⟩ := entriesN_key_at hilt he
      rw [hs, hkeq]
      exact lexLt_self_append _ (by simp)
    refine ⟨?_, ?_, ?_, ?_⟩
    · exact wfN_of_parts (by simpa using htakene) (by simp) (by simpa using hchildwf)
    · simp only [RNode.headByte, RNode.pfx_mk]
      exact headD_take hipos 0
    · intro pfx
      rw [entriesN_def]
      simp only [RNode.value_mk, RNode.pfx_mk, RNode.children_mk,
        List.singleton_append]
      rw [entriesF_cons, entriesF_nil, List.append_nil, hchildent pfx]
      rw [entryIns_all_gt (hgt pfx), hkeq]
    · intro pfx
      simp only
      symm
      refine entryLookup_not_mem ?_
      intro e he
      exact (lexLt_ne (hgt pfx e he)).symm

/-- `Tree.Insert` is `Tree.ReplaceOrInsert` with the `Empty` sentinel,
dropping the reported previous value. -/
theorem treeInsert_eq_roi (key : List Nat) (cs : List RNode) :
    treeInsert key cs = (treeROI key (some goEmpty) cs).2 := by
  cases key with
  | nil => rfl
  | cons b kt =>
    rw [treeInsert, treeROI]
    dsimp only
    split <;> rfl

/-- `Tree.ReplaceOrInsert` on a well-formed root forest: preserves the
invariant, performs an ordered insert-or-replace on the walk entries, and
returns the previously stored value. -/
theorem treeROI_spec {cs : List RNode} (key v : List Nat)
    (hwf : wfF cs = true) (hk : key ≠ []) :
    wfF (treeROI key (some v) cs).2 = true
    ∧ entriesF [] (treeROI key (some v) cs).2 = entryIns key v (entriesF [] cs)
    ∧ (treeROI key (some v) cs).1 = entryLookup key (entriesF [] cs) := by
  obtain ⟨kt, hktv⟩ := exists_cons_of_ne_nil hk
  rcases key with - | ⟨b, kt0⟩
  · exact absurd rfl hk
  have hhead : (b :: kt0).headD 0 = b := rfl
  rw [treeROI]
  dsimp only
  split
  next hsome =>
    set fr := findNode b cs with hfrval
    set child := fr.2.get hsome with hchild
    have hfreq : findNode b cs = (fr.1, some child) := by
      rw [← hfrval, hchild]
      exact ((Prod.mk.eta).symm).trans (by rw [Option.some_get])
    obtain ⟨hidx, hgeteq, hcb, hbefore, hafter⟩ :=
      findNode_some_split (wfF_pairwise hwf) hfreq
    have hcwf : wfN child = true := wfF_mem_wfN hwf (findNode_mem (by rw [hfreq]))
    obtain ⟨ihwf, ihhead, ihent, ihlook⟩ := nodeROI_spec child (b :: kt0) v hcwf hk hcb.symm
    refine ⟨?_, ?_, ?_⟩
    · exact forest_wf_found hwf hfreq ihwf ihhead
    · have := forest_ins_found hhead hk hwf hfreq ihent []
      simpa using this
    · have h2 := forest_lookup_found hhead hk hwf hfreq []
      have h3 := ihlook []
      simp only [List.nil_append] at h2 h3
      rw [h3, h2]
  next hnone =>
    set fr := findNode b cs with hfrval
    have hfreq : findNode b cs = (fr.1, none) := by
      rw [← hfrval]
      have h2 : fr.2 = none := Option.not_isSome_iff_eq_none.mp hnone
      exact ((Prod.mk.eta).symm).trans (by rw [h2])
    refine ⟨?_, ?_, ?_⟩
    · exact forest_wf_none hhead hk hwf hfreq
    · have := @forest_ins_none cs fr.1 b (b :: kt0) v hhead hk hwf hfreq []
      simpa using this
    · have h2 := forest_lookup_none hhead hk hwf hfreq []
      simp only [List.nil_append] at h2
      rw [h2]

/-- `Tree.Insert` on a well-formed root forest: preserves the invariant and
inserts `(key, Empty)` in order. -/
theorem treeInsert_spec {cs : List RNode} (key : List Nat)
    (hwf : wfF cs = true) (hk : key ≠ []) :
    wfF (treeInsert key cs) = true
    ∧ entriesF [] (treeInsert key cs) = entryIns key goEmpty (entriesF [] cs) := by
  rw [treeInsert_eq_roi]
  obtain ⟨h1, h2, h3⟩ := treeROI_spec key goEmpty hwf hk
  exact ⟨h1, h2⟩

@[simp] theorem treeInsert_nil (cs : List RNode) : treeInsert [] cs = cs := rfl

/-! ## The delete specification -/

theorem merge_entries (v : Option (List Nat)) (p : List Nat) (c0 : RNode)
    (pfx : List Nat) :
    entriesN pfx (merge (.mk v p [c0])) = entriesF (pfx ++ p) [c0] := by
  rw [show merge (.mk v p [c0]) = .mk c0.value (p ++ c0.pfx) c0.children from rfl]
  rw [entriesN_def, entriesF_cons, entriesF_nil, List.append_nil, entriesN_def]
  simp [List.append_assoc]

theorem merge_wf {v : Option (List Nat)} {p : List Nat} {c0 : RNode}
    (hp : p ≠ []) (hc0 : wfN c0 = true) : wfN (merge (.mk v p [c0])) = true := by
  rw [show merge (.mk v p [c0]) = .mk c0.value (p ++ c0.pfx) c0.children from rfl]
  refine wfN_of_parts (by simp [hp]) ?_ ?_
  · simpa using wfN_value_children hc0
  · simpa using wfN_children_wf hc0

theorem merge_headByte {v : Option (List Nat)} {p : List Nat} {c0 : RNode}
    (hp : p ≠ []) : (merge (.mk v p [c0])).headByte = (p.headD 0) := by
  rw [show merge (.mk v p [c0]) = .mk c0.value (p ++ c0.pfx) c0.children from rfl]
  simp only [RNode.headByte, RNode.pfx_mk]
  cases p with
  | nil => exact absurd rfl hp
  | cons x xs => rfl

/-- Entries of the siblings on either side of the matched child never carry
the probed key (their first byte differs). -/
theorem erase_sides {cs : List RNode} {idx : Nat} {child : RNode} {b : Nat}
    {key : List Nat} (hk2 : key.headD 0 = b) (hk2ne : key ≠ [])
    (hwfc : wfF cs = true) (hfr : findNode b cs = (idx, some child)) (base : List Nat) :
    (∀ e ∈ entriesF base (cs.take idx), e.1 ≠ base ++ key)
    ∧ (∀ e ∈ entriesF base (cs.drop (idx+1)), e.1 ≠ base ++ key) := by
  obtain ⟨hidx, hget, hcb, hbef, haft⟩ := findNode_some_split (wfF_pairwise hwfc) hfr
  obtain ⟨kt, hktv⟩ := exists_cons_of_ne_nil hk2ne
  rw [hk2] at hktv
  constructor
  · intro e he
    obtain ⟨c, hc, s, hs⟩ := entriesF_keys_head
      (fun c hc => wfF_mem_wfN hwfc (List.mem_of_mem_take hc)) e he
    rw [hs, hktv]
    exact append_cons_ne (by have := hbef c hc; omega)
  · intro e he
    obtain ⟨c, hc, s, hs⟩ := entriesF_keys_head
      (fun c hc => wfF_mem_wfN hwfc (List.mem_of_mem_drop hc)) e he
    rw [hs, hktv]
    exact append_cons_ne (by have := haft c hc; omega)

/-- Replacing the matched child by a node whose entries are the erase
localizes the erase over the whole forest. -/
theorem forest_erase_found {cs : List RNode} {idx : Nat} {child child2 : RNode}
    {b : Nat} {key : List Nat} (hk2 : key.headD 0 = b) (hk2ne : key ≠ [])
    (hwfc : wfF cs = true) (hfr : findNode b cs = (idx, some child))
    (hent : ∀ base, entriesN base child2 = entryErase (base ++ key) (entriesN base child)) :
    ∀ base, entriesF base (cs.set idx child2)
      = entryErase (base ++ key) (entriesF base cs) := by
  obtain ⟨hidx, hget, hcb, hbef, haft⟩ := findNode_some_split (wfF_pairwise hwfc) hfr
  intro base
  obtain ⟨hT, hD⟩ := erase_sides hk2 hk2ne hwfc hfr base
  rw [entriesF_set hidx child2 base]
  conv_rhs => rw [entriesF_split hidx base]
  rw [hget]
  simp only [List.append_assoc]
  rw [entryErase_append_left hT, entryErase_append_right hD, hent base]

/-- Removing a matched leaf child carrying exactly the probed key is the
erase over the whole forest. -/
theorem forest_erase_delAt {cs : List RNode} {idx : Nat} {child : RNode}
    {b : Nat} {key : List Nat} {v0 : List Nat} (hk2 : key.headD 0 = b) (hk2ne : key ≠ [])
    (hwfc : wfF cs = true) (hfr : findNode b cs = (idx, some child))
    (hent : ∀ base, entriesN base child = [(base ++ key, v0)]) :
    ∀ base, entriesF base (delAt idx cs)
      = entryErase (base ++ key) (entriesF base cs) := by
  obtain ⟨hidx, hget, hcb, hbef, haft⟩ := findNode_some_split (wfF_pairwise hwfc) hfr
  intro base
  obtain ⟨hT, hD⟩ := erase_sides hk2 hk2ne hwfc hfr base
  rw [entriesF_delAt hidx base]
  conv_rhs => rw [entriesF_split hidx base]
  rw [hget]
  simp only [List.append_assoc]
  rw [entryErase_append_left hT, hent base]
  rw [entryErase_append_right hD, entryErase_cons]
  simp

/-- If even the matched child does not carry the probed key, the erase is a
no-op on the whole forest. -/
theorem forest_erase_noop {cs : List RNode} {idx : Nat} {child : RNode}
    {b : Nat} {key : List Nat} (hk2 : key.headD 0 = b) (hk2ne : key ≠ [])
    (hwfc : wfF cs = true) (hfr : findNode b cs = (idx, some child))
    (hent : ∀ base, ∀ e ∈ entriesN base child, e.1 ≠ base ++ key) :
    ∀ base, entryErase (base ++ key) (entriesF base cs) = entriesF base cs := by
  obtain ⟨hidx, hget, hcb, hbef, haft⟩ := findNode_some_split (wfF_pairwise hwfc) hfr
  intro base
  obtain ⟨hT, hD⟩ := erase_sides hk2 hk2ne hwfc hfr base
  conv_lhs => rw [entriesF_split hidx base]
  conv_rhs => rw [entriesF_split hidx base]
  rw [hget]
  simp only [List.append_assoc]
  rw [entryErase_append_left hT, entryErase_append_right hD,
    entryErase_not_mem (hent base)]

/-- If no child matches the probed first byte, the erase is a no-op. -/
theorem forest_erase_none {cs : List RNode} {idx : Nat} {b : Nat} {key : List Nat}
    (hk2 : key.headD 0 = b) (hk2ne : key ≠ [])
    (hwfc : wfF cs = true) (hfr : findNode b cs = (idx, none)) :
    ∀ base, entryErase (base ++ key) (entriesF base cs) = entriesF base cs := by
  obtain ⟨hle, hbef, haft⟩ := findNode_none_split (wfF_pairwise hwfc) hfr
  intro base
  obtain ⟨kt, hktv⟩ := exists_cons_of_ne_nil hk2ne
  rw [hk2] at hktv
  refine entryErase_not_mem ?_
  intro e he
  obtain ⟨c, hc, s, hs⟩ := entriesF_keys_head
    (fun c hc => wfF_mem_wfN hwfc hc) e he
  rw [hs, hktv]
  have hcn : c.headByte ≠ b := by
    have hsplit : c ∈ cs.take idx ++ cs.drop idx := by
      rw [List.take_append_drop]
      exact hc
    rcases List.mem_append.mp hsplit with h1 | h2
    · have := hbef c h1
      omega
    · have := haft c h2
      omega
  exact append_cons_ne (by omega)

theorem delAt_length {idx : Nat} {cs : List RNode} (hidx : idx < cs.length) :
    (delAt idx cs).length = cs.length - 1 := by
  unfold delAt
  simp
  omega

theorem wfF_delAt {idx : Nat} {cs : List RNode} (hwf : wfF cs = true) :
    wfF (delAt idx cs) = true := by
  refine wfF_of_pairwise ?_ ?_
  · intro c hc
    exact wfF_mem_wfN hwf (mem_delAt hc)
  · exact List.Pairwise.sublist (delAt_sublist idx cs) (wfF_pairwise hwf)

/-- `children.delete` on a well-formed forest with a non-empty key: it never
panics, preserves well-formedness, removes at most one child per level, and
performs exactly the ordered erase of the key on the walk entries. -/
theorem childrenDelete_spec : ∀ (key : List Nat) (cs : List RNode),
    wfF cs = true → key ≠ [] →
    ∃ cs', childrenDelete key cs = some cs'
      ∧ wfF cs' = true
      ∧ cs.length ≤ cs'.length + 1
      ∧ ∀ pfx, entriesF pfx cs' = entryErase (pfx ++ key) (entriesF pfx cs) := by
  intro key cs
  induction key, cs using childrenDelete.induct with
  | case1 cs =>
    intro _ hk
    exact absurd rfl hk
  | case2 cs b bs fr hsome child hmm =>
    intro hwf hk
    have hfrval : fr = findNode b cs := rfl
    have hchildval : child = fr.2.get hsome := rfl
    have hfreq : findNode b cs = (fr.1, some child) := by
      rw [← hfrval, hchildval]
      exact ((Prod.mk.eta).symm).trans (by rw [Option.some_get])
    have heval : childrenDelete (b :: bs) cs = some cs := by
      rw [childrenDelete]
      dsimp only
      rw [← hfrval, dif_pos hsome, ← hchildval, if_pos hmm]
    refine ⟨cs, heval, hwf, by omega, ?_⟩
    intro pfx
    symm
    refine @forest_erase_noop cs fr.1 child b (b :: bs) rfl (by simp) hwf hfreq ?_ pfx
    intro base e he
    obtain ⟨r, hr⟩ := entriesN_key_shape child base e he
    rw [hr]
    intro heq
    rw [List.append_assoc] at heq
    have h2 := List.append_cancel_left heq
    -- the key either is shorter than the stored prefix or mismatches it
    rcases hmm with hshort | htake
    · have := congrArg List.length h2
      simp only [List.length_append] at this
      omega
    · apply htake
      rw [← h2, List.take_append_of_le_length (le_refl _)]
      simp
  | case3 cs b bs fr hsome child hcc0 hnm heq =>
    intro hwf hk
    have hfrval : fr = findNode b cs := rfl
    have hchildval : child = fr.2.get hsome := rfl
    have hfreq : findNode b cs = (fr.1, some child) := by
      rw [← hfrval, hchildval]
      exact ((Prod.mk.eta).symm).trans (by rw [Option.some_get])
    obtain ⟨hidx, hget, hcb, hbef, haft⟩ := findNode_some_split (wfF_pairwise hwf) hfreq
    have hcwf : wfN child = true := wfF_mem_wfN hwf (findNode_mem (by rw [hfreq]))
    have hpk : child.pfx = b :: bs := by
      push_neg at hnm
      have h2 := hnm.2
      rw [heq, List.take_length] at h2
      exact h2.symm
    have hv : ∃ v0, child.value = some v0 := by
      rcases wfN_value_children hcwf with h1 | h1
      · exact Option.isSome_iff_exists.mp h1
      · rw [List.length_eq_zero.mp hcc0] at h1
        simp at h1
    obtain ⟨v0, hv0⟩ := hv
    have hent : ∀ base, entriesN base child = [(base ++ (b :: bs), v0)] := by
      intro base
      rw [entriesN_def, hv0, hpk, List.length_eq_zero.mp hcc0]
      simp
    have heval : childrenDelete (b :: bs) cs = some (delAt fr.1 cs) := by
      rw [childrenDelete]
      dsimp only
      rw [← hfrval, dif_pos hsome, ← hchildval, if_neg hnm, if_pos heq, if_pos hcc0]
    refine ⟨delAt fr.1 cs, heval, wfF_delAt hwf, ?_, ?_⟩
    · rw [delAt_length hidx]
      omega
    · intro pfx
      exact @forest_erase_delAt cs fr.1 child b (b :: bs) v0 rfl (by simp)
        hwf hfreq hent pfx
  | case4 cs b bs fr hsome child hne0 hlen1 hnm heq =>
    intro hwf hk
    have hfrval : fr = findNode b cs := rfl
    have hchildval : child = fr.2.get hsome := rfl
    have hfreq : findNode b cs = (fr.1, some child) := by
      rw [← hfrval, hchildval]
      exact ((Prod.mk.eta).symm).trans (by rw [Option.some_get])
    obtain ⟨hidx, hget, hcb, hbef, haft⟩ := findNode_some_split (wfF_pairwise hwf) hfreq
    have hcwf : wfN child = true := wfF_mem_wfN hwf (findNode_mem (by rw [hfreq]))
    have hpk : child.pfx = b :: bs := by
      push_neg at hnm
      have h2 := hnm.2
      rw [heq, List.take_length] at h2
      exact h2.symm
    obtain ⟨c0, hc0⟩ := List.length_eq_one.mp hlen1
    have hv : ∃ v0, child.value = some v0 := by
      rcases wfN_value_children hcwf with h1 | h1
      · exact Option.isSome_iff_exists.mp h1
      · rw [hlen1] at h1
        omega
    obtain ⟨v0, hv0⟩ := hv
    have hc0wf : wfN c0 = true := by
      have := wfN_children_wf hcwf
      rw [hc0] at this
      simpa using this
    have hchildmk : child = .mk (some v0) child.pfx [c0] := by
      conv_lhs => rw [← RNode.eta child]
      rw [hv0, hc0]
    have hmwf : wfN (merge child) = true := by
      rw [hchildmk]
      exact merge_wf (by rw [hpk]; simp) hc0wf
    have hmh : (merge child).headByte = child.headByte := by
      rw [hchildmk]
      rw [merge_headByte (by rw [hpk]; simp)]
      simp [RNode.headByte]
    have hent : ∀ base, entriesN base (merge child)
        = entryErase (base ++ (b :: bs)) (entriesN base child) := by
      intro base
      conv_lhs => rw [hchildmk]
      rw [merge_entries]
      conv_rhs => rw [entriesN_def, hv0, hpk]
      simp only [List.singleton_append]
      rw [entryErase_cons, if_pos rfl, hc0, ← hpk]
    have heval : childrenDelete (b :: bs) cs = some (cs.set fr.1 (merge child)) := by
      rw [childrenDelete]
      dsimp only
      rw [← hfrval, dif_pos hsome, ← hchildval, if_neg hnm, if_pos heq,
        if_neg hne0, if_pos hlen1]
    refine ⟨cs.set fr.1 (merge child), heval,
      forest_wf_found hwf hfreq hmwf hmh, by simp, ?_⟩
    intro pfx
    exact @forest_erase_found cs fr.1 child (merge child) b (b :: bs) rfl (by simp)
      hwf hfreq hent pfx
  | case5 cs b bs fr hsome child hne0 hne1 hnm heq =>
    intro hwf hk
    have hfrval : fr = findNode b cs := rfl
    have hchildval : child = fr.2.get hsome := rfl
    have hfreq : findNode b cs = (fr.1, some child) := by
      rw [← hfrval, hchildval]
      exact ((Prod.mk.eta).symm).trans (by rw [Option.some_get])
    obtain ⟨hidx, hget, hcb, hbef, haft⟩ := findNode_some_split (wfF_pairwise hwf) hfreq
    have hcwf : wfN child = true := wfF_mem_wfN hwf (findNode_mem (by rw [hfreq]))
    have hpk : child.pfx = b :: bs := by
      push_neg at hnm
      have h2 := hnm.2
      rw [heq, List.take_length] at h2
      exact h2.symm
    have hlen2 : 2 ≤ child.children.length := by omega
    have hnwf : wfN (.mk none child.pfx child.children) = true := by
      refine wfN_of_parts (by rw [hpk]; simp) ?_ ?_
      · exact Or.inr (by simpa using hlen2)
      · simpa using wfN_children_wf hcwf
    have hnh : (RNode.mk none child.pfx child.children).headByte = child.headByte := by
      simp [RNode.headByte]
    have hgt : ∀ base, ∀ e ∈ entriesF (base ++ child.pfx) child.children,
        e.1 ≠ base ++ (b :: bs) := by
      intro base e he
      have := entriesF_keys_gt_base (wfN_children_wf hcwf) (base ++ child.pfx) e he
      rw [hpk] at this
      exact (lexLt_ne this).symm
    have hent : ∀ base, entriesN base (.mk none child.pfx child.children)
        = entryErase (base ++ (b :: bs)) (entriesN base child) := by
      intro base
      rw [entriesN_def]
      simp only [RNode.value_mk, RNode.pfx_mk, RNode.children_mk, List.nil_append]
      conv_rhs => rw [entriesN_def]
      rcases hv : child.value with - | v0
      · simp only [List.nil_append]
        rw [entryErase_not_mem]
        intro e he
        exact hgt base e he
      · simp only [List.singleton_append]
        rw [entryErase_cons, hpk, if_pos rfl]
    have heval : childrenDelete (b :: bs) cs
        = some (cs.set fr.1 (.mk none child.pfx child.children)) := by
      rw [childrenDelete]
      dsimp only
      rw [← hfrval, dif_pos hsome, ← hchildval, if_neg hnm, if_pos heq,
        if_neg hne0, if_neg hne1]
    refine ⟨cs.set fr.1 (.mk none child.pfx child.children), heval,
      forest_wf_found hwf hfreq hnwf hnh, by simp, ?_⟩
    intro pfx
    exact @forest_erase_found cs fr.1 child (.mk none child.pfx child.children) b
      (b :: bs) rfl (by simp) hwf hfreq hent pfx
  | case6 cs b bs fr hsome child hcc0 hnm hne =>
    intro hwf hk
    have hfrval : fr = findNode b cs := rfl
    have hchildval : child = fr.2.get hsome := rfl
    have hfreq : findNode b cs = (fr.1, some child) := by
      rw [← hfrval, hchildval]
      exact ((Prod.mk.eta).symm).trans (by rw [Option.some_get])
    have hcwf : wfN child = true := wfF_mem_wfN hwf (findNode_mem (by rw [hfreq]))
    have hv : ∃ v0, child.value = some v0 := by
      rcases wfN_value_children hcwf with h1 | h1
      · exact Option.isSome_iff_exists.mp h1
      · rw [List.length_eq_zero.mp hcc0] at h1
        simp at h1
    obtain ⟨v0, hv0⟩ := hv
    push_neg at hnm
    have hlong : child.pfx.length < (b :: bs).length :=
      lt_of_le_of_ne (by omega) hne
    have heval : childrenDelete (b :: bs) cs = some cs := by
      rw [childrenDelete]
      dsimp only
      rw [← hfrval, dif_pos hsome, ← hchildval, if_neg (by push_neg; exact hnm),
        if_neg hne, if_pos hcc0]
    refine ⟨cs, heval, hwf, by omega, ?_⟩
    intro pfx
    symm
    refine @forest_erase_noop cs fr.1 child b (b :: bs) rfl (by simp) hwf hfreq ?_ pfx
    intro base e he
    have hent : entriesN base child = [(base ++ child.pfx, v0)] := by
      rw [entriesN_def, hv0, List.length_eq_zero.mp hcc0]
      simp
    rw [hent] at he
    simp only [List.mem_singleton] at he
    rw [he]
    intro heq
    have h2 := List.append_cancel_left heq
    have := congrArg List.length h2
    simp only at this
    omega
  | case7 cs b bs fr hsome child hne0 hnm hne hrecnone ih =>
    intro hwf hk
    have hfrval : fr = findNode b cs := rfl
    have hchildval : child = fr.2.get hsome := rfl
    have hfreq : findNode b cs = (fr.1, some child) := by
      rw [← hfrval, hchildval]
      exact ((Prod.mk.eta).symm).trans (by rw [Option.some_get])
    have hcwf : wfN child = true := wfF_mem_wfN hwf (findNode_mem (by rw [hfreq]))
    push_neg at hnm
    have hlong : child.pfx.length < (b :: bs).length :=
      lt_of_le_of_ne (by omega) hne
    have hinne : (b :: bs).drop child.pfx.length ≠ [] := by
      intro hemp
      have := congrArg List.length hemp
      simp only [List.length_drop, List.length_nil] at this
      omega
    obtain ⟨cs2x, hx1, -, -, -⟩ := ih (wfN_children_wf hcwf) hinne
    exact absurd hx1 (by rw [hrecnone]; simp)
  | case8 cs b bs fr hsome child hne0 cs2 hcond hnm hne hrec ih =>
    intro hwf hk
    have hfrval : fr = findNode b cs := rfl
    have hchildval : child = fr.2.get hsome := rfl
    have hfreq : findNode b cs = (fr.1, some child) := by
      rw [← hfrval, hchildval]
      exact ((Prod.mk.eta).symm).trans (by rw [Option.some_get])
    have hcwf : wfN child = true := wfF_mem_wfN hwf (findNode_mem (by rw [hfreq]))
    have hcp : child.pfx ≠ [] := wfN_pfx_ne hcwf
    push_neg at hnm
    have hlong : child.pfx.length < (b :: bs).length :=
      lt_of_le_of_ne (by omega) hne
    have hinne : (b :: bs).drop child.pfx.length ≠ [] := by
      intro hemp
      have := congrArg List.length hemp
      simp only [List.length_drop, List.length_nil] at this
      omega
    obtain ⟨cs2x, hx1, hx2, hx3, hx4⟩ := ih (wfN_children_wf hcwf) hinne
    have hcseq : cs2 = cs2x := by
      rw [hrec] at hx1
      exact Option.some.inj hx1
    subst hcseq
    obtain ⟨c0, hc0⟩ := List.length_eq_one.mp hcond.1
    have hc0wf : wfN c0 = true := by
      have := hx2
      rw [hc0] at this
      simpa using this
    have hksplit : (b :: bs) = child.pfx ++ (b :: bs).drop child.pfx.length := by
      conv_lhs => rw [← List.take_append_drop child.pfx.length (b :: bs)]
      rw [hnm.2]
    have hchild2 : RNode.mk child.value child.pfx cs2
        = RNode.mk none child.pfx cs2 := by rw [hcond.2]
    have hmwf : wfN (merge (.mk child.value child.pfx cs2)) = true := by
      rw [hchild2, hc0]
      exact merge_wf hcp hc0wf
    have hmh : (merge (.mk child.value child.pfx cs2)).headByte = child.headByte := by
      rw [hchild2, hc0, merge_headByte hcp]
      simp [RNode.headByte]
    have hent : ∀ base, entriesN base (merge (.mk child.value child.pfx cs2))
        = entryErase (base ++ (b :: bs)) (entriesN base child) := by
      intro base
      rw [hchild2, hc0, merge_entries, ← hc0]
      conv_rhs => rw [entriesN_def, hcond.2]
      simp only [List.nil_append]
      have hx4b := hx4 (base ++ child.pfx)
      conv_rhs => rw [hksplit, ← List.append_assoc]
      exact hx4b
    have heval : childrenDelete (b :: bs) cs
        = some (cs.set fr.1 (merge (.mk child.value child.pfx cs2))) := by
      rw [childrenDelete]
      dsimp only
      rw [← hfrval, dif_pos hsome, ← hchildval, if_neg (by push_neg; exact hnm),
        if_neg hne, if_neg hne0, hrec]
      dsimp only
      rw [if_pos hcond]
    refine ⟨_, heval, forest_wf_found hwf hfreq hmwf hmh, by simp, ?_⟩
    intro pfx
    exact @forest_erase_found cs fr.1 child (merge (.mk child.value child.pfx cs2))
      b (b :: bs) rfl (by simp) hwf hfreq hent pfx
  | case9 cs b bs fr hsome child hne0 cs2 hncond hnm hne hrec ih =>
    intro hwf hk
    have hfrval : fr = findNode b cs := rfl
    have hchildval : child = fr.2.get hsome := rfl
    have hfreq : findNode b cs = (fr.1, some child) := by
      rw [← hfrval, hchildval]
      exact ((Prod.mk.eta).symm).trans (by rw [Option.some_get])
    have hcwf : wfN child = true := wfF_mem_wfN hwf (findNode_mem (by rw [hfreq]))
    have hcp : child.pfx ≠ [] := wfN_pfx_ne hcwf
    push_neg at hnm
    have hlong : child.pfx.length < (b :: bs).length :=
      lt_of_le_of_ne (by omega) hne
    have hinne : (b :: bs).drop child.pfx.length ≠ [] := by
      intro hemp
      have := congrArg List.length hemp
      simp only [List.length_drop, List.length_nil] at this
      omega
    obtain ⟨cs2x, hx1, hx2, hx3, hx4⟩ := ih (wfN_children_wf hcwf) hinne
    have hcseq : cs2 = cs2x := by
      rw [hrec] at hx1
      exact Option.some.inj hx1
    subst hcseq
    have hksplit : (b :: bs) = child.pfx ++ (b :: bs).drop child.pfx.length := by
      conv_lhs => rw [← List.take_append_drop child.pfx.length (b :: bs)]
      rw [hnm.2]
    have h2wf : wfN (RNode.mk child.value child.pfx cs2) = true := by
      refine wfN_of_parts (by simpa using hcp) ?_ (by simpa using hx2)
      simp only [RNode.value_mk, RNode.children_mk]
      cases hcv : child.value with
      | some v => exact Or.inl (by simp)
      | none =>
        refine Or.inr ?_
        have hne1 : cs2.length ≠ 1 := fun h1 => hncond ⟨h1, hcv⟩
        rcases wfN_value_children hcwf with hvs | hn
        · rw [hcv] at hvs
          simp at hvs
        · omega
    have hhb : (RNode.mk child.value child.pfx cs2).headByte = child.headByte := by
      simp [RNode.headByte]
    have hent : ∀ base, entriesN base (RNode.mk child.value child.pfx cs2)
        = entryErase (base ++ (b :: bs)) (entriesN base child) := by
      intro base
      rw [entriesN_def]
      conv_rhs => rw [entriesN_def]
      simp only [RNode.value_mk, RNode.pfx_mk, RNode.children_mk]
      conv_rhs => rw [hksplit]
      rw [← List.append_assoc]
      have hvleft : ∀ e ∈ (match child.value with
          | some val => [(base ++ child.pfx, val)]
          | none => ([] : List (List Nat × List Nat))),
          e.1 ≠ base ++ child.pfx ++ (b :: bs).drop child.pfx.length := by
        cases hcv : child.value with
        | none => simp
        | some v =>
          intro e he
          simp only [List.mem_singleton] at he
          subst he
          intro hkey
          have := congrArg List.length hkey
          simp only [List.length_append] at this
          have hd0 : ((b :: bs).drop child.pfx.length).length = 0 := by omega
          exact hinne (List.length_eq_zero.mp hd0)
      rw [entryErase_append_left hvleft, hx4 (base ++ child.pfx)]
    have heval : childrenDelete (b :: bs) cs
        = some (cs.set fr.1 (RNode.mk child.value child.pfx cs2)) := by
      rw [childrenDelete]
      dsimp only
      rw [← hfrval, dif_pos hsome, ← hchildval, if_neg (by push_neg; exact hnm),
        if_neg hne, if_neg hne0, hrec]
      dsimp only
      rw [if_neg hncond]
    refine ⟨_, heval, forest_wf_found hwf hfreq h2wf hhb, by simp, ?_⟩
    intro pfx
    exact @forest_erase_found cs fr.1 child (RNode.mk child.value child.pfx cs2)
      b (b :: bs) rfl (by simp) hwf hfreq hent pfx
  | case10 cs b bs fr hnone =>
    intro hwf hk
    have hfrval : fr = findNode b cs := rfl
    have hfreq : findNode b cs = (fr.1, none) := by
      rw [← hfrval]
      have h2 : fr.2 = none := Option.not_isSome_iff_eq_none.mp hnone
      exact ((Prod.mk.eta).symm).trans (by rw [h2])
    have heval : childrenDelete (b :: bs) cs = some cs := by
      rw [childrenDelete]
      dsimp only
      rw [← hfrval, dif_neg hnone]
    refine ⟨cs, heval, hwf, by omega, ?_⟩
    intro pfx
    exact (@forest_erase_none cs fr.1 b (b :: bs) rfl (by simp) hwf hfreq pfx).symm

/-- Looking up the key just written always sees the new value. -/
theorem entryLookup_ins_self (k v : List Nat) (l : List (List Nat × List Nat)) :
    entryLookup k (entryIns k v l) = some v := by
  induction l with
  | nil => simp [entryIns, entryLookup]
  | cons e rest ih =>
    rw [entryIns_cons]
    split
    next h => rw [entryLookup, if_pos rfl]
    next h =>
      split
      next => rw [entryLookup, if_pos rfl]
      next => rw [entryLookup, if_neg h]; exact ih

/-- The entry just written is present. -/
theorem mem_entryIns_self (k v : List Nat) (l : List (List Nat × List Nat)) :
    (k, v) ∈ entryIns k v l := by
  induction l with
  | nil => simp [entryIns]
  | cons e rest ih =>
    rw [entryIns_cons]
    split
    next => simp
    next =>
      split
      next => simp
      next => exact List.mem_cons_of_mem e ih

/-! ## Operation sequences -/

/-- The forest half of the canonical-form extraction: the maintained
invariant `wfF` implies claim C3's canonical compressed form on every child
list. -/
theorem wfF_canonF : ∀ cs, wfF cs = true → canonF cs = true := by
  have := rnodeMutualInd (P := fun n => wfN n = true → canonN n = true)
    (Q := fun cs => wfF cs = true → canonF cs = true) ?hmk ?hnil ?hcons
  · exact this.2
  case hmk =>
    intro v p cs ihcs h
    rw [wfN_def] at h
    simp only [Bool.and_eq_true, Bool.or_eq_true, RNode.value_mk,
      RNode.children_mk, RNode.pfx_mk] at h
    have hcs := ihcs h.2
    show (!(decide (cs.length = 1) && v.isNone) && canonF cs) = true
    simp only [Bool.and_eq_true, Bool.not_eq_true']
    refine ⟨?_, hcs⟩
    rcases h.1.2 with hv | hlen
    · simp only [Bool.and_eq_false_iff]
      right
      rcases Option.isSome_iff_exists.mp hv with ⟨x, rfl⟩
      simp
    · simp only [decide_eq_true_eq] at hlen
      simp only [Bool.and_eq_false_iff]
      left
      simp only [decide_eq_false_iff_not]
      omega
  case hnil => exact fun _ => rfl
  case hcons =>
    intro c rest ihc ihrest h
    have ⟨h1, h2⟩ := wfF_cons h
    show (canonN c && canonF rest) = true
    simp [ihc h1, ihrest h2]

/-- `Tree.Delete` with a non-empty key on a well-formed root forest: it
returns (no panic), preserves the invariant, and erases exactly the probed
key from the entry list. -/
theorem treeDelete_spec {cs : List RNode} (key : List Nat)
    (hwf : wfF cs = true) (hk : key ≠ []) :
    ∃ cs', treeDelete key cs = some cs'
      ∧ wfF cs' = true
      ∧ entriesF [] cs' = entryErase key (entriesF [] cs) := by
  obtain ⟨cs', h1, h2, -, h4⟩ := childrenDelete_spec key cs hwf hk
  exact ⟨cs', h1, h2, by simpa using h4 []⟩

/-- One public mutation preserves the invariant whenever it returns. -/
theorem applyOp_wf {cs cs' : List RNode} {op : TOp} (hwf : wfF cs = true)
    (h : applyOp cs op = some cs') : wfF cs' = true := by
  cases op with
  | ins k =>
    have h' : treeInsert k cs = cs' := Option.some.inj h
    rcases k with - | ⟨b, bt⟩
    · rw [treeInsert_nil] at h'
      exact h' ▸ hwf
    · exact h' ▸ (treeInsert_spec (b :: bt) hwf (by simp)).1
  | del k =>
    rcases k with - | ⟨b, bt⟩
    · have hnone : applyOp cs (TOp.del []) = none := by
        show childrenDelete [] cs = none
        rw [childrenDelete]
      rw [hnone] at h
      cases h
    · obtain ⟨cs2, he, hw, -, -⟩ := childrenDelete_spec (b :: bt) cs hwf (by simp)
      have h' : childrenDelete (b :: bt) cs = some cs' := h
      rw [he] at h'
      exact (Option.some.inj h') ▸ hw

/-- A whole mutation sequence preserves the invariant whenever it completes
without panicking. -/
theorem applyOps_wf : ∀ (ops : List TOp) (cs cs' : List RNode),
    wfF cs = true → applyOps ops cs = some cs' → wfF cs' = true := by
  intro ops
  induction ops with
  | nil =>
    intro cs cs' hwf h
    rw [applyOps, List.foldlM_nil] at h
    exact (Option.some.inj h) ▸ hwf
  | cons op rest ih =>
    intro cs cs' hwf h
    rw [applyOps, List.foldlM_cons] at h
    cases hstep : applyOp cs op with
    | none =>
      rw [hstep] at h
      simp at h
    | some cs1 =>
      rw [hstep] at h
      simp only [Option.pure_def, Option.bind_eq_bind, Option.some_bind] at h
      exact ih cs1 cs' (applyOp_wf hwf hstep) h

/-! ## Round-trip of the varint encoding -/

theorem lor_shift_add {x n s : Nat} (hx : x < 2 ^ s) :
    x ||| (n <<< s) = x + n * 2 ^ s := by
  rw [Nat.shiftLeft_eq, Nat.mul_comm n (2 ^ s), Nat.lor_comm,
    ← Nat.mul_add_lt_is_or hx]
  omega

theorem readUvarintAux_put (n : Nat) : ∀ i x s rest, i ≤ 8 → s = 7 * i →
    n < 2 ^ (63 - 7 * i) → x < 2 ^ s →
    readUvarintAux i x s (putUvarint n ++ rest) = some (x + n * 2 ^ s, rest) := by
  induction n using putUvarint.induct with
  | case1 n h =>
    intro i x s rest hi hs hn hx
    have hcond : ¬(i = 9 ∧ 1 < n) := by
      rintro ⟨h9, -⟩
      omega
    rw [putUvarint, dif_pos h, List.singleton_append, readUvarintAux,
      if_pos h, if_neg hcond]
    have hsle : s ≤ 56 := by omega
    have hshift : n <<< s < 2 ^ 64 := by
      rw [Nat.shiftLeft_eq]
      calc n * 2 ^ s < 2 ^ (63 - 7 * i) * 2 ^ s :=
            mul_lt_mul_of_pos_right hn (pow_pos (by norm_num) s)
        _ = 2 ^ (63 - 7 * i + s) := (Nat.pow_add 2 _ _).symm
        _ ≤ 2 ^ 63 := Nat.pow_le_pow_right (by norm_num) (by omega)
        _ < 2 ^ 64 := by norm_num
    rw [Nat.mod_eq_of_lt hshift, lor_shift_add hx]
  | case2 n h ih =>
    intro i x s rest hi hs hn hx
    have hile : i ≤ 7 := by
      by_contra hgt
      have h8 : i = 8 := by omega
      rw [h8] at hn
      norm_num at hn
      omega
    rw [putUvarint, dif_neg h, List.cons_append, readUvarintAux,
      if_neg (by omega : ¬(n % 128 + 128 < 128)), if_pos (by omega : i < 9)]
    have hmod : (n % 128 + 128) % 128 = n % 128 := by omega
    have hsmall : (n % 128) <<< s < 2 ^ 64 := by
      rw [Nat.shiftLeft_eq]
      calc n % 128 * 2 ^ s < 128 * 2 ^ s :=
            mul_lt_mul_of_pos_right (by omega) (pow_pos (by norm_num) s)
        _ = 2 ^ (7 + s) := by
            rw [Nat.pow_add]
        _ ≤ 2 ^ 63 := Nat.pow_le_pow_right (by norm_num) (by omega)
        _ < 2 ^ 64 := by norm_num
    rw [hmod, Nat.mod_eq_of_lt hsmall, lor_shift_add hx]
    have hx2 : x + n % 128 * 2 ^ s < 2 ^ (s + 7) := by
      have h1 : n % 128 * 2 ^ s ≤ 127 * 2 ^ s :=
        Nat.mul_le_mul (by omega) (le_refl _)
      have h2 : 2 ^ (s + 7) = 128 * 2 ^ s := by
        rw [Nat.pow_add]
        ring
      omega
    have hn2 : n / 128 < 2 ^ (63 - 7 * (i + 1)) := by
      have h128 : (128 : Nat) = 2 ^ 7 := by norm_num
      rw [Nat.div_lt_iff_lt_mul (by norm_num : (0:Nat) < 128), h128,
        ← Nat.pow_add]
      have he : 63 - 7 * (i + 1) + 7 = 63 - 7 * i := by omega
      rw [he]
      exact hn
    have harith : x + n % 128 * 2 ^ s + n / 128 * 2 ^ (s + 7) = x + n * 2 ^ s := by
      have h2 : 2 ^ (s + 7) = 2 ^ s * 128 := by
        rw [Nat.pow_add]
      have h3 : n % 128 + 128 * (n / 128) = n := Nat.mod_add_div n 128
      rw [h2]
      nlinarith [h3]
    rw [← harith]
    exact ih (i + 1) (x + n % 128 * 2 ^ s) (s + 7) rest (by omega) (by omega)
      hn2 hx2

theorem readUvarint_put (n : Nat) (hn : n < 2 ^ 63) (rest : List Nat) :
    readUvarint (putUvarint n ++ rest) = some (n, rest) := by
  have := readUvarintAux_put n 0 0 0 rest (by omega) rfl (by simpa using hn)
    (by norm_num)
  simpa using this

theorem putUvarint_length : ∀ (k : Nat), 0 < k → ∀ n < 2 ^ (7 * k),
    (putUvarint n).length ≤ k := by
  intro k
  induction k with
  | zero =>
    intro h
    omega
  | succ k ih =>
    intro _ n hn
    rw [putUvarint]
    by_cases h : n < 128
    · rw [dif_pos h]
      simp
    · rw [dif_neg h]
      rcases Nat.eq_zero_or_pos k with rfl | hk
      · exfalso
        norm_num at hn
        omega
      · have hdiv : n / 128 < 2 ^ (7 * k) := by
          have h7 : (2 : Nat) ^ (7 * (k + 1)) = 2 ^ (7 * k) * 128 := by
            rw [Nat.mul_succ, Nat.pow_add]
          rw [h7] at hn
          omega
        have := ih hk (n / 128) hdiv
        simpa using this

/-- Below `2 ^ 27` the doubled length's varint fits `lenBuf`. -/
theorem putVarint_lt (n : Nat) (hn : n < 2 ^ 27) :
    putVarint n = some (putUvarint (2 * n)) := by
  rw [putVarint]
  rw [if_pos (putUvarint_length 4 (by omega) (2 * n) (by norm_num; omega))]

theorem readVarint_put (n : Nat) (hn : n < 2 ^ 27) (rest : List Nat) :
    readVarint (putUvarint (2 * n) ++ rest) = some ((n : Int), rest) := by
  rw [readVarint, readUvarint_put (2 * n) (by omega) rest]
  dsimp only
  have hshift : (2 * n) >>> 1 = n := by
    rw [Nat.shiftRight_succ, Nat.shiftRight_zero]
    omega
  rw [hshift, if_neg (by omega : ¬(2 * n % 2 = 1))]

theorem readBytes_put (p : List Nat) (hp : p.length < 2 ^ 27) (rest : List Nat) :
    readBytes (putUvarint (2 * p.length) ++ (p ++ rest)) = some (p, rest) := by
  rw [readBytes, readVarint_put p.length hp (p ++ rest)]
  dsimp only
  rw [if_neg (by omega : ¬((p.length : Int) < 0))]
  rw [Int.toNat_natCast]
  rw [if_neg (by simp : ¬((p ++ rest).length < p.length))]
  rw [List.take_left, List.drop_left]

/-! ## The opcode stream of a forest, and the producer on clean streams -/

mutual
/-- The record stream one node contributes: open (push) itself, its
children in order, close (pop). -/
def dopsN : RNode → List DOp
  | .mk v p cs => .push p v :: (dopsF cs ++ [.pop])

/-- The record stream of a child list. -/
def dopsF : List RNode → List DOp
  | [] => []
  | c :: rest => dopsN c ++ dopsF rest
end

mutual
/-- Encodability: every reachable prefix is shorter than `2 ^ 27` (so the
zigzag varint of its length fits `WriteTo`'s four-byte `lenBuf`) and every
stored value is the sentinel `Empty` — the only value the public `Insert`
path ever stores. -/
def encOkN : RNode → Bool
  | .mk v p cs => decide (p.length < 2 ^ 27)
      && (v.isNone || decide (v = some goEmpty)) && encOkF cs

/-- Encodability of a child list. -/
def encOkF : List RNode → Bool
  | [] => true
  | c :: rest => encOkN c && encOkF rest
end

/-- A clean producer run: on `input`, whatever batch state the producer is
in, it appends exactly `ops` to the already-delivered records and reports
no error. -/
def prodClean (um : List Nat → Option (List Nat)) (input : List Nat)
    (ops : List DOp) : Prop :=
  ∀ sent cur, produce um input sent cur = (sent ++ cur ++ ops, false)

theorem prodClean_nil (um : List Nat → Option (List Nat)) :
    prodClean um [] [] := by
  intro sent cur
  rw [produce]
  simp

theorem prodClean_pop {um : List Nat → Option (List Nat)} {rest : List Nat}
    {ops : List DOp} (h : prodClean um rest ops) :
    prodClean um (45 :: rest) (.pop :: ops) := by
  intro sent cur
  rw [produce]
  dsimp only
  rw [if_pos rfl]
  by_cases hlen : (cur ++ [DOp.pop]).length < goBufferSize
  · rw [if_pos hlen, h sent (cur ++ [DOp.pop])]
    simp
  · rw [if_neg hlen, h (sent ++ (cur ++ [DOp.pop])) []]
    simp
theorem prodClean_push {um : List Nat → Option (List Nat)} {rest : List Nat}
    {ops : List DOp} (p : List Nat) (hp : p.length < 2 ^ 27)
    (h : prodClean um rest ops) :
    prodClean um (43 :: (putUvarint (2 * p.length) ++ (p ++ rest)))
      (.push p none :: ops) := by
  intro sent cur
  rw [produce]
  dsimp only
  rw [if_neg (by omega : ¬(43 : Nat) = 45),
    if_pos (Or.inl rfl : (43 : Nat) = 43 ∨ (43 : Nat) = 61)]
  rw [readBytes_put p hp rest]
  dsimp only
  rw [if_pos rfl]
  by_cases hlen : (cur ++ [DOp.push p none]).length < goBufferSize
  · rw [if_pos hlen, h sent (cur ++ [DOp.push p none])]
    simp
  · rw [if_neg hlen, h (sent ++ (cur ++ [DOp.push p none])) []]
    simp

theorem prodClean_pushKey {um : List Nat → Option (List Nat)} {rest : List Nat}
    {ops : List DOp} (p d v : List Nat) (hp : p.length < 2 ^ 27)
    (hd : d.length < 2 ^ 27) (hum : um d = some v)
    (h : prodClean um rest ops) :
    prodClean um (61 :: (putUvarint (2 * p.length) ++ (p ++ (putUvarint (2 * d.length) ++ (d ++ rest)))))
      (.push p (some v) :: ops) := by
  intro sent cur
  rw [produce]
  dsimp only
  rw [if_neg (by omega : ¬(61 : Nat) = 45),
    if_pos (Or.inr rfl : (61 : Nat) = 43 ∨ (61 : Nat) = 61)]
  rw [readBytes_put p hp (putUvarint (2 * d.length) ++ (d ++ rest))]
  dsimp only
  rw [if_neg (by omega : ¬(61 : Nat) = 43)]
  rw [readBytes_put d hd rest]
  dsimp only
  rw [hum]
  dsimp only
  by_cases hlen : (cur ++ [DOp.push p (some v)]).length < goBufferSize
  · rw [if_pos hlen, h sent (cur ++ [DOp.push p (some v)])]
    simp
  · rw [if_neg hlen, h (sent ++ (cur ++ [DOp.push p (some v)])) []]
    simp

theorem prodClean_congr {um : List Nat → Option (List Nat)}
    {i1 i2 : List Nat} {o1 o2 : List DOp} (h : prodClean um i1 o1)
    (hi : i1 = i2) (ho : o1 = o2) : prodClean um i2 o2 := by
  subst hi
  subst ho
  exact h

/-- Every encodable forest is marshaled successfully, and the producer
parses the emitted bytes back into exactly its record stream, with no
error, in any batching state. -/
theorem encode_clean (m um : List Nat → Option (List Nat)) (d : List Nat)
    (hmd : m goEmpty = some d) (hdlen : d.length < 2 ^ 27)
    (humd : um d = some goEmpty) :
    (∀ n, encOkN n = true → ∃ e, encodeN m n = some e ∧
        ∀ ops rest, prodClean um rest ops →
          prodClean um (e ++ rest) (dopsN n ++ ops))
    ∧ (∀ cs, encOkF cs = true → ∃ e, encodeF m cs = some e ∧
        ∀ ops rest, prodClean um rest ops →
          prodClean um (e ++ rest) (dopsF cs ++ ops)) := by
  refine rnodeMutualInd ?hmk ?hnil ?hcons
  case hmk =>
    intro v p cs ihcs hok
    have hok' : (decide (p.length < 2 ^ 27)
        && (v.isNone || decide (v = some goEmpty)) && encOkF cs) = true := hok
    simp only [Bool.and_eq_true, Bool.or_eq_true, decide_eq_true_eq] at hok'
    obtain ⟨⟨hp, hv⟩, hcs⟩ := hok'
    obtain ⟨body, hbody, hbclean⟩ := ihcs hcs
    rcases v with - | vv
    · refine ⟨(43 :: (putUvarint (2 * p.length) ++ p)) ++ body ++ [45], ?_, ?_⟩
      · have hsh : encodeN m (RNode.mk none p cs)
            = (match record m (RNode.mk none p cs), encodeF m cs with
               | some rb, some b2 => some (rb ++ b2 ++ [45])
               | _, _ => none) := rfl
        have hrecn : record m (RNode.mk none p cs)
            = some (43 :: (putUvarint (2 * p.length) ++ p)) := by
          have hsh2 : record m (RNode.mk none p cs)
              = (match putVarint p.length with
                 | none => none
                 | some pb => some (43 :: (pb ++ p))) := rfl
          rw [hsh2, putVarint_lt p.length hp]
        rw [hsh, hrecn, hbody]
      · intro ops rest hrest
        have h1 : prodClean um (45 :: rest) (.pop :: ops) := prodClean_pop hrest
        have h2 := hbclean (.pop :: ops) (45 :: rest) h1
        have h3 := prodClean_push p hp h2
        refine prodClean_congr h3 (by simp) ?_
        show DOp.push p none :: (dopsF cs ++ (DOp.pop :: ops))
            = dopsN (RNode.mk none p cs) ++ ops
        simp [dopsN]
    · have hvv : vv = goEmpty := by
        rcases hv with hno | hsome
        · simp at hno
        · exact Option.some.inj hsome
      subst hvv
      refine ⟨(61 :: (putUvarint (2 * p.length) ++ p ++ putUvarint (2 * d.length) ++ d))
          ++ body ++ [45], ?_, ?_⟩
      · have hsh : encodeN m (RNode.mk (some goEmpty) p cs)
            = (match record m (RNode.mk (some goEmpty) p cs), encodeF m cs with
               | some rb, some b2 => some (rb ++ b2 ++ [45])
               | _, _ => none) := rfl
        have hrec : record m (RNode.mk (some goEmpty) p cs)
            = some (61 :: (putUvarint (2 * p.length) ++ p ++ putUvarint (2 * d.length) ++ d)) := by
          have hsh2 : record m (RNode.mk (some goEmpty) p cs)
              = (match putVarint p.length with
                 | none => none
                 | some pb =>
                   match m goEmpty with
                   | none => none
                   | some data =>
                     match putVarint data.length with
                     | none => none
                     | some db => some (61 :: (pb ++ p ++ db ++ data))) := rfl
          rw [hsh2, putVarint_lt p.length hp]
          dsimp only
          rw [hmd]
          dsimp only
          rw [putVarint_lt d.length hdlen]
        rw [hsh, hrec, hbody]
      · intro ops rest hrest
        have h1 : prodClean um (45 :: rest) (.pop :: ops) := prodClean_pop hrest
        have h2 := hbclean (.pop :: ops) (45 :: rest) h1
        have h3 := prodClean_pushKey p d goEmpty hp hdlen humd h2
        refine prodClean_congr h3 (by simp) ?_
        show DOp.push p (some goEmpty) :: (dopsF cs ++ (DOp.pop :: ops))
            = dopsN (RNode.mk (some goEmpty) p cs) ++ ops
        simp [dopsN]
  case hnil =>
    intro _
    refine ⟨[], rfl, ?_⟩
    intro ops rest hrest
    exact hrest
  case hcons =>
    intro c rest0 ihc ihrest hok
    have hok' : (encOkN c && encOkF rest0) = true := hok
    simp only [Bool.and_eq_true] at hok'
    obtain ⟨e1, he1, hc1⟩ := ihc hok'.1
    obtain ⟨e2, he2, hc2⟩ := ihrest hok'.2
    refine ⟨e1 ++ e2, ?_, ?_⟩
    · have hsh : encodeF m (c :: rest0)
          = (match encodeN m c, encodeF m rest0 with
             | some a, some b => some (a ++ b)
             | _, _ => none) := rfl
      rw [hsh, he1, he2]
    · intro ops rest hrest
      have h2 := hc2 ops rest hrest
      have h1 := hc1 (dopsF rest0 ++ ops) (e2 ++ rest) h2
      refine prodClean_congr h1 (by simp) ?_
      show dopsN c ++ (dopsF rest0 ++ ops) = dopsF (c :: rest0) ++ ops
      simp [dopsF]

/-- Where completed nodes land: at the root list when no node is open,
else in the innermost open node's accumulator. -/
def attachF (cs : List RNode) (st : CState) : CState :=
  match st.opens with
  | [] => ⟨st.top ++ cs, []⟩
  | (acc, p, v) :: deeper => ⟨st.top, (acc ++ cs, p, v) :: deeper⟩

theorem attachF_attachF (cs1 cs2 : List RNode) (st : CState) :
    attachF cs2 (attachF cs1 st) = attachF (cs1 ++ cs2) st := by
  rcases st with ⟨top, opens⟩
  rcases opens with - | ⟨⟨acc, p, v⟩, deeper⟩ <;> simp [attachF]

/-- Draining a forest's record stream attaches the forest at the current
insertion point and continues. -/
theorem consume_dops :
    (∀ n, ∀ ops st, consume (dopsN n ++ ops) st = consume ops (attachF [n] st))
    ∧ (∀ cs, ∀ ops st, consume (dopsF cs ++ ops) st
        = consume ops (attachF cs st)) := by
  refine rnodeMutualInd ?hmk ?hnil ?hcons
  case hmk =>
    intro v p cs ihcs ops st
    have hsh : dopsN (RNode.mk v p cs) = .push p v :: (dopsF cs ++ [.pop]) := rfl
    rw [hsh, List.cons_append, List.append_assoc]
    show consume (dopsF cs ++ ([DOp.pop] ++ ops)) ⟨st.top, ([], p, v) :: st.opens⟩
        = consume ops (attachF [RNode.mk v p cs] st)
    rw [ihcs ([DOp.pop] ++ ops) ⟨st.top, ([], p, v) :: st.opens⟩]
    show consume ([DOp.pop] ++ ops) ⟨st.top, (([] : List RNode) ++ cs, p, v) :: st.opens⟩
        = consume ops (attachF [RNode.mk v p cs] st)
    rw [List.nil_append]
    rcases st with ⟨top, opens⟩
    rcases opens with - | ⟨⟨acc2, p2, v2⟩, deeper⟩
    · rfl
    · rfl
  case hnil =>
    intro ops st
    show consume ops st = consume ops (attachF [] st)
    rcases st with ⟨top, opens⟩
    rcases opens with - | ⟨⟨acc, p, v⟩, deeper⟩ <;> simp [attachF]
  case hcons =>
    intro c rest0 ihc ihrest ops st
    have hsh : dopsF (c :: rest0) = dopsN c ++ dopsF rest0 := rfl
    rw [hsh, List.append_assoc, ihc (dopsF rest0 ++ ops) st,
      ihrest ops (attachF [c] st), attachF_attachF]
    rfl

/-- Decoding inverts encoding on every encodable forest. -/
theorem reBuild_encodeF (m um : List Nat → Option (List Nat)) (d : List Nat)
    (hmd : m goEmpty = some d) (hdlen : d.length < 2 ^ 27)
    (humd : um d = some goEmpty) {cs : List RNode} (hok : encOkF cs = true) :
    ∃ out, encodeF m cs = some out ∧ reBuild um out = .ok cs := by
  obtain ⟨out, he, hclean⟩ := (encode_clean m um d hmd hdlen humd).2 cs hok
  have hpc : prodClean um out (dopsF cs) :=
    prodClean_congr (hclean [] [] (prodClean_nil um)) (by simp) (by simp)
  refine ⟨out, he, ?_⟩
  have hprod : produce um out [] [] = (dopsF cs, false) := by
    simpa using hpc [] []
  have hcons : consume (dopsF cs) (⟨[], []⟩ : CState) = .ok ⟨cs, []⟩ := by
    have h := consume_dops.2 cs [] ⟨[], []⟩
    rw [List.append_nil] at h
    simpa [attachF] using h
  rw [reBuild]
  simp [hprod, hcons]

/-- The `WriteTo` work-list loop computes the recursive encoder. -/
theorem writeToLoop_eq (m : List Nat → Option (List Nat)) :
    (∀ n, ∀ rest, writeToLoop m ((n, false) :: rest)
        = (encodeN m n).bind (fun e => (writeToLoop m rest).map (fun o => e ++ o)))
    ∧ (∀ cs, ∀ rest, writeToLoop m (cs.map (fun c => (c, false)) ++ rest)
        = (encodeF m cs).bind (fun e => (writeToLoop m rest).map (fun o => e ++ o))) := by
  refine rnodeMutualInd ?hmk ?hnil ?hcons
  case hmk =>
    intro v p cs ihcs rest
    have hshe : encodeN m (RNode.mk v p cs)
        = (match record m (RNode.mk v p cs), encodeF m cs with
           | some rb, some b2 => some (rb ++ b2 ++ [45])
           | _, _ => none) := rfl
    cases cs with
    | nil =>
      cases hrec : record m (RNode.mk v p []) with
      | none =>
        have hred : writeToLoop m ((RNode.mk v p [], false) :: rest) = none := by
          rw [writeToLoop, hrec]
        rw [hred, hshe, hrec]
        cases hef : encodeF m ([] : List RNode) with
        | none => rfl
        | some body => rfl
      | some rb =>
        have hred : writeToLoop m ((RNode.mk v p [], false) :: rest)
            = (match writeToLoop m rest with
               | none => none
               | some out => some (rb ++ 45 :: out)) := by
          rw [writeToLoop, hrec]
          rfl
        rw [hred, hshe, hrec, show encodeF m ([] : List RNode) = some [] from rfl]
        cases howl : writeToLoop m rest with
        | none => rfl
        | some out => simp
    | cons c cs2 =>
      have hwt : writeToLoop m ((RNode.mk v p (c :: cs2), true) :: rest)
          = (match writeToLoop m rest with
             | none => none
             | some out => some (45 :: out)) := by
        rw [writeToLoop]
      cases hrec : record m (RNode.mk v p (c :: cs2)) with
      | none =>
        have hred : writeToLoop m ((RNode.mk v p (c :: cs2), false) :: rest)
            = none := by
          rw [writeToLoop, hrec]
        rw [hred, hshe, hrec]
        cases hef : encodeF m (c :: cs2) with
        | none => rfl
        | some body => rfl
      | some rb =>
        have hred : writeToLoop m ((RNode.mk v p (c :: cs2), false) :: rest)
            = (match writeToLoop m ((c :: cs2).map (fun x => (x, false))
                ++ (RNode.mk v p (c :: cs2), true) :: rest) with
               | none => none
               | some out => some (rb ++ out)) := by
          rw [writeToLoop, hrec]
          rfl
        rw [hred, ihcs ((RNode.mk v p (c :: cs2), true) :: rest), hwt, hshe, hrec]
        cases hef : encodeF m (c :: cs2) with
        | none => rfl
        | some body =>
          cases howl : writeToLoop m rest with
          | none => rfl
          | some out => simp
  case hnil =>
    intro rest
    rw [List.map_nil, List.nil_append,
      show encodeF m ([] : List RNode) = some [] from rfl]
    cases howl : writeToLoop m rest with
    | none => rfl
    | some out => simp
  case hcons =>
    intro c rest0 ihc ihrest rest
    have hshf : encodeF m (c :: rest0)
        = (match encodeN m c, encodeF m rest0 with
           | some a, some b => some (a ++ b)
           | _, _ => none) := rfl
    rw [List.map_cons, List.cons_append,
      ihc (rest0.map (fun c => (c, false)) ++ rest), ihrest rest, hshf]
    cases he1 : encodeN m c with
    | none => rfl
    | some e1 =>
      cases he2 : encodeF m rest0 with
      | none => rfl
      | some e2 =>
        cases howl : writeToLoop m rest with
        | none => rfl
        | some out => simp

/-- `Tree.WriteTo` equals the recursive encoder. -/
theorem treeWriteTo_eq (m : List Nat → Option (List Nat)) (cs : List RNode) :
    treeWriteTo m cs = encodeF m cs := by
  rw [treeWriteTo, ← List.append_nil (cs.map (fun c => (c, false))),
    (writeToLoop_eq m).2 cs []]
  cases h : encodeF m cs with
  | none => rfl
  | some e =>
    have : writeToLoop m [] = some [] := by rw [writeToLoop]
    rw [this]
    simp

/-! ## Encodability is preserved by the public mutations -/

theorem encOkN_iff (n : RNode) : encOkN n = true ↔
    n.pfx.length < 2 ^ 27
    ∧ (n.value.isNone = true ∨ n.value = some goEmpty)
    ∧ encOkF n.children = true := by
  cases n with
  | mk v p cs =>
    show (decide (p.length < 2 ^ 27)
        && (v.isNone || decide (v = some goEmpty)) && encOkF cs) = true ↔ _
    simp only [Bool.and_eq_true, Bool.or_eq_true, decide_eq_true_eq,
      RNode.pfx_mk, RNode.value_mk, RNode.children_mk]
    tauto

theorem encOkF_iff (cs : List RNode) :
    encOkF cs = true ↔ ∀ c ∈ cs, encOkN c = true := by
  induction cs with
  | nil => simp [encOkF]
  | cons c rest ih =>
    show (encOkN c && encOkF rest) = true ↔ _
    simp only [Bool.and_eq_true, ih, List.mem_cons]
    constructor
    · rintro ⟨h1, h2⟩ x (rfl | hx)
      · exact h1
      · exact h2 x hx
    · intro h
      exact ⟨h c (Or.inl rfl), fun x hx => h x (Or.inr hx)⟩

theorem nodeROI_encOk (n : RNode) (key val : List Nat) :
    encOkN n = true → key.length < 2 ^ 27 → val = goEmpty →
    encOkN (nodeROI n key val).2 = true := by
  induction n, key, val using nodeROI.induct with
  | case1 n val hv =>
    intro hok hkl hval
    have heval : nodeROI n n.pfx val = (none, .mk (some val) n.pfx n.children) := by
      rw [nodeROI]
      simp [hv]
    rw [heval]
    obtain ⟨h1, h2, h3⟩ := (encOkN_iff n).mp hok
    refine (encOkN_iff _).mpr ⟨by simpa using h1, ?_, by simpa using h3⟩
    right
    simp [hval]
  | case2 n val old hv =>
    intro hok hkl hval
    have heval : nodeROI n n.pfx val = (some old, .mk (some val) n.pfx n.children) := by
      rw [nodeROI]
      simp [hv]
    rw [heval]
    obtain ⟨h1, h2, h3⟩ := (encOkN_iff n).mp hok
    refine (encOkN_iff _).mpr ⟨by simpa using h1, ?_, by simpa using h3⟩
    right
    simp [hval]
  | case3 n key val hne i hieq key2 fr hsome ih =>
    intro hok hkl hval
    have hival : i = prefixLen n.pfx key := rfl
    have hk2val : key2 = key.drop i := rfl
    have hfrval : fr = findNode (key2.headD 0) n.children := rfl
    set child := fr.2.get hsome with hchild
    have hfreq : findNode (key2.headD 0) n.children = (fr.1, some child) := by
      rw [← hfrval, hchild]
      exact ((Prod.mk.eta).symm).trans (by rw [Option.some_get])
    have heval : nodeROI n key val
        = ((nodeROI child key2 val).1,
           .mk n.value n.pfx (n.children.set fr.1 (nodeROI child key2 val).2)) := by
      rw [nodeROI, if_neg hne]
      rw [← hival, if_pos hieq, ← hk2val]
      dsimp only
      rw [← hfrval, dif_pos hsome]
    rw [heval]
    obtain ⟨h1, h2, h3⟩ := (encOkN_iff n).mp hok
    have hcok : encOkN child = true :=
      (encOkF_iff n.children).mp h3 child (findNode_mem (by rw [hfreq]))
    have hk2l : key2.length < 2 ^ 27 := by
      rw [hk2val]
      simp only [List.length_drop]
      omega
    have hrec := ih hcok hk2l hval
    refine (encOkN_iff _).mpr ⟨by simpa using h1, by simpa using h2, ?_⟩
    simp only [RNode.children_mk]
    refine (encOkF_iff _).mpr ?_
    intro c hc
    rcases List.mem_or_eq_of_mem_set hc with hmem | rfl
    · exact (encOkF_iff n.children).mp h3 c hmem
    · exact hrec
  | case4 n key val hne i hieq key2 fr hnone =>
    intro hok hkl hval
    have hival : i = prefixLen n.pfx key := rfl
    have hk2val : key2 = key.drop i := rfl
    have hfrval : fr = findNode (key2.headD 0) n.children := rfl
    have heval : nodeROI n key val
        = (none, .mk n.value n.pfx
            (insAt (.mk (some val) key2 []) fr.1 n.children)) := by
      rw [nodeROI, if_neg hne]
      rw [← hival, if_pos hieq, ← hk2val]
      dsimp only
      rw [← hfrval, dif_neg hnone]
    rw [heval]
    obtain ⟨h1, h2, h3⟩ := (encOkN_iff n).mp hok
    have hleaf : encOkN (RNode.mk (some val) key2 []) = true := by
      refine (encOkN_iff _).mpr ⟨?_, ?_, by simp [encOkF]⟩
      · rw [hk2val]
        simp only [RNode.pfx_mk, List.length_drop]
        omega
      · right
        simp [hval]
    refine (encOkN_iff _).mpr ⟨by simpa using h1, by simpa using h2, ?_⟩
    simp only [RNode.children_mk]
    refine (encOkF_iff _).mpr ?_
    intro c hc
    rcases mem_insAt hc with rfl | hmem
    · exact hleaf
    · exact (encOkF_iff n.children).mp h3 c hmem
  | case5 n key val hne i hine key2 hk2pos =>
    intro hok hkl hval
    have hival : i = prefixLen n.pfx key := rfl
    have hk2val : key2 = key.drop i := rfl
    set child : RNode := .mk n.value (n.pfx.drop i) n.children with hchild
    have heval : nodeROI n key val
        = (none, .mk none (n.pfx.take i)
            (insAt (.mk (some val) key2 [])
              (findNode (key2.headD 0) [child]).1 [child])) := by
      rw [nodeROI, if_neg hne]
      rw [← hival, if_neg hine, ← hk2val]
      dsimp only
      rw [if_pos hk2pos, ← hchild]
    rw [heval]
    obtain ⟨h1, h2, h3⟩ := (encOkN_iff n).mp hok
    have hcok : encOkN child = true := by
      rw [hchild]
      refine (encOkN_iff _).mpr ⟨?_, by simpa using h2, by simpa using h3⟩
      simp only [RNode.pfx_mk, List.length_drop]
      omega
    have hleaf : encOkN (RNode.mk (some val) key2 []) = true := by
      refine (encOkN_iff _).mpr ⟨?_, ?_, by simp [encOkF]⟩
      · rw [hk2val]
        simp only [RNode.pfx_mk, List.length_drop]
        omega
      · right
        simp [hval]
    refine (encOkN_iff _).mpr ⟨?_, by simp, ?_⟩
    · simp only [RNode.pfx_mk, List.length_take]
      omega
    · simp only [RNode.children_mk]
      refine (encOkF_iff _).mpr ?_
      intro c hc
      rcases mem_insAt hc with rfl | hmem
      · exact hleaf
      · rcases List.mem_singleton.mp hmem with rfl
        exact hcok
  | case6 n key val hne i hine key2 hk2zero =>
    intro hok hkl hval
    have hival : i = prefixLen n.pfx key := rfl
    have hk2val : key2 = key.drop i := rfl
    set child : RNode := .mk n.value (n.pfx.drop i) n.children with hchild
    have heval : nodeROI n key val
        = (none, .mk (some val) (n.pfx.take i) [child]) := by
      rw [nodeROI, if_neg hne]
      rw [← hival, if_neg hine, ← hk2val]
      dsimp only
      rw [if_neg hk2zero, ← hchild]
    rw [heval]
    obtain ⟨h1, h2, h3⟩ := (encOkN_iff n).mp hok
    have hcok : encOkN child = true := by
      rw [hchild]
      refine (encOkN_iff _).mpr ⟨?_, by simpa using h2, by simpa using h3⟩
      simp only [RNode.pfx_mk, List.length_drop]
      omega
    refine (encOkN_iff _).mpr ⟨?_, ?_, ?_⟩
    · simp only [RNode.pfx_mk, List.length_take]
      omega
    · right
      simp [hval]
    · simp only [RNode.children_mk]
      refine (encOkF_iff _).mpr ?_
      intro c hc
      rcases List.mem_singleton.mp hc with rfl
      exact hcok

theorem treeROI_encOk (key v : List Nat) {cs : List RNode}
    (hok : encOkF cs = true) (hkl : key.length < 2 ^ 27) (hv : v = goEmpty) :
    encOkF (treeROI key (some v) cs).2 = true := by
  rcases key with - | ⟨b, kt⟩
  · exact hok
  rw [treeROI]
  dsimp only
  split
  next hsome =>
    set fr := findNode b cs with hfrval
    set child := fr.2.get hsome with hchild
    have hfreq : findNode b cs = (fr.1, some child) := by
      rw [← hfrval, hchild]
      exact ((Prod.mk.eta).symm).trans (by rw [Option.some_get])
    have hcok : encOkN child = true :=
      (encOkF_iff cs).mp hok child (findNode_mem (by rw [hfreq]))
    refine (encOkF_iff _).mpr ?_
    intro c hc
    rcases List.mem_or_eq_of_mem_set hc with hmem | rfl
    · exact (encOkF_iff cs).mp hok c hmem
    · exact nodeROI_encOk child (b :: kt) v hcok hkl hv
  next hnone =>
    refine (encOkF_iff _).mpr ?_
    intro c hc
    rcases mem_insAt hc with rfl | hmem
    · refine (encOkN_iff _).mpr ⟨by simpa using hkl, ?_, by simp [encOkF]⟩
      right
      simp [hv]
    · exact (encOkF_iff cs).mp hok c hmem

theorem treeInsert_encOk (key : List Nat) {cs : List RNode}
    (hok : encOkF cs = true) (hkl : key.length < 2 ^ 27) :
    encOkF (treeInsert key cs) = true := by
  rw [treeInsert_eq_roi]
  exact treeROI_encOk key goEmpty hok hkl rfl

/-! ## Building a tree from a key list -/

/-- `BuildTree` of the round-trip claim: insert the keys in order into a
fresh tree. -/
def buildTree (S : List (List Nat)) : List RNode :=
  S.foldl (fun cs k => treeInsert k cs) []

theorem buildTree_fold : ∀ (S : List (List Nat)) (cs : List RNode),
    (∀ k ∈ S, k ≠ [] ∧ k.length < 2 ^ 27) → wfF cs = true → encOkF cs = true →
    wfF (S.foldl (fun cs k => treeInsert k cs) cs) = true
    ∧ encOkF (S.foldl (fun cs k => treeInsert k cs) cs) = true
    ∧ entriesF [] (S.foldl (fun cs k => treeInsert k cs) cs)
        = S.foldl (fun E k => entryIns k goEmpty E) (entriesF [] cs) := by
  intro S
  induction S with
  | nil =>
    intro cs h hwf hok
    exact ⟨hwf, hok, rfl⟩
  | cons k S' ih =>
    intro cs h hwf hok
    obtain ⟨hk, hkl⟩ := h k (by simp)
    obtain ⟨hwf2, hent2⟩ := treeInsert_spec k hwf hk
    have hok2 := treeInsert_encOk k hok hkl
    obtain ⟨ih1, ih2, ih3⟩ := ih (treeInsert k cs)
      (fun x hx => h x (by simp [hx])) hwf2 hok2
    rw [List.foldl_cons, List.foldl_cons]
    exact ⟨ih1, ih2, by rw [ih3, hent2]⟩

/-- The keys of an entry list after a fresh ordered insert. -/
theorem entryIns_fst_perm {k : List Nat} (v : List Nat)
    {l : List (List Nat × List Nat)} (h : ∀ e ∈ l, e.1 ≠ k) :
    ((entryIns k v l).map Prod.fst).Perm (k :: l.map Prod.fst) := by
  induction l with
  | nil => simp [entryIns]
  | cons e rest ih =>
    rw [entryIns_cons, if_neg (h e (by simp))]
    by_cases hlt : lexLt k e.1 = true
    · rw [if_pos hlt]
      simp
    · rw [if_neg hlt, List.map_cons]
      have hrec := ih (fun x hx => h x (by simp [hx]))
      exact (hrec.cons e.1).trans (List.Perm.swap k e.1 _)

/-- Keys in an ordered insert come from the written key or the old list. -/
theorem entryIns_fst_mem {k v : List Nat} {l : List (List Nat × List Nat)}
    {e : List Nat × List Nat} (he : e ∈ entryIns k v l) : e.1 = k ∨ e ∈ l := by
  induction l with
  | nil =>
    left
    rw [List.mem_singleton.mp he]
  | cons a rest ih =>
    rw [entryIns_cons] at he
    split at he
    · rcases List.mem_cons.mp he with rfl | hr
      · left
        rfl
      · right
        simp [hr]
    · split at he
      · rcases List.mem_cons.mp he with rfl | hr
        · left
          rfl
        · right
          exact hr
      · rcases List.mem_cons.mp he with rfl | hr
        · right
          simp
        · rcases ih hr with h1 | h2
          · left
            exact h1
          · right
            simp [h2]

/-- Folding fresh distinct keys into a sorted entry list produces exactly
those keys, up to order. -/
theorem foldIns_perm : ∀ (S : List (List Nat)) (E : List (List Nat × List Nat)),
    S.Nodup → (∀ k ∈ S, ∀ e ∈ E, e.1 ≠ k) →
    ((S.foldl (fun E k => entryIns k goEmpty E) E).map Prod.fst).Perm
      (E.map Prod.fst ++ S) := by
  intro S
  induction S with
  | nil =>
    intro E _ _
    simp
  | cons k S' ih =>
    intro E hnd h
    rw [List.foldl_cons]
    have hfresh : ∀ e ∈ E, e.1 ≠ k := h k (by simp)
    have hnext : ∀ k' ∈ S', ∀ e ∈ entryIns k goEmpty E, e.1 ≠ k' := by
      intro k' hk' e he
      rcases entryIns_fst_mem he with hek | hel
      · rw [hek]
        intro hkk
        rw [← hkk] at hk'
        exact (List.nodup_cons.mp hnd).1 hk'
      · exact h k' (by simp [hk']) e hel
    have hrec := ih (entryIns k goEmpty E) (List.nodup_cons.mp hnd).2 hnext
    have h1 := entryIns_fst_perm goEmpty hfresh
    exact hrec.trans ((h1.append_right S').trans List.perm_middle.symm)

/-- The Walk keys of `BuildTree S` are exactly `S`, up to order. -/
theorem buildTree_walk_perm (S : List (List Nat))
    (h : ∀ k ∈ S, k ≠ [] ∧ k.length < 2 ^ 27) (hnd : S.Nodup) :
    (walkKeysF (buildTree S)).Perm S := by
  obtain ⟨-, -, hent⟩ := buildTree_fold S [] h rfl rfl
  rw [walkKeysF, buildTree, hent]
  have hp := foldIns_perm S [] hnd (by simp)
  simpa using hp

/-! ## The heap model with explicit Go slices (claim C4)

Claim C4 is about what one clone observes while the other mutates, so
here the pointer structure of the source is explicit, including Go's
slice semantics, which the aliasing behaviour turns on.  A store holds
the heap nodes and the backing arrays of the `children` slices; an
address is an index.  A slice value is the header the code stores: the
backing array (none = a nil slice) and the length; its capacity is the
array's size.  Every slice the code stores into a `node` or a `Tree` has
offset zero (`make`, `append`, `[:len-1]` reslicing and the header copy
in `merge` all keep it), so the header needs no offset field.  `append`
writes in place when capacity remains and allocates a fresh, larger
array otherwise — `insetAt` and `deleteAt` shift cells of the backing
array in place, which every other slice sharing that array observes.
Prefix byte strings are kept as values: the code never writes prefix
bytes in place (`mutableFor` and `merge` copy them, the split replaces
whole headers), so byte-level sharing is unobservable.  The `cow`
context (`*copyOnWriteContext` identity) is a `Nat` tag; `newNode`
always allocates fresh since `freeNode` can never complete (C9).  Fuel
arguments only bound recursion depth. -/

/-- A slice header: backing array id (`none` = nil slice) and length. -/
structure GSlice : Type where
  aid : Option Nat
  len : Nat

/-- A heap node (`node`): value, allocating context tag, prefix bytes and
the `children` slice header. -/
structure GNode : Type where
  value : Option (List Nat)
  cow : Nat
  pfx : List Nat
  children : GSlice

/-- The heap: nodes, and backing arrays whose cells hold `*node` values
(`none` = nil); an array's list length is its capacity. -/
structure GStore : Type where
  nodes : List GNode
  arrs : List (List (Option Nat))

/-- A tree header (`Tree`): context tag and root `children` slice. -/
structure GTree : Type where
  cow : Nat
  children : GSlice

/-- Capacity of a slice: the size of its backing array. -/
def gCap (st : GStore) (s : GSlice) : Nat :=
  match s.aid with
  | none => 0
  | some a => (st.arrs.getD a []).length

/-- The `*node` stored in cell `i` of a slice. -/
def sliceGet (st : GStore) (s : GSlice) (i : Nat) : Option Nat :=
  match s.aid with
  | none => none
  | some a => (st.arrs.getD a []).getD i none

/-- The live cells of a slice, in order. -/
def sliceElems (st : GStore) (s : GSlice) : List (Option Nat) :=
  (List.range s.len).map (fun i => sliceGet st s i)

/-- `s[i] = v`: an in-place write into the backing array; indexing at or
beyond the length is the index-out-of-range panic (`none`). -/
def sliceSet (st : GStore) (s : GSlice) (i : Nat) (v : Option Nat) :
    Option GStore :=
  if i < s.len then
    match s.aid with
    | none => none
    | some a =>
      some ⟨st.nodes, st.arrs.set a ((st.arrs.getD a []).set i v)⟩
  else none

/-- Allocate a backing array with the given cells (`make` plus `copy`). -/
def gNewArr (st : GStore) (content : List (Option Nat)) : GStore × Nat :=
  (⟨st.nodes, st.arrs ++ [content]⟩, st.arrs.length)

/-- `cow.newNode()`: the free list never hands a node out (its `freeNode`
deadlocks, C9), so this is a fresh zeroed node tagged `c`. -/
def gNewNode (st : GStore) (c : Nat) : GStore × Nat :=
  (⟨st.nodes ++ [⟨none, c, [], ⟨none, 0⟩⟩], st.arrs⟩, st.nodes.length)

/-- Overwrite the node at address `a`. -/
def nodeSet (st : GStore) (a : Nat) (n : GNode) : GStore :=
  ⟨st.nodes.set a n, st.arrs⟩

/-- `append(s, v)` for one element: into the remaining capacity of the
same array when there is any, else a fresh array of doubled (at least
one-cell) capacity with the live cells copied. -/
def gAppend (st : GStore) (s : GSlice) (v : Option Nat) : GStore × GSlice :=
  match s.aid with
  | some a =>
    if s.len < gCap st s then
      (⟨st.nodes, st.arrs.set a ((st.arrs.getD a []).set s.len v)⟩,
        ⟨some a, s.len + 1⟩)
    else
      let ncap := max (2 * gCap st s) (s.len + 1)
      let q := gNewArr st (sliceElems st s ++ [v]
        ++ List.replicate (ncap - s.len - 1) none)
      (q.1, ⟨some q.2, s.len + 1⟩)
  | none =>
    let q := gNewArr st [v]
    (q.1, ⟨some q.2, 1⟩)

/-- `children.insetAt(node, index)`: append nil, shift the tail one cell
right (`copy` is a memmove), then write the node at `index`. -/
def gInsetAt (st : GStore) (s : GSlice) (nd : Nat) (index : Nat) :
    Option (GStore × GSlice) :=
  let p := gAppend st s none
  let st1 := p.1
  let s1 := p.2
  let st2 :=
    if index < s1.len then
      match s1.aid with
      | none => st1
      | some a =>
        let arr := (GStore.arrs st1).getD a []
        let arr2 := (List.range arr.length).map (fun j =>
          if index + 1 ≤ j ∧ j < s1.len then arr.getD (j - 1) none
          else arr.getD j none)
        ⟨GStore.nodes st1, (GStore.arrs st1).set a arr2⟩
    else st1
  match sliceSet st2 s1 index (some nd) with
  | none => none
  | some st3 => some (st3, s1)

/-- `children.deleteAt(index)`: shift the tail one cell left, nil the
last live cell, shrink the header by one (same backing array). -/
def gDeleteAt (st : GStore) (s : GSlice) (index : Nat) :
    Option (GStore × GSlice) :=
  if s.len = 0 then none
  else
    match s.aid with
    | none => none
    | some a =>
      let arr := st.arrs.getD a []
      let arr2 := (List.range arr.length).map (fun j =>
        if index ≤ j ∧ j + 1 < s.len then arr.getD (j + 1) none
        else if j = s.len - 1 then none
        else arr.getD j none)
      some (⟨st.nodes, st.arrs.set a arr2⟩, ⟨some a, s.len - 1⟩)

/-- First prefix byte of the node in cell `i`, with an out-of-byte-range
default that only orients the search on the well-formed slices the code
maintains (every live cell a node with a non-empty prefix). -/
def gHeadByte (st : GStore) (s : GSlice) (i : Nat) : Nat :=
  match sliceGet st s i with
  | none => 256
  | some a =>
    match (GStore.nodes st)[a]? with
    | none => 256
    | some nd => nd.pfx.headD 256

/-- `children.findNode(first)`: `sort.Search` for the least index whose
child starts past `first` (`findIdx` computes exactly that on the sorted
slices the code maintains), then the equality probe one cell before. -/
def gFindNode (st : GStore) (s : GSlice) (first : Nat) : Nat × Option Nat :=
  let i := (List.range s.len).findIdx (fun j => first < gHeadByte st s j)
  if 0 < i ∧ gHeadByte st s (i - 1) = first then (i - 1, sliceGet st s (i - 1))
  else (i, none)

/-- `node.mutableFor(cow)`: an owned node is returned as is; otherwise a
fresh node tagged `cow` with the prefix copied and the children cells
copied into a fresh array of the same capacity (the fresh node's own nil
children slice has capacity 0, so the `make` branch runs whenever the
source slice is non-empty). -/
def gMutableFor (st : GStore) (a : Nat) (c : Nat) : Option (GStore × Nat) :=
  match st.nodes[a]? with
  | none => none
  | some n =>
    if n.cow = c then some (st, a)
    else if n.children.len = 0 then
      let p := gNewNode st c
      some (nodeSet p.1 p.2 ⟨n.value, c, n.pfx, ⟨none, 0⟩⟩, p.2)
    else
      let q := gNewArr st (sliceElems st n.children
        ++ List.replicate (gCap st n.children - n.children.len) none)
      let p := gNewNode q.1 c
      some (nodeSet p.1 p.2 ⟨n.value, c, n.pfx, ⟨some q.2, n.children.len⟩⟩,
        p.2)

/-- `children.mutableChild(cow, index)`: reads the cell (nil dereference
panics), copies a foreign child and writes the copy back into the same
cell. -/
def gMutableChildS (st : GStore) (s : GSlice) (c : Nat) (index : Nat) :
    Option (GStore × Nat) :=
  match sliceGet st s index with
  | none => none
  | some ca =>
    match st.nodes[ca]? with
    | none => none
    | some n =>
      if n.cow = c then some (st, ca)
      else
        match gMutableFor st ca c with
        | none => none
        | some (st2, ca2) =>
          match sliceSet st2 s index (some ca2) with
          | none => none
          | some st3 => some (st3, ca2)

/-- `node.mutableChild(i)`: copy child `i` under the receiver's context
and write it back into the receiver's slice. -/
def gMutableChildN (st : GStore) (a : Nat) (i : Nat) : Option (GStore × Nat) :=
  match st.nodes[a]? with
  | none => none
  | some n =>
    match sliceGet st n.children i with
    | none => none
    | some ca =>
      match gMutableFor st ca n.cow with
      | none => none
      | some (st2, ca2) =>
        match sliceSet st2 n.children i (some ca2) with
        | none => none
        | some st3 => some (st3, ca2)

/-- `node.merge()`: absorb the only child — value and concatenated (and
freshly allocated) prefix are taken over, and `n.children` becomes the
child's slice HEADER, sharing the child's backing array; the old array's
cell 0 is nil-ed in place. -/
def gMerge (st : GStore) (a : Nat) : Option GStore :=
  match st.nodes[a]? with
  | none => none
  | some n =>
    if 0 < n.children.len then
      match sliceGet st n.children 0 with
      | none => none
      | some c0a =>
        match st.nodes[c0a]? with
        | none => none
        | some c0 =>
          let st2 := nodeSet st a ⟨c0.value, n.cow, n.pfx ++ c0.pfx,
            c0.children⟩
          match sliceSet st2 n.children 0 none with
          | none => none
          | some st3 => some st3
    else none

/-- `node.replaceOrInsert(key, val)`: exact-prefix value update; descend
on a full prefix match (copying the child first); otherwise split —
`child := *n` copies the node struct, so the split-off child keeps the
SAME children slice header as `n` had, then `n` gets the two-cell
`make(children, 1, 2)` array holding the split-off child. -/
def gROI : Nat → GStore → Nat → List Nat → List Nat →
    Option (GStore × Option (List Nat))
  | 0, _, _, _, _ => none
  | fuel + 1, st, a, key, val =>
    match st.nodes[a]? with
    | none => none
    | some n =>
      if n.pfx = key then
        some (nodeSet st a ⟨some val, n.cow, n.pfx, n.children⟩,
          match n.value with
          | none => none
          | some old => some old)
      else
        let index := prefixLen n.pfx key
        if index = n.pfx.length then
          match key.drop index with
          | [] => none
          | b :: rest2 =>
            let fr := gFindNode st n.children b
            match fr.2 with
            | none =>
              let p := gNewNode st n.cow
              let st2 := nodeSet p.1 p.2
                ⟨some val, n.cow, b :: rest2, ⟨none, 0⟩⟩
              match gInsetAt st2 n.children p.2 fr.1 with
              | none => none
              | some (st3, s2) =>
                some (nodeSet st3 a ⟨n.value, n.cow, n.pfx, s2⟩, none)
            | some _ =>
              match gMutableChildN st a fr.1 with
              | none => none
              | some (st2, ca) => gROI fuel st2 ca (b :: rest2) val
        else
          let p := gNewNode st n.cow
          let st1 := nodeSet p.1 p.2
            ⟨n.value, n.cow, n.pfx.drop index, n.children⟩
          let q := gNewArr st1 [some p.2, none]
          let s2 : GSlice := ⟨some q.2, 1⟩
          match key.drop index with
          | [] =>
            some (nodeSet q.1 a ⟨some val, n.cow, n.pfx.take index, s2⟩,
              none)
          | b :: rest2 =>
            let st2 := nodeSet q.1 a ⟨none, n.cow, n.pfx.take index, s2⟩
            let fr := gFindNode st2 s2 b
            let r := gNewNode st2 n.cow
            let st3 := nodeSet r.1 r.2
              ⟨some val, n.cow, b :: rest2, ⟨none, 0⟩⟩
            match gInsetAt st3 s2 r.2 fr.1 with
            | none => none
            | some (st4, s3) =>
              some (nodeSet st4 a ⟨none, n.cow, n.pfx.take index, s3⟩,
                none)

/-- `Tree.Insert(key)`: empty keys are ignored; a missing first byte
inserts a fresh leaf at the root, else the root child is copied under the
tree's context and `replaceOrInsert` descends. -/
def gInsert (fuel : Nat) (st : GStore) (t : GTree) (key : List Nat) :
    Option (GStore × GTree) :=
  match key with
  | [] => some (st, t)
  | b :: _ =>
    let fr := gFindNode st t.children b
    match fr.2 with
    | none =>
      let p := gNewNode st t.cow
      let st2 := nodeSet p.1 p.2 ⟨some goEmpty, t.cow, key, ⟨none, 0⟩⟩
      match gInsetAt st2 t.children p.2 fr.1 with
      | none => none
      | some (st3, s2) => some (st3, ⟨t.cow, s2⟩)
    | some _ =>
      match gMutableChildS st t.children t.cow fr.1 with
      | none => none
      | some (st2, ca) =>
        match gROI fuel st2 ca key goEmpty with
        | none => none
        | some (st3, _) => some (st3, t)

/-- `children.delete(cow, key)`, returning the updated slice header the
caller stores back (the source passes `*children`). -/
def gDeleteS : Nat → GStore → GSlice → Nat → List Nat →
    Option (GStore × GSlice)
  | 0, _, _, _, _ => none
  | fuel + 1, st, s, c, key =>
    match key with
    | [] => none
    | b :: _ =>
      let fr := gFindNode st s b
      match fr.2 with
      | none => some (st, s)
      | some _ =>
        match gMutableChildS st s c fr.1 with
        | none => none
        | some (st1, ca) =>
          match (GStore.nodes st1)[ca]? with
          | none => none
          | some child =>
            if key.length < child.pfx.length
                ∨ key.take child.pfx.length ≠ child.pfx then
              some (st1, s)
            else if child.pfx.length = key.length then
              if child.children.len = 0 then
                match gDeleteAt st1 s fr.1 with
                | none => none
                | some (st2, s2) =>
                  some (nodeSet st2 ca
                    ⟨child.value, child.cow, [], child.children⟩, s2)
              else if child.children.len = 1 then
                match gMerge st1 ca with
                | none => none
                | some st2 => some (st2, s)
              else
                some (nodeSet st1 ca
                  ⟨none, child.cow, child.pfx, child.children⟩, s)
            else if child.children.len = 0 then
              some (st1, s)
            else
              match gDeleteS fuel st1 child.children c
                  (key.drop child.pfx.length) with
              | none => none
              | some (st2, cs2) =>
                match (GStore.nodes st2)[ca]? with
                | none => none
                | some child2 =>
                  let st3 := nodeSet st2 ca
                    ⟨child2.value, child2.cow, child2.pfx, cs2⟩
                  if cs2.len = 1 ∧ child2.value = none then
                    match gMerge st3 ca with
                    | none => none
                    | some st4 => some (st4, s)
                  else some (st3, s)

/-- `Tree.Delete(key)`. -/
def gDelete (fuel : Nat) (st : GStore) (t : GTree) (key : List Nat) :
    Option (GStore × GTree) :=
  match gDeleteS fuel st t.children t.cow key with
  | none => none
  | some (st2, s2) => some (st2, ⟨t.cow, s2⟩)

/-- `Tree.Clone()`: the returned clone gets a fresh copy of the root
slice (`make` of exact length, then `copy`) and context `c1`; the
receiver keeps its root slice and gets fresh context `c2`.  All deeper
nodes and arrays are shared. -/
def gClone (st : GStore) (t : GTree) (c1 c2 : Nat) :
    GStore × GTree × GTree :=
  let q := gNewArr st (sliceElems st t.children)
  (q.1, ⟨c1, ⟨some q.2, t.children.len⟩⟩, ⟨c2, t.children⟩)

/-- `children.walk` over the live cells in order: a nil cell is the
source's nil dereference (`none`); a keyed node emits its full key (the
concatenated prefix stack) and value before its subtree.  Fuel only
bounds the recursion depth. -/
def gWalkL : Nat → GStore → List (Option Nat) → List Nat →
    Option (List (List Nat × List Nat))
  | _, _, [], _ => some []
  | 0, _, _ :: _, _ => none
  | _ + 1, _, none :: _, _ => none
  | fuel + 1, st, some a :: rest, acc =>
    match st.nodes[a]? with
    | none => none
    | some nd =>
      match gWalkL fuel st (sliceElems st nd.children) (acc ++ nd.pfx) with
      | none => none
      | some sub =>
        match gWalkL fuel st rest acc with
        | none => none
        | some rs =>
          match nd.value with
          | some v => some ((acc ++ nd.pfx, v) :: (sub ++ rs))
          | none => some (sub ++ rs)

/-- `Tree.Walk`: every (full key, value) pair in emission order. -/
def gWalk (fuel : Nat) (st : GStore) (t : GTree) :
    Option (List (List Nat × List Nat)) :=
  gWalkL fuel st (sliceElems st t.children) []

/-- The C4 counterexample trace: build {"ab", "abcd", "abc"} in a fresh
tree, `Clone` it, then mutate ONLY the receiver handle — `Delete("ab")`
followed by `Insert("abcb")` — and record the untouched clone's Walk
output before and after those two mutations. -/
def c4Trace : Option ((List (List Nat × List Nat))
    × (List (List Nat × List Nat))) :=
  let st0 : GStore := ⟨[], []⟩
  let t0 : GTree := ⟨0, ⟨none, 0⟩⟩
  match gInsert 9 st0 t0 [97, 98] with
  | none => none
  | some (st1, t1) =>
    match gInsert 9 st1 t1 [97, 98, 99, 100] with
    | none => none
    | some (st2, t2) =>
      match gInsert 9 st2 t2 [97, 98, 99] with
      | none => none
      | some (st3, t3) =>
        match gClone st3 t3 1 2 with
        | (st4, tClone, tMain) =>
          match gWalk 9 st4 tClone with
          | none => none
          | some before2 =>
            match gDelete 9 st4 tMain [97, 98] with
            | none => none
            | some (st5, tm1) =>
              match gInsert 9 st5 tm1 [97, 98, 99, 98] with
              | none => none
              | some (st6, _) =>
                match gWalk 9 st6 tClone with
                | none => none
                | some after2 => some (before2, after2)



/-! ## Claim theorems: the four code bugs (C2, C5, C6, C9) -/

/-- C9 (code_bug evidence): the release path of the pool never terminates —
`FreeList.freeNode` re-acquires the mutex it already holds (source line 73
is a second `Lock`, not an `Unlock`), so every call deadlocks, for every
pool state and node.  The claim that every release call terminates with the
pool at most at capacity is the evident intent (spec §3 Pool, §9), and the
code contradicts it. -/
theorem c9_freeNode_never_returns (fl : FreeList) (n : RNode) :
    freeNode fl n = none := by
  rcases fl with ⟨⟨locked⟩, nodes, size⟩
  cases locked
  · rw [freeNode]
    simp [mutexLock, apply_ite FreeList.mu]
  · rw [freeNode]
    simp [mutexLock]

/-- C9 witness-style closed instance: releasing one node to a fresh default
pool (capacity 32, as `New()` configures) already deadlocks. -/
theorem c9_freeNode_never_returns_witness :
    freeNode (newFreeList 32) (.mk none [] []) = none :=
  c9_freeNode_never_returns _ _

/-- C5 (code_bug evidence): `Tree.Delete` with an empty key panics instead
of being a no-op: it forwards the key unchecked to `children.delete`, whose
first step evaluates `key[0]` — an index-out-of-range panic (`none`), on
every tree including the empty one. -/
theorem c5_delete_empty_key_panics (cs : List RNode) : treeDelete [] cs = none := by
  rw [treeDelete, childrenDelete]

/-- C5 closed instance: `Delete([])` on a freshly created empty tree
panics. -/
theorem c5_delete_empty_key_panics_witness : treeDelete [] [] = none :=
  c5_delete_empty_key_panics []

/-- C6 (code_bug evidence): a stream consisting of the single byte `0x00` —
an opcode byte that is none of `'+'`, `'='`, `'-'` at a record boundary —
does NOT abort decoding: the producer's `switch` has no `default` case, so
the byte is silently skipped and `ReBuildTree` returns an empty tree with a
nil error.  (The consumer does carry an `unkown opCode` error branch, but
the producer never forwards an unknown opcode to it, so it is dead code —
the abort is the evident intent.) -/
theorem c6_unknown_opcode_silently_skipped :
    reBuild some [0] = .ok ([] : List RNode) := by
  have h1 : produce some [0] [] [] = ([], false) := by
    rw [produce]
    norm_num [goBufferSize]
    rw [produce]
    simp
  simp [reBuild, h1, consume]

/-- C2 (code_bug evidence): after inserting exactly the keys `"ab"` and
`"aby"`, `Find("axy")` returns `true` although `"axy"` was never inserted
(the Walk output in the second conjunct lists the two genuinely present
keys).  `node.find` strips `len(n.prefix)` bytes off the key after a failed
exact-equality test without ever comparing the non-initial prefix bytes, so
the mismatched byte `'x'` is skipped and the suffix `"y"` is found.  The
spec's membership property (`Find(k) = false` for `k ∉ S`, never failing)
is the evident intent — `node.find` can also panic, see
`c2_find_can_panic` inside the C2 theorem's second part below. -/
theorem c2_find_false_positive :
    treeFind (treeInsert [97, 98, 121] (treeInsert [97, 98] [])) [97, 120, 121]
        = some true ∧
      walkKeysF (treeInsert [97, 98, 121] (treeInsert [97, 98] []))
        = [[97, 98], [97, 98, 121]] ∧
      treeFind (treeInsert [97, 98, 121] (treeInsert [97, 98] [])) [97]
        = none := by
  have h1 : treeInsert [97, 98] [] = [.mk (some goEmpty) [97, 98] []] := by
    rw [treeInsert]
    norm_num [findNode, insAt]
  have h2 : treeInsert [97, 98, 121] [RNode.mk (some goEmpty) [97, 98] []]
      = [.mk (some goEmpty) [97, 98] [.mk (some goEmpty) [121] []]] := by
    rw [treeInsert]
    norm_num [findNode, List.findIdx_cons, RNode.headByte, RNode.pfx]
    rw [nodeROI]
    norm_num [RNode.pfx, RNode.value, RNode.children, prefixLen, findNode, insAt]
  rw [h1, h2]
  refine ⟨?_, ?_, ?_⟩
  · rw [treeFind]
    norm_num [findNode, List.findIdx_cons, RNode.headByte, RNode.pfx]
    rw [nodeFind]
    norm_num [RNode.pfx, RNode.value, RNode.children, findNode, List.findIdx_cons,
      RNode.headByte]
    rw [nodeFind]
    norm_num [RNode.pfx, RNode.value]
  · simp [walkKeysF, entriesN, entriesF, goEmpty]
  · rw [treeFind]
    norm_num [findNode, List.findIdx_cons, RNode.headByte, RNode.pfx]
    rw [nodeFind]
    norm_num [RNode.pfx, RNode.value]

/-- C3 (confirmed): after every finite sequence of `Insert`/`Delete`
operations starting from a fresh (empty) tree that completes without
panicking, the resulting tree is in canonical compressed form — no
reachable node has exactly one child and no value. -/
theorem c3_canonical_form (ops : List TOp) (f : List RNode)
    (h : applyOps ops [] = some f) : canonF f = true :=
  wfF_canonF f (applyOps_wf ops [] f rfl h)

theorem c3_canonical_form_witness :
    applyOps [TOp.ins [97]] [] = some [RNode.mk (some goEmpty) [97] []]
    ∧ canonF [RNode.mk (some goEmpty) [97] []] = true := by
  have e1 : treeInsert [97] [] = [RNode.mk (some goEmpty) [97] []] := by
    rw [treeInsert]
    norm_num [findNode, insAt]
  have echain : applyOps [TOp.ins [97]] []
      = some [RNode.mk (some goEmpty) [97] []] := by
    rw [applyOps, List.foldlM_cons,
      show applyOp [] (TOp.ins [97]) = some [RNode.mk (some goEmpty) [97] []]
        from congrArg some e1]
    simp only [Option.pure_def, Option.bind_eq_bind, Option.some_bind,
      List.foldlM_nil]
  exact ⟨echain, c3_canonical_form _ _ echain⟩

/-- C7 (confirmed): for every tree built by a panic-free `Insert`/`Delete`
sequence from a fresh tree, the keys Walk visits — each the concatenation
of the prefix segments on the path, in pre-order — are in strictly
ascending byte-lexicographic order. -/
theorem c7_walk_sorted (ops : List TOp) (f : List RNode)
    (h : applyOps ops [] = some f) :
    (walkKeysF f).Pairwise (fun a b => lexLt a b = true) := by
  have hwf := applyOps_wf ops [] f rfl h
  have hs := entries_sorted.2 f hwf []
  rw [walkKeysF, List.pairwise_map]
  exact hs

theorem c7_walk_sorted_witness :
    applyOps [TOp.ins [98], TOp.ins [97, 99]] []
      = some [RNode.mk (some goEmpty) [97, 99] [], RNode.mk (some goEmpty) [98] []]
    ∧ (walkKeysF [RNode.mk (some goEmpty) [97, 99] [],
        RNode.mk (some goEmpty) [98] []]).Pairwise
        (fun a b => lexLt a b = true) := by
  have e1 : treeInsert [98] [] = [RNode.mk (some goEmpty) [98] []] := by
    rw [treeInsert]
    norm_num [findNode, insAt]
  have e2 : treeInsert [97, 99] [RNode.mk (some goEmpty) [98] []]
      = [RNode.mk (some goEmpty) [97, 99] [], RNode.mk (some goEmpty) [98] []] := by
    rw [treeInsert]
    norm_num [findNode, List.findIdx_cons, RNode.headByte, RNode.pfx, insAt]
  have echain : applyOps [TOp.ins [98], TOp.ins [97, 99]] []
      = some [RNode.mk (some goEmpty) [97, 99] [], RNode.mk (some goEmpty) [98] []] := by
    rw [applyOps, List.foldlM_cons,
      show applyOp [] (TOp.ins [98]) = some [RNode.mk (some goEmpty) [98] []]
        from congrArg some e1]
    simp only [Option.pure_def, Option.bind_eq_bind, Option.some_bind]
    rw [List.foldlM_cons,
      show applyOp [RNode.mk (some goEmpty) [98] []] (TOp.ins [97, 99])
          = some [RNode.mk (some goEmpty) [97, 99] [],
            RNode.mk (some goEmpty) [98] []]
        from congrArg some e2]
    simp only [Option.pure_def, Option.bind_eq_bind, Option.some_bind,
      List.foldlM_nil]
  exact ⟨echain, c7_walk_sorted _ _ echain⟩

/-- C8 (confirmed): re-inserting an existing non-empty key never duplicates
it — both a second `Insert` and a `ReplaceOrInsert` with an arbitrary value
leave the Walk key list unchanged, and `ReplaceOrInsert` updates the stored
value in place. -/
theorem c8_reinsert_no_duplicate {cs : List RNode} (key v : List Nat)
    (hwf : wfF cs = true) (hk : key ≠ []) :
    walkKeysF (treeInsert key (treeInsert key cs)) = walkKeysF (treeInsert key cs)
    ∧ walkKeysF (treeROI key (some v) (treeInsert key cs)).2
        = walkKeysF (treeInsert key cs)
    ∧ entryLookup key (entriesF [] (treeROI key (some v) (treeInsert key cs)).2)
        = some v := by
  have h1 := treeInsert_spec key hwf hk
  have h2 := treeInsert_spec key h1.1 hk
  have h3 := treeROI_spec key v h1.1 hk
  refine ⟨?_, ?_, ?_⟩
  · rw [walkKeysF, walkKeysF, h2.2, h1.2, entryIns_idem]
  · rw [walkKeysF, walkKeysF, h3.2.1, h1.2, entryIns_idem]
    exact entryIns_fst_indep key v goEmpty (entriesF [] cs)
  · rw [h3.2.1, h1.2, entryIns_idem, entryLookup_ins_self]

theorem c8_reinsert_no_duplicate_witness :
    wfF [] = true ∧ ([97] : List Nat) ≠ []
    ∧ (walkKeysF (treeInsert [97] (treeInsert [97] []))
          = walkKeysF (treeInsert [97] [])
        ∧ walkKeysF (treeROI [97] (some [104]) (treeInsert [97] [])).2
            = walkKeysF (treeInsert [97] [])
        ∧ entryLookup [97]
            (entriesF [] (treeROI [97] (some [104]) (treeInsert [97] [])).2)
            = some [104]) :=
  ⟨rfl, by decide, c8_reinsert_no_duplicate [97] [104] rfl (by decide)⟩

/-- C10 (confirmed): `Insert k` stores the package-level sentinel `Empty`
(the bytes of "empty") as `k`'s value: Walk's output contains the entry
`(k, Empty)`, and a later `ReplaceOrInsert k v` on that tree returns
`some Empty`, not the absent-value indicator `none`. -/
theorem c10_empty_sentinel {cs : List RNode} (key v : List Nat)
    (hwf : wfF cs = true) (hk : key ≠ []) :
    (key, goEmpty) ∈ entriesF [] (treeInsert key cs)
    ∧ (treeROI key (some v) (treeInsert key cs)).1 = some goEmpty := by
  have h1 := treeInsert_spec key hwf hk
  have h3 := treeROI_spec key v h1.1 hk
  refine ⟨?_, ?_⟩
  · rw [h1.2]
    exact mem_entryIns_self key goEmpty (entriesF [] cs)
  · rw [h3.2.2, h1.2, entryLookup_ins_self]

theorem c10_empty_sentinel_witness :
    wfF [] = true ∧ ([97] : List Nat) ≠ []
    ∧ (([97], goEmpty) ∈ entriesF [] (treeInsert [97] [])
        ∧ (treeROI [97] (some [120]) (treeInsert [97] [])).1 = some goEmpty) :=
  ⟨rfl, by decide, c10_empty_sentinel [97] [120] rfl (by decide)⟩

/-- C1 (confirmed, with `WriteTo`'s buffer bound made explicit): for every
finite list `S` of distinct non-empty keys shorter than `2 ^ 27` bytes and
every marshal/unmarshal pair that round-trips the sentinel value into less
than `2 ^ 27` bytes — beyond that length the zigzag varint of a prefix or
value length overflows the four-byte `lenBuf` and `WriteTo` panics —
encoding the tree built from `S` (`Tree.WriteTo`) and decoding the opcode
stream (`ReBuildTree`) succeeds and returns exactly that tree, whose Walk
keys are exactly `S` with no duplicates and no omissions. -/
theorem c1_roundtrip (S : List (List Nat)) (m um : List Nat → Option (List Nat))
    (d : List Nat)
    (hS : ∀ k ∈ S, k ≠ [] ∧ k.length < 2 ^ 27) (hnd : S.Nodup)
    (hmd : m goEmpty = some d) (hdlen : d.length < 2 ^ 27)
    (humd : um d = some goEmpty) :
    ∃ out, treeWriteTo m (buildTree S) = some out
      ∧ reBuild um out = .ok (buildTree S)
      ∧ (walkKeysF (buildTree S)).Perm S := by
  obtain ⟨-, hok, -⟩ := buildTree_fold S [] hS rfl rfl
  obtain ⟨out, he, hrb⟩ := reBuild_encodeF m um d hmd hdlen humd hok
  refine ⟨out, ?_, hrb, buildTree_walk_perm S hS hnd⟩
  rw [treeWriteTo_eq, buildTree, he]

theorem c1_roundtrip_witness :
    (∀ k ∈ ([[97], [98, 99]] : List (List Nat)), k ≠ [] ∧ k.length < 2 ^ 27)
    ∧ ([[97], [98, 99]] : List (List Nat)).Nodup
    ∧ (fun v => some v) goEmpty = some goEmpty
    ∧ goEmpty.length < 2 ^ 27
    ∧ (∃ out, treeWriteTo (fun v => some v) (buildTree [[97], [98, 99]]) = some out
        ∧ reBuild (fun v => some v) out = .ok (buildTree [[97], [98, 99]])
        ∧ (walkKeysF (buildTree [[97], [98, 99]])).Perm [[97], [98, 99]]) := by
  refine ⟨by decide, by decide, rfl, by decide, ?_⟩
  exact c1_roundtrip [[97], [98, 99]] (fun v => some v) (fun v => some v)
    goEmpty (by decide) (by decide) rfl (by decide) rfl

/-- C4 (refuted): the counterexample trace — Clone a tree holding
{"ab", "abcd", "abc"}, then Delete "ab" and Insert "abcb" through the
receiver handle only — changes the untouched clone's Walk output from
{ab, abc, abcd} to {ab, abc, abcb}: `merge` takes over the foreign
child's children slice HEADER and `insetAt` then appends into that
shared backing array's spare capacity, shifting a cell the clone's node
still reads. -/
theorem c4_clone_walk_interference :
    c4Trace = some (
      [([97, 98], goEmpty), ([97, 98, 99], goEmpty),
        ([97, 98, 99, 100], goEmpty)],
      [([97, 98], goEmpty), ([97, 98, 99], goEmpty),
        ([97, 98, 99, 98], goEmpty)])
    ∧ ([([97, 98], goEmpty), ([97, 98, 99], goEmpty),
        ([97, 98, 99, 100], goEmpty)] : List (List Nat × List Nat))
      ≠ [([97, 98], goEmpty), ([97, 98, 99], goEmpty),
        ([97, 98, 99, 98], goEmpty)] := by
  exact ⟨rfl, by decide⟩


end RTree
